import Mathlib

/-!
# Athena worker: a model of `workers/go/main.go` and its specification

The first part of the file embeds the program: the Go values it handles, the
library routines it calls (encoding/json for a `Task`, the RFC 3339 text of
package time, fmt.Sprintf, channels, contexts, uuid and zerolog as far as the
program uses them) and the functions of the program itself. Strings are
sequences of Unicode characters, so the model covers text that is valid
UTF-8. The decimal text of floating-point numbers, the layout parser of
package time and the zone database are parameters (`Runtime`). The JSON
grammar of RFC 8259 is stated on its own (`json.WellFormed`) and the parser
of the model is shown to accept exactly its texts (`json.parse_iff`).

The second part proves the properties of the specification, claim by claim.
-/

namespace Athena

/-! Characters and decimal numerals (package strconv). -/

/-- The double quote character. -/
def dquote : Char := Char.ofNat 34

/-- The backslash character. -/
def backslash : Char := Char.ofNat 92

/-- The opening brace. -/
def lbrace : Char := Char.ofNat 123

/-- The closing brace. -/
def rbrace : Char := Char.ofNat 125

/-- ASCII decimal digit test. -/
def isDigit (c : Char) : Bool := decide (48 ≤ c.toNat) && decide (c.toNat ≤ 57)

/-- Value of an ASCII decimal digit. -/
def digitVal (c : Char) : Nat := c.toNat - 48

/-- The ASCII digit for a value below ten. -/
def digitChar (d : Nat) : Char := Char.ofNat (48 + d)

/-- Decimal digits of a natural number, most significant first; the first
argument bounds the number of digits produced. -/
def formatNatFuel : Nat → Nat → List Char
  | 0, _ => []
  | fuel + 1, n =>
    if n < 10 then [digitChar n]
    else formatNatFuel fuel (n / 10) ++ [digitChar (n % 10)]

/-- Model of strconv.FormatUint(n, 10). -/
def formatNat (n : Nat) : List Char := formatNatFuel (n + 1) n

/-- Model of strconv.FormatInt(n, 10). -/
def formatInt (n : Int) : List Char :=
  if n < 0 then '-' :: formatNat n.natAbs else formatNat n.natAbs

/-- Value of a string of decimal digits. -/
def parseDigits (ds : List Char) : Nat :=
  ds.foldl (fun acc c => acc * 10 + digitVal c) 0

/-- The digits of strconv.ParseInt(s, 10, 64) after the optional sign: one or
more decimal digits, the signed value lying in the int64 range. -/
def parseMagnitude (negative : Bool) (ds : List Char) : Option Int :=
  if ds.isEmpty || !(ds.all isDigit) then none
  else
    let v : Int := if negative then -(parseDigits ds : Int) else (parseDigits ds : Int)
    if -9223372036854775808 ≤ v ∧ v ≤ 9223372036854775807 then some v else none

/-- Model of strconv.ParseInt(s, 10, 64). -/
def parseInt64 (s : List Char) : Option Int :=
  match s with
  | '-' :: r => parseMagnitude true r
  | '+' :: r => parseMagnitude false r
  | _ => parseMagnitude false s

namespace json

/-- A syntactically valid JSON text as the decoder sees it: number and string
literals are kept as the raw source text (for strings, the text between the
quotes, escapes included) and are converted only when stored. -/
inductive Value where
  | null
  | bool (b : Bool)
  | number (lit : List Char)
  | string (raw : List Char)
  | array (elems : List Value)
  | object (members : List (List Char × Value))
  deriving Repr

/-- Whitespace accepted between JSON tokens (scanner isSpace). -/
def isSpace (c : Char) : Bool :=
  c.toNat == 32 || c.toNat == 9 || c.toNat == 13 || c.toNat == 10

/-- Drop leading whitespace. -/
def skipSpace : List Char → List Char
  | [] => []
  | c :: cs => if isSpace c then skipSpace cs else c :: cs

/-- Hexadecimal digit test (either case). -/
def isHex (c : Char) : Bool :=
  isDigit c || (decide (97 ≤ c.toNat) && decide (c.toNat ≤ 102))
    || (decide (65 ≤ c.toNat) && decide (c.toNat ≤ 70))

/-- Scanner states inside a string literal. -/
inductive StrState where
  | inString
  | inStringEsc
  | inStringEscU (remaining : Nat)

/-- The characters that may follow a backslash, other than u. -/
def isSimpleEscape (c : Char) : Bool :=
  c == 'b' || c == 'f' || c == 'n' || c == 'r' || c == 't' || c == backslash
    || c == '/' || c == dquote

/-- Put a character in front of the literal being scanned. -/
def consRaw (c : Char) : Option (List Char × List Char) → Option (List Char × List Char)
  | some (raw, rest) => some (c :: raw, rest)
  | none => none

/-- Scan the body of a string literal, the opening quote already consumed
(scanner states stateInString, stateInStringEsc, stateInStringEscU..U123):
returns the raw text before the closing quote and the input after it. -/
def scanString : StrState → List Char → Option (List Char × List Char)
  | _, [] => none
  | .inString, c :: cs =>
    if c = dquote then some ([], cs)
    else if c = backslash then consRaw c (scanString .inStringEsc cs)
    else if c.toNat < 32 then none
    else consRaw c (scanString .inString cs)
  | .inStringEsc, c :: cs =>
    if isSimpleEscape c then consRaw c (scanString .inString cs)
    else if c = 'u' then consRaw c (scanString (.inStringEscU 3) cs)
    else none
  | .inStringEscU n, c :: cs =>
    if isHex c then
      match n with
      | 0 => consRaw c (scanString .inString cs)
      | k + 1 => consRaw c (scanString (.inStringEscU k) cs)
    else none

/-- Scanner states inside a number literal. -/
inductive NumState where
  | neg
  | zero
  | int
  | dot
  | frac
  | e
  | eSign
  | exp

/-- Scan a number literal (scanner states stateNeg, state0, state1, stateDot,
stateDot0, stateE, stateESign, stateE0): returns the literal and the input
after it. -/
def scanNumber : NumState → List Char → Option (List Char × List Char)
  | .neg, [] => none
  | .neg, c :: cs =>
    if c = '0' then consRaw c (scanNumber .zero cs)
    else if isDigit c then consRaw c (scanNumber .int cs)
    else none
  | .zero, [] => some ([], [])
  | .zero, c :: cs =>
    if c = '.' then consRaw c (scanNumber .dot cs)
    else if c = 'e' ∨ c = 'E' then consRaw c (scanNumber .e cs)
    else some ([], c :: cs)
  | .int, [] => some ([], [])
  | .int, c :: cs =>
    if isDigit c then consRaw c (scanNumber .int cs)
    else if c = '.' then consRaw c (scanNumber .dot cs)
    else if c = 'e' ∨ c = 'E' then consRaw c (scanNumber .e cs)
    else some ([], c :: cs)
  | .dot, [] => none
  | .dot, c :: cs =>
    if isDigit c then consRaw c (scanNumber .frac cs) else none
  | .frac, [] => some ([], [])
  | .frac, c :: cs =>
    if isDigit c then consRaw c (scanNumber .frac cs)
    else if c = 'e' ∨ c = 'E' then consRaw c (scanNumber .e cs)
    else some ([], c :: cs)
  | .e, [] => none
  | .e, c :: cs =>
    if c = '+' ∨ c = '-' then consRaw c (scanNumber .eSign cs)
    else if isDigit c then consRaw c (scanNumber .exp cs)
    else none
  | .eSign, [] => none
  | .eSign, c :: cs =>
    if isDigit c then consRaw c (scanNumber .exp cs) else none
  | .exp, [] => some ([], [])
  | .exp, c :: cs =>
    if isDigit c then consRaw c (scanNumber .exp cs)
    else some ([], c :: cs)

/-- Scan a number literal from its first character. -/
def scanNumberLit : List Char → Option (List Char × List Char)
  | [] => none
  | c :: cs =>
    if c = '-' then consRaw c (scanNumber .neg cs)
    else scanNumber .neg (c :: cs)

/-- The scanner refuses to open more than this many nested arrays and objects. -/
def maxNestingDepth : Nat := 10000

/-- Strip an expected keyword from the front of the input. -/
def expect (kw : List Char) (s : List Char) : Option (List Char) :=
  if kw.isPrefixOf s then some (s.drop kw.length) else none

mutual
/-- Parse one JSON value at the front of the input (leading whitespace already
skipped), with the number of enclosing arrays and objects; the first argument
bounds the recursion. -/
def parseValue : Nat → Nat → List Char → Option (Value × List Char)
  | 0, _, _ => none
  | _ + 1, _, [] => none
  | fuel + 1, depth, c :: cs =>
    if c = lbrace then
      if maxNestingDepth ≤ depth then none
      else
        match skipSpace cs with
        | [] => none
        | d :: ds =>
          if d = rbrace then some (.object [], ds)
          else
            match parseMembers fuel (depth + 1) (d :: ds) with
            | some (ms, rest) => some (.object ms, rest)
            | none => none
    else if c = '[' then
      if maxNestingDepth ≤ depth then none
      else
        match skipSpace cs with
        | [] => none
        | d :: ds =>
          if d = ']' then some (.array [], ds)
          else
            match parseElems fuel (depth + 1) (d :: ds) with
            | some (vs, rest) => some (.array vs, rest)
            | none => none
    else if c = dquote then
      match scanString .inString cs with
      | some (raw, rest) => some (.string raw, rest)
      | none => none
    else if c = 't' then
      match expect ['r', 'u', 'e'] cs with
      | some rest => some (.bool true, rest)
      | none => none
    else if c = 'f' then
      match expect ['a', 'l', 's', 'e'] cs with
      | some rest => some (.bool false, rest)
      | none => none
    else if c = 'n' then
      match expect ['u', 'l', 'l'] cs with
      | some rest => some (.null, rest)
      | none => none
    else
      match scanNumberLit (c :: cs) with
      | some (lit, rest) => some (.number lit, rest)
      | none => none
/-- Parse the elements of a non-empty array up to and including the closing
bracket; the input starts at the first element. -/
def parseElems : Nat → Nat → List Char → Option (List Value × List Char)
  | 0, _, _ => none
  | fuel + 1, depth, s =>
    match parseValue fuel depth s with
    | none => none
    | some (v, rest) =>
      match skipSpace rest with
      | [] => none
      | d :: ds =>
        if d = ']' then some ([v], ds)
        else if d = ',' then
          match parseElems fuel depth (skipSpace ds) with
          | some (vs, rest2) => some (v :: vs, rest2)
          | none => none
        else none
/-- Parse the members of a non-empty object up to and including the closing
brace; the input starts at the first key. -/
def parseMembers : Nat → Nat → List Char → Option (List (List Char × Value) × List Char)
  | 0, _, _ => none
  | _ + 1, _, [] => none
  | fuel + 1, depth, c :: cs =>
    if c = dquote then
      match scanString .inString cs with
      | none => none
      | some (key, rest) =>
        match skipSpace rest with
        | [] => none
        | d :: ds =>
          if d = ':' then
            match parseValue fuel depth (skipSpace ds) with
            | none => none
            | some (v, rest2) =>
              match skipSpace rest2 with
              | [] => none
              | x :: xs =>
                if x = rbrace then some ([(key, v)], xs)
                else if x = ',' then
                  match parseMembers fuel depth (skipSpace xs) with
                  | some (ms, rest3) => some ((key, v) :: ms, rest3)
                  | none => none
                else none
          else none
    else none
end

/-- Model of the validity check and tokenisation that json.Unmarshal runs
over the whole input before storing anything: exactly one JSON value,
surrounded by optional whitespace. -/
def parse (data : List Char) : Option Value :=
  match parseValue (2 * data.length + 2) 0 (skipSpace data) with
  | some (v, rest) => if (skipSpace rest).isEmpty then some v else none
  | none => none

end json

/-- A Go error value; the interface value nil is modelled by Option.none. -/
inductive Error where
  /-- The value context.Canceled. -/
  | canceled
  /-- The value context.DeadlineExceeded. -/
  | deadlineExceeded
  /-- A json.SyntaxError: the input is not one well-formed JSON value. -/
  | invalidJSON
  /-- A json.UnmarshalTypeError: the JSON value described by the first text
  cannot be stored in the named struct field (empty at top level). -/
  | unmarshalType (value : List Char) (field : List Char)
  /-- A json.UnsupportedTypeError. -/
  | unsupportedType
  /-- A json.UnsupportedValueError. -/
  | unsupportedValue
  /-- A json.MarshalerError wrapping the error of a MarshalJSON method. -/
  | marshaler (msg : List Char)
  /-- An error returned by Time.UnmarshalJSON. -/
  | timeFormat (msg : List Char)
  /-- The decoder met text its own scanner should have rejected. -/
  | phase
  /-- Any other error. -/
  | other (msg : List Char)
  deriving DecidableEq, Repr

namespace time

/-- A time zone as a Time value refers to it. -/
inductive Location where
  /-- The zone time.UTC. -/
  | UTC
  /-- The zone time.Local of the running process. -/
  | Local
  /-- A zone made by time.FixedZone(name, offset). -/
  | Fixed (name : List Char) (offset : Int)
  deriving DecidableEq, Repr

/-- A time.Time value, given by its calendar reading in its own location, the
offset of that location east of UTC in seconds at that instant, the location,
and the monotonic clock reading in nanoseconds when it carries one. -/
structure Time where
  year : Int
  month : Nat
  day : Nat
  hour : Nat
  minute : Nat
  second : Nat
  nanosecond : Nat
  offset : Int
  loc : Location
  mono : Option Int
  deriving DecidableEq, Repr

/-- The zero Time: January 1, year 1, 00:00:00 UTC. -/
def Time.zero : Time :=
  { year := 1, month := 1, day := 1, hour := 0, minute := 0, second := 0,
    nanosecond := 0, offset := 0, loc := .UTC, mono := none }

/-- Leap year test of the proleptic Gregorian calendar. -/
def isLeap (year : Int) : Bool :=
  decide (year % 4 = 0) && (decide (year % 100 ≠ 0) || decide (year % 400 = 0))

/-- Number of days of a month (1 = January). -/
def daysIn (month : Nat) (year : Int) : Nat :=
  if month = 2 then (if isLeap year then 29 else 28)
  else if month = 4 ∨ month = 6 ∨ month = 9 ∨ month = 11 then 30
  else 31

/-- Model of time.appendInt: the decimal text of x, zero-padded on the left
to the given width, after a minus sign when x is negative. -/
def appendInt (x : Int) (width : Nat) : List Char :=
  let u : Nat := x.natAbs
  let sign : List Char := if x < 0 then ['-'] else []
  if width = 2 ∧ u < 100 then
    sign ++ [digitChar (u / 10), digitChar (u % 10)]
  else if width = 4 ∧ u < 10000 then
    sign ++ [digitChar (u / 1000), digitChar (u / 100 % 10), digitChar (u / 10 % 10),
      digitChar (u % 10)]
  else
    sign ++ List.replicate (width - (formatNat u).length) '0' ++ formatNat u

/-- Remove the trailing zeros of a digit string. -/
def trimZeros : List Char → List Char
  | [] => []
  | c :: cs =>
    match trimZeros cs with
    | [] => if c = '0' then [] else [c]
    | r :: rs => c :: r :: rs

/-- Model of time.appendNano for the layout fraction .999999999: nothing for
a whole second, else a period and the nine-digit fraction without its
trailing zeros. -/
def appendNano (nanosec : Nat) : List Char :=
  if nanosec = 0 then [] else '.' :: trimZeros (appendInt nanosec 9)

/-- The zone suffix written by Time.appendFormatRFC3339. -/
def appendZone (offset : Int) : List Char :=
  if offset = 0 then ['Z']
  else
    let zone : Int := Int.tdiv offset 60
    let sign : Char := if zone < 0 then '-' else '+'
    let z : Nat := zone.natAbs
    sign :: (appendInt (z / 60 : Nat) 2 ++ ':' :: appendInt (z % 60 : Nat) 2)

/-- Model of Time.appendFormatRFC3339 with nanoseconds (layout RFC3339Nano). -/
def appendFormatRFC3339 (t : Time) : List Char :=
  appendInt t.year 4 ++ '-' :: (appendInt t.month 2 ++ '-' :: (appendInt t.day 2 ++ 'T' ::
    (appendInt t.hour 2 ++ ':' :: (appendInt t.minute 2 ++ ':' :: (appendInt t.second 2 ++
      (appendNano t.nanosecond ++ appendZone t.offset))))))

/-- The check appendStrictRFC3339 runs on the zone suffix, read from the end
of the text. -/
def zoneHourOutOfRange (reversed : List Char) : Bool :=
  match reversed with
  | 'Z' :: _ => false
  | _ :: _ :: _ :: h2 :: h1 :: c :: _ =>
    isDigit c || decide (24 ≤ 10 * digitVal h1 + digitVal h2)
  | _ => true

/-- Model of Time.appendStrictRFC3339: the RFC3339Nano text, refused when the
year is not exactly four digits wide or the zone hour is not below 24. -/
def appendStrictRFC3339 (t : Time) : Except Error (List Char) :=
  let b := appendFormatRFC3339 t
  if b.get? 4 ≠ some '-' then
    .error (.marshaler "Time.MarshalJSON: year outside of range [0,9999]".toList)
  else if zoneHourOutOfRange b.reverse then
    .error (.marshaler "Time.MarshalJSON: timezone hour outside of range [0,23]".toList)
  else .ok b

/-- The parseUint helper of parseRFC3339: an all-digit text whose value lies
between min and max. -/
def parseUint (s : List Char) (min max : Nat) : Option Nat :=
  if s.all isDigit ∧ min ≤ parseDigits s ∧ parseDigits s ≤ max then some (parseDigits s)
  else none

/-- Model of parseNanoseconds on the digits after the period: at most nine
digits count, scaled to nanoseconds. -/
def parseNanoseconds (digits : List Char) : Nat :=
  parseDigits (digits.take 9) * 10 ^ (9 - (digits.take 9).length)

/-- The optional fraction of a second after the seconds field: its value in
nanoseconds and the input after it. -/
def parseFraction (s : List Char) : Nat × List Char :=
  match s with
  | '.' :: d :: rest =>
    if isDigit d then
      (parseNanoseconds (d :: rest.takeWhile isDigit), rest.dropWhile isDigit)
    else (0, s)
  | _ => (0, s)

/-- The zone suffix of an RFC 3339 text: none when malformed, else the offset
in seconds and whether it was written as Z. -/
def parseZone (s : List Char) : Option (Int × Bool) :=
  match s with
  | ['Z'] => some (0, true)
  | [sg, h1, h2, c, m1, m2] =>
    match parseUint [h1, h2] 0 23, parseUint [m1, m2] 0 59 with
    | some hr, some mm =>
      if (sg = '-' ∨ sg = '+') ∧ c = ':' then
        some (if sg = '-' then -(((hr * 60 + mm) * 60 : Nat) : Int)
              else (((hr * 60 + mm) * 60 : Nat) : Int), false)
      else none
    | _, _ => none
  | _ => none

/-- Model of the function parseRFC3339 of package time, the fast path of
parseStrictRFC3339. The second argument tells the offset of time.Local at the
instant of a Time. -/
def parseRFC3339 (localOffset : Time → Int) (s : List Char) : Option Time :=
  match s with
  | y1 :: y2 :: y3 :: y4 :: c1 :: mo1 :: mo2 :: c2 :: d1 :: d2 :: c3 :: h1 :: h2 :: c4 ::
      mi1 :: mi2 :: c5 :: s1 :: s2 :: rest =>
    match parseUint [y1, y2, y3, y4] 0 9999, parseUint [mo1, mo2] 1 12 with
    | some year, some month =>
      match parseUint [d1, d2] 1 (daysIn month year), parseUint [h1, h2] 0 23,
          parseUint [mi1, mi2] 0 59, parseUint [s1, s2] 0 59 with
      | some day, some hour, some min, some sec =>
        if c1 = '-' ∧ c2 = '-' ∧ c3 = 'T' ∧ c4 = ':' ∧ c5 = ':' then
          match parseZone (parseFraction rest).2 with
          | none => none
          | some (zoneOffset, isZ) =>
            let t : Time :=
              { year := year, month := month, day := day, hour := hour, minute := min,
                second := sec, nanosecond := (parseFraction rest).1, offset := zoneOffset,
                loc := .UTC, mono := none }
            if isZ then some t
            else if localOffset { t with loc := .Fixed [] zoneOffset } = zoneOffset then
              some { t with loc := .Local }
            else some { t with loc := .Fixed [] zoneOffset }
        else none
      | _, _, _, _ => none
    | _, _ => none
  | _ => none

end time

/-- A float64 value, given by its IEEE 754 bit pattern: a number below 2^64
whose top bit is the sign, whose next eleven bits are the exponent field and
whose low 52 bits are the fraction. -/
structure Float64 where
  bits : Nat
  isLt : bits < 18446744073709551616
  deriving DecidableEq, Repr

/-- The float64 with the given bit pattern (math.Float64frombits on a uint64). -/
def Float64.ofBits (b : Nat) : Float64 :=
  { bits := b % 18446744073709551616, isLt := Nat.mod_lt _ (by decide) }

/-- Neither an infinity nor a NaN: the exponent field is not all ones. -/
def Float64.isFinite (x : Float64) : Bool := x.bits / 2 ^ 52 % 2048 != 2047

/-- The library routines the model does not define: the decimal text of
floating-point numbers and the parts of package time that depend on the
layout engine and on the zone database. -/
structure Runtime where
  /-- The text the float encoder of encoding/json writes for a finite float64
  (strconv.AppendFloat in the shortest form, with the exponent cleaned up). -/
  formatFloat : Float64 → List Char
  /-- The function strconv.ParseFloat(s, 64) on a JSON number literal; none
  when it reports a range error. -/
  parseFloat : List Char → Option Float64
  /-- The function time.Parse(time.RFC3339, s), used by parseStrictRFC3339
  when the fast path refuses the text. -/
  parseLayout : List Char → Option time.Time
  /-- The offset of time.Local at the instant of a Time, seconds east of UTC. -/
  localOffset : time.Time → Int

namespace time

/-- Model of parseStrictRFC3339: the fast path, then the layout parser. -/
def parseStrictRFC3339 (rt : Runtime) (s : List Char) : Except Error Time :=
  match parseRFC3339 rt.localOffset s with
  | some t => .ok t
  | none =>
    match rt.parseLayout s with
    | some t => .ok t
    | none => .error (.timeFormat "parsing time: cannot parse as RFC 3339".toList)

end time

/-- A value held in a Go variable of type interface{}, for the dynamic types
the model covers. A map is given by the list of its entries; the order of the
list stands for an iteration order and a Go map has no two entries with the
same key. -/
inductive GoValue where
  /-- The nil interface value. -/
  | nil
  | bool (b : Bool)
  /-- A value of type int. -/
  | int (n : Int)
  | float64 (x : Float64)
  | string (s : List Char)
  /-- A non-nil slice of interface values. -/
  | slice (elems : List GoValue)
  /-- A non-nil map from strings to interface values. -/
  | map (entries : List (List Char × GoValue))
  /-- A channel, standing for the dynamic types that have no JSON form. -/
  | chan
  deriving Repr

/-- A task to be processed (struct Task). The strings are sequences of Unicode
characters; the map of the Config field is none for a nil map. -/
structure Task where
  ID : List Char
  AgentID : List Char
  TaskType : List Char
  Input : List Char
  Config : Option (List (List Char × GoValue))
  Priority : Int
  CreatedAt : time.Time
  deriving Repr

/-- The zero value of Task, as declared by var task Task. -/
def Task.zero : Task :=
  { ID := [], AgentID := [], TaskType := [], Input := [], Config := none, Priority := 0,
    CreatedAt := time.Time.zero }

namespace json

/-- Lower-case hexadecimal digit of a value below sixteen. -/
def hexDigit (n : Nat) : Char := if n < 10 then Char.ofNat (48 + n) else Char.ofNat (87 + n)

/-- The text appendString writes for one character of a string when HTML
escaping is on, as it is in json.Marshal. -/
def escapeChar (c : Char) : List Char :=
  if c = backslash ∨ c = dquote then [backslash, c]
  else if c.toNat = 8 then [backslash, 'b']
  else if c.toNat = 12 then [backslash, 'f']
  else if c.toNat = 10 then [backslash, 'n']
  else if c.toNat = 13 then [backslash, 'r']
  else if c.toNat = 9 then [backslash, 't']
  else if c.toNat < 32 ∨ c = '<' ∨ c = '>' ∨ c = '&' then
    [backslash, 'u', '0', '0', hexDigit (c.toNat / 16), hexDigit (c.toNat % 16)]
  else if c.toNat = 8232 ∨ c.toNat = 8233 then
    [backslash, 'u', '2', '0', '2', hexDigit (c.toNat % 16)]
  else [c]

/-- Model of appendString without the surrounding quotes: the raw text of the
string literal that encodes s. -/
def appendString : List Char → List Char
  | [] => []
  | c :: cs => escapeChar c ++ appendString cs

/-- Value of a hexadecimal digit. -/
def hexVal (c : Char) : Option Nat :=
  if isDigit c then some (c.toNat - 48)
  else if 97 ≤ c.toNat ∧ c.toNat ≤ 102 then some (c.toNat - 87)
  else if 65 ≤ c.toNat ∧ c.toNat ≤ 70 then some (c.toNat - 55)
  else none

/-- Value of four hexadecimal digits (function getu4, after the characters
backslash and u). -/
def getu4 (a b c d : Char) : Option Nat :=
  match hexVal a, hexVal b, hexVal c, hexVal d with
  | some x, some y, some z, some w => some (x * 4096 + y * 256 + z * 16 + w)
  | _, _, _, _ => none

/-- The character a simple escape stands for. -/
def unescape (e : Char) : Option Char :=
  if e = dquote ∨ e = backslash ∨ e = '/' ∨ e.toNat = 39 then some e
  else if e = 'b' then some (Char.ofNat 8)
  else if e = 'f' then some (Char.ofNat 12)
  else if e = 'n' then some (Char.ofNat 10)
  else if e = 'r' then some (Char.ofNat 13)
  else if e = 't' then some (Char.ofNat 9)
  else none

/-- The low half of a surrogate pair written as a second escape right after
the first: its value and the input after it. -/
def secondEscape (s : List Char) : Option (Nat × List Char) :=
  match s with
  | b0 :: u :: a :: b :: c :: d :: rest =>
    if b0 = backslash ∧ u = 'u' then
      match getu4 a b c d with
      | some v => some (v, rest)
      | none => none
    else none
  | _ => none

/-- The Unicode replacement character U+FFFD. -/
def replacementChar : Char := Char.ofNat 65533

/-- Put a character in front of an unquoted text. -/
def consChar (c : Char) : Option (List Char) → Option (List Char)
  | some s => some (c :: s)
  | none => none

/-- The character written by a backslash-u escape with value rr, and the
input after it: a high surrogate takes the low surrogate of a second escape
with it, a surrogate without partner gives the replacement character. -/
def decodeU (rr : Nat) (rest : List Char) : Char × List Char :=
  if 55296 ≤ rr ∧ rr < 57344 then
    match secondEscape rest with
    | some (rr1, rest2) =>
      if rr < 56320 ∧ 56320 ≤ rr1 ∧ rr1 < 57344 then
        (Char.ofNat ((rr - 55296) * 1024 + (rr1 - 56320) + 65536), rest2)
      else (replacementChar, rest)
    | none => (replacementChar, rest)
  else (Char.ofNat rr, rest)

/-- The character an escape stands for, from the text after the backslash,
and the input after the escape. -/
def decodeEscape : List Char → Option (Char × List Char)
  | [] => none
  | e :: rest =>
    if e = 'u' then
      match rest with
      | a :: b :: c :: d :: rest2 =>
        match getu4 a b c d with
        | some rr => some (decodeU rr rest2)
        | none => none
      | _ => none
    else
      match unescape e with
      | some ch => some (ch, rest)
      | none => none

/-- Model of unquoteBytes on the raw text between the quotes of a string
literal; the first argument bounds the recursion. -/
def unquoteFuel : Nat → List Char → Option (List Char)
  | _, [] => some []
  | 0, _ :: _ => none
  | fuel + 1, c :: cs =>
    if c = backslash then
      match decodeEscape cs with
      | some (ch, rest) => consChar ch (unquoteFuel fuel rest)
      | none => none
    else if c = dquote ∨ c.toNat < 32 then none
    else consChar c (unquoteFuel fuel cs)

/-- Model of unquoteBytes on the raw text between the quotes. -/
def unquote (raw : List Char) : Option (List Char) := unquoteFuel raw.length raw

mutual
/-- The compact JSON text of a value. -/
def render : Value → List Char
  | .null => "null".toList
  | .bool true => "true".toList
  | .bool false => "false".toList
  | .number lit => lit
  | .string raw => dquote :: (raw ++ [dquote])
  | .array elems => '[' :: renderElems elems
  | .object members => lbrace :: renderMembers members
/-- The elements of an array, separated by commas, and the closing bracket. -/
def renderElems : List Value → List Char
  | [] => [']']
  | [v] => render v ++ [']']
  | v :: w :: vs => render v ++ ',' :: renderElems (w :: vs)
/-- The members of an object, separated by commas, and the closing brace. -/
def renderMembers : List (List Char × Value) → List Char
  | [] => [rbrace]
  | [(k, v)] => dquote :: (k ++ dquote :: ':' :: (render v ++ [rbrace]))
  | (k, v) :: m :: ms =>
    dquote :: (k ++ dquote :: ':' :: (render v ++ ',' :: renderMembers (m :: ms)))
end

/-- Order of map keys used by the encoder: strings.Compare(a, b) < 0. -/
def keyLt : List Char → List Char → Bool
  | [], [] => false
  | [], _ :: _ => true
  | _ :: _, [] => false
  | a :: as, b :: bs =>
    if a.toNat < b.toNat then true
    else if b.toNat < a.toNat then false
    else keyLt as bs

/-- Insert an entry before the first entry with a greater key. -/
def insertByKey {α : Type} (e : List Char × α) : List (List Char × α) → List (List Char × α)
  | [] => [e]
  | x :: xs => if keyLt e.1 x.1 then e :: x :: xs else x :: insertByKey e xs

/-- Sort entries by key. -/
def sortByKey {α : Type} : List (List Char × α) → List (List Char × α)
  | [] => []
  | x :: xs => insertByKey x (sortByKey xs)

/-- Turn the encoded entries of a map, taken in key order, into object
members; the first entry that failed to encode gives the error. -/
def sequenceMembers : List (List Char × Except Error Value) →
    Except Error (List (List Char × Value))
  | [] => .ok []
  | (_, .error e) :: _ => .error e
  | (k, .ok v) :: rest =>
    match sequenceMembers rest with
    | .ok ms => .ok ((appendString k, v) :: ms)
    | .error e => .error e

mutual
/-- The JSON value the encoder produces for an interface value. -/
def encodeValue (rt : Runtime) : GoValue → Except Error Value
  | .nil => .ok .null
  | .bool b => .ok (.bool b)
  | .int n => .ok (.number (formatInt n))
  | .float64 x =>
    if x.isFinite then .ok (.number (rt.formatFloat x)) else .error .unsupportedValue
  | .string s => .ok (.string (appendString s))
  | .slice elems =>
    match encodeElems rt elems with
    | .ok vs => .ok (.array vs)
    | .error e => .error e
  | .map entries =>
    match sequenceMembers (sortByKey (encodeEntries rt entries)) with
    | .ok ms => .ok (.object ms)
    | .error e => .error e
  | .chan => .error .unsupportedType
/-- The elements of a slice, in order; the first failure stops the encoder. -/
def encodeElems (rt : Runtime) : List GoValue → Except Error (List Value)
  | [] => .ok []
  | v :: vs =>
    match encodeValue rt v with
    | .error e => .error e
    | .ok j =>
      match encodeElems rt vs with
      | .ok js => .ok (j :: js)
      | .error e => .error e
/-- Every entry of a map with the encoding of its value. -/
def encodeEntries (rt : Runtime) :
    List (List Char × GoValue) → List (List Char × Except Error Value)
  | [] => []
  | (k, v) :: rest => (k, encodeValue rt v) :: encodeEntries rt rest
end

/-- The encoding of a map[string]interface{} field: null for a nil map, else
an object whose members are sorted by key. -/
def encodeMap (rt : Runtime) : Option (List (List Char × GoValue)) → Except Error Value
  | none => .ok .null
  | some entries => encodeValue rt (.map entries)

/-- Model of Time.MarshalJSON as the encoder uses it: a string literal holding
the strict RFC 3339 text. -/
def encodeTime (t : time.Time) : Except Error Value :=
  match time.appendStrictRFC3339 t with
  | .ok b => .ok (.string b)
  | .error e => .error e

/-- The JSON object the struct encoder produces for a Task: the fields in
declaration order under their json tags. -/
def encodeTask (rt : Runtime) (t : Task) : Except Error Value :=
  match encodeMap rt t.Config with
  | .error e => .error e
  | .ok config =>
    match encodeTime t.CreatedAt with
    | .error e => .error e
    | .ok created =>
      .ok (.object
        [ ("id".toList, .string (appendString t.ID)),
          ("agent_id".toList, .string (appendString t.AgentID)),
          ("type".toList, .string (appendString t.TaskType)),
          ("input".toList, .string (appendString t.Input)),
          ("config".toList, config),
          ("priority".toList, .number (formatInt t.Priority)),
          ("created_at".toList, created) ])

/-- Model of json.Marshal applied to a pointer to a Task. -/
def Marshal (rt : Runtime) (t : Task) : Except Error (List Char) :=
  match encodeTask rt t with
  | .ok v => .ok (render v)
  | .error e => .error e

/-- Model of decodeState.saveError: only the first error is kept. -/
def saveError (saved : Option Error) (e : Error) : Option Error :=
  match saved with
  | none => some e
  | some s => some s

/-- Model of the map assignment m[key] = value on the entry list kept in
increasing key order: an entry with the same key is replaced. -/
def mapAssign (k : List Char) (v : GoValue) :
    List (List Char × GoValue) → List (List Char × GoValue)
  | [] => [(k, v)]
  | x :: xs =>
    if keyLt k x.1 then (k, v) :: x :: xs
    else if keyLt x.1 k then x :: mapAssign k v xs
    else (k, v) :: xs

mutual
/-- Model of decodeState.valueInterface: the interface value a JSON value
decodes to, with the saved error. A failure is a decoder panic. -/
def valueInterface (rt : Runtime) :
    Value → Option Error → Except Error (GoValue × Option Error)
  | .null, saved => .ok (.nil, saved)
  | .bool b, saved => .ok (.bool b, saved)
  | .number lit, saved =>
    match rt.parseFloat lit with
    | some x => .ok (.float64 x, saved)
    | none => .ok (.nil, saveError saved (.unmarshalType ("number ".toList ++ lit) []))
  | .string raw, saved =>
    match unquote raw with
    | some s => .ok (.string s, saved)
    | none => .error .phase
  | .array elems, saved =>
    match arrayInterface rt elems saved with
    | .ok (vs, saved2) => .ok (.slice vs, saved2)
    | .error e => .error e
  | .object members, saved =>
    match objectInterface rt members [] saved with
    | .ok (m, saved2) => .ok (.map m, saved2)
    | .error e => .error e
/-- Model of decodeState.arrayInterface. -/
def arrayInterface (rt : Runtime) :
    List Value → Option Error → Except Error (List GoValue × Option Error)
  | [], saved => .ok ([], saved)
  | v :: vs, saved =>
    match valueInterface rt v saved with
    | .error e => .error e
    | .ok (g, saved2) =>
      match arrayInterface rt vs saved2 with
      | .ok (gs, saved3) => .ok (g :: gs, saved3)
      | .error e => .error e
/-- Model of decodeState.objectInterface, and of decodeState.object for a map
of interface values: the members are assigned one after the other to the map
given as third argument. -/
def objectInterface (rt : Runtime) :
    List (List Char × Value) → List (List Char × GoValue) → Option Error →
      Except Error (List (List Char × GoValue) × Option Error)
  | [], m, saved => .ok (m, saved)
  | (rawKey, v) :: rest, m, saved =>
    match unquote rawKey with
    | none => .error .phase
    | some key =>
      match valueInterface rt v saved with
      | .error e => .error e
      | .ok (g, saved2) => objectInterface rt rest (mapAssign key g m) saved2
end

/-- The fields of struct Task. -/
inductive Field where
  | id
  | agentID
  | type_
  | input
  | config
  | priority
  | createdAt
  deriving DecidableEq, Repr

/-- The json tag of a field. -/
def Field.name : Field → List Char
  | .id => "id".toList
  | .agentID => "agent_id".toList
  | .type_ => "type".toList
  | .input => "input".toList
  | .config => "config".toList
  | .priority => "priority".toList
  | .createdAt => "created_at".toList

/-- The fields in declaration order. -/
def Field.all : List Field :=
  [.id, .agentID, .type_, .input, .config, .priority, .createdAt]

/-- Model of foldName on a key: ASCII letters are upper-cased. No character
outside ASCII folds to a letter that occurs in a tag of Task, so other
characters are left as they are. -/
def foldName (s : List Char) : List Char :=
  s.map (fun c => if 97 ≤ c.toNat ∧ c.toNat ≤ 122 then Char.ofNat (c.toNat - 32) else c)

/-- The field an object key selects: the one with exactly that tag, else the
one whose tag matches when case is ignored. -/
def lookupField (key : List Char) : Option Field :=
  match Field.all.find? (fun f => f.name == key) with
  | some f => some f
  | none => Field.all.find? (fun f => foldName f.name == foldName key)

/-- The state of the decoder while it fills a Task: the Task so far, the first
non-fatal error, and the error that stopped the decoder, if any. -/
structure DecodeState where
  task : Task
  saved : Option Error
  fatal : Option Error
  deriving Repr

/-- The description of a JSON value in an UnmarshalTypeError. -/
def describe : Value → List Char
  | .null => "null".toList
  | .bool _ => "bool".toList
  | .number _ => "number".toList
  | .string _ => "string".toList
  | .array _ => "array".toList
  | .object _ => "object".toList

/-- Store a JSON value in a string field through the given setter. -/
def storeString (f : Field) (set : List Char → Task) (v : Value) (st : DecodeState) :
    DecodeState :=
  match v with
  | .null => st
  | .string raw =>
    match unquote raw with
    | some s => { st with task := set s }
    | none => { st with fatal := some .phase }
  | other => { st with saved := saveError st.saved (.unmarshalType (describe other) f.name) }

/-- Store a JSON value in the field selected by its key (decodeState.value on
the field, by the kind of the field). -/
def decodeField (rt : Runtime) (f : Field) (v : Value) (st : DecodeState) : DecodeState :=
  match f with
  | .id => storeString f (fun s => { st.task with ID := s }) v st
  | .agentID => storeString f (fun s => { st.task with AgentID := s }) v st
  | .type_ => storeString f (fun s => { st.task with TaskType := s }) v st
  | .input => storeString f (fun s => { st.task with Input := s }) v st
  | .priority =>
    match v with
    | .null => st
    | .number lit =>
      match parseInt64 lit with
      | some n => { st with task := { st.task with Priority := n } }
      | none =>
        { st with saved := saveError st.saved (.unmarshalType ("number ".toList ++ lit) f.name) }
    | other => { st with saved := saveError st.saved (.unmarshalType (describe other) f.name) }
  | .config =>
    match v with
    | .null => { st with task := { st.task with Config := none } }
    | .object members =>
      match objectInterface rt members (st.task.Config.getD []) st.saved with
      | .ok (m, saved2) => { st with task := { st.task with Config := some m }, saved := saved2 }
      | .error e => { st with fatal := some e }
    | other => { st with saved := saveError st.saved (.unmarshalType (describe other) f.name) }
  | .createdAt =>
    match v with
    | .null => st
    | .string raw =>
      match time.parseStrictRFC3339 rt raw with
      | .ok t => { st with task := { st.task with CreatedAt := t } }
      | .error e =>
        { st with task := { st.task with CreatedAt := time.Time.zero }, fatal := some e }
    | _ =>
      { st with fatal := some (.timeFormat "Time.UnmarshalJSON: input is not a JSON string".toList) }

/-- Model of decodeState.object for struct Task: the members are taken in
order, a key that selects no field is skipped, and a fatal error stops the
decoder. -/
def decodeMembers (rt : Runtime) : List (List Char × Value) → DecodeState → DecodeState
  | [], st => st
  | (rawKey, v) :: rest, st =>
    match st.fatal with
    | some _ => st
    | none =>
      match unquote rawKey with
      | none => { st with fatal := some .phase }
      | some key =>
        match lookupField key with
        | none => decodeMembers rt rest st
        | some f => decodeMembers rt rest (decodeField rt f v st)

/-- Model of json.Unmarshal(data, &task): the Task afterwards and the error
returned. Invalid input leaves the Task untouched. -/
def Unmarshal (rt : Runtime) (data : List Char) (task : Task) : Task × Option Error :=
  match parse data with
  | none => (task, some .invalidJSON)
  | some .null => (task, none)
  | some (.object members) =>
    let st := decodeMembers rt members { task := task, saved := none, fatal := none }
    match st.fatal with
    | some e => (st.task, some e)
    | none => (st.task, st.saved)
  | some other => (task, some (.unmarshalType (describe other) []))

end json

/-- SerializeTask converts a task to JSON. -/
def SerializeTask (rt : Runtime) (task : Task) : Except Error (List Char) :=
  json.Marshal rt task

/-- DeserializeTask converts JSON to a task. The first component is the
returned pointer, none for a nil pointer. -/
def DeserializeTask (rt : Runtime) (data : List Char) : Option Task × Option Error :=
  let r := json.Unmarshal rt data Task.zero
  (some r.1, r.2)

/-- The whole number a float64 stands for, when it is one of magnitude below
2^53: whether the sign bit is set, and the magnitude. With exponent field e
from 1023 to 1075 and fraction f the magnitude is (2^52 + f) / 2^(1075 - e). -/
def Float64.whole (x : Float64) : Option (Bool × Nat) :=
  let negative : Bool := decide (2 ^ 63 ≤ x.bits)
  let e := x.bits / 2 ^ 52 % 2048
  let f := x.bits % 2 ^ 52
  if e = 0 then (if f = 0 then some (negative, 0) else none)
  else if 1023 ≤ e ∧ e ≤ 1075 ∧ (2 ^ 52 + f) % 2 ^ (1075 - e) = 0 then
    some (negative, (2 ^ 52 + f) / 2 ^ (1075 - e))
  else none

/-- Number of binary digits of a number, counted with as many halvings as the
first argument allows. -/
def bitLengthFuel : Nat → Nat → Nat
  | 0, _ => 0
  | fuel + 1, n => if n = 0 then 0 else bitLengthFuel fuel (n / 2) + 1

/-- Number of binary digits of a number below 2^64 (bits.Len64). -/
def bitLength (n : Nat) : Nat := bitLengthFuel 64 n

/-- The float64 that is a whole number of magnitude below 2^53, with the given
sign bit. -/
def Float64.ofWhole (negative : Bool) (n : Nat) : Float64 :=
  let sign : Nat := if negative then 2 ^ 63 else 0
  if n = 0 then Float64.ofBits sign
  else
    Float64.ofBits (sign + (bitLength n + 1022) * 2 ^ 52 + (n * 2 ^ (53 - bitLength n) - 2 ^ 52))

/-- The float64 a run of decimal digits below 2^53 stands for. -/
def wholeLiteral (negative : Bool) (ds : List Char) : Option Float64 :=
  if ds.all isDigit ∧ ds ≠ [] ∧ parseDigits ds < 2 ^ 53 then
    some (Float64.ofWhole negative (parseDigits ds))
  else none

/-- A runtime to run the model on examples. Its float routines are those of
strconv on the whole numbers of magnitude below 2^53, which AppendFloat
writes and ParseFloat reads as plain decimal integers (1 for 1.0, -0 for the
negative zero); they write nothing for any other float64 and refuse any other
text. Its layout parser accepts nothing and its time.Local is UTC. -/
def Runtime.standIn : Runtime :=
  { formatFloat := fun x =>
      match x.whole with
      | some (negative, n) => if negative then '-' :: formatNat n else formatNat n
      | none => []
    parseFloat := fun s =>
      match s with
      | '-' :: ds => wholeLiteral true ds
      | ds => wholeLiteral false ds
    parseLayout := fun _ => none
    localOffset := fun _ => 0 }

namespace fmt

/-- The text Sprintf appends for operands left over after the format. -/
def extraArgs : List (List Char) → List Char
  | [] => []
  | [a] => "string=".toList ++ a
  | a :: b :: rest => "string=".toList ++ a ++ ", ".toList ++ extraArgs (b :: rest)

/-- Model of fmt.Sprintf for string operands and a format whose verbs are %s
and %%: each %s is replaced by the next operand, a missing operand is
reported in place and left-over operands are reported at the end. -/
def Sprintf : List Char → List (List Char) → List Char
  | [], [] => []
  | [], a :: rest => "%!(EXTRA ".toList ++ extraArgs (a :: rest) ++ [')']
  | '%' :: 's' :: rest, [] => "%!s(MISSING)".toList ++ Sprintf rest []
  | '%' :: 's' :: rest, a :: args => a ++ Sprintf rest args
  | '%' :: '%' :: rest, args => '%' :: Sprintf rest args
  | c :: rest, args => c :: Sprintf rest args

end fmt

namespace uuid

/-- A UUID: sixteen bytes. -/
structure UUID where
  bytes : List (Fin 256)
  size : bytes.length = 16

/-- Two lower-case hexadecimal digits of a byte. -/
def hexByte (b : Fin 256) : List Char := [json.hexDigit (b.val / 16), json.hexDigit (b.val % 16)]

/-- Model of hex.Encode. -/
def hexEncode : List (Fin 256) → List Char
  | [] => []
  | b :: bs => hexByte b ++ hexEncode bs

/-- Model of UUID.String: the form xxxxxxxx-xxxx-xxxx-xxxx-xxxxxxxxxxxx. -/
def UUID.String (u : UUID) : List Char :=
  hexEncode (u.bytes.take 4) ++ '-' :: (hexEncode ((u.bytes.drop 4).take 2) ++ '-' ::
    (hexEncode ((u.bytes.drop 6).take 2) ++ '-' :: (hexEncode ((u.bytes.drop 8).take 2) ++ '-' ::
      hexEncode (u.bytes.drop 10))))

end uuid

namespace zerolog

/-- Severity of a log event. -/
inductive Level where
  | debug
  | info
  | fatal
  deriving DecidableEq, Repr

/-- One log event: its level, its fields (those of the logger first) and its
message. -/
structure Event where
  level : Level
  fields : List (List Char × List Char)
  message : List Char
  deriving DecidableEq, Repr

/-- A logger, given by the fields it adds to every event. -/
structure Logger where
  context : List (List Char × List Char)
  deriving DecidableEq, Repr

/-- The global logger log.Logger. -/
def global : Logger := { context := [] }

/-- Model of logger.With().Str(key, value).Logger(). -/
def Logger.withStr (l : Logger) (key value : List Char) : Logger :=
  { context := l.context ++ [(key, value)] }

/-- The event a logger writes for a level, event fields and a message. -/
def Logger.event (l : Logger) (level : Level) (fields : List (List Char × List Char))
    (message : List Char) : Event :=
  { level := level, fields := l.context ++ fields, message := message }

end zerolog

/-- A Go run-time panic. -/
inductive Panic where
  /-- The panic of close on a channel that is already closed. -/
  | closeOfClosedChannel
  deriving DecidableEq, Repr

/-- A channel of type chan struct{} on which nothing is ever sent: its only
state is whether it has been closed. A receive from it is ready exactly when it
is closed. -/
structure Chan where
  closed : Bool
  deriving DecidableEq, Repr

/-- Model of make(chan struct{}). -/
def Chan.make : Chan := { closed := false }

/-- Model of the builtin close. -/
def Chan.close (c : Chan) : Except Panic Chan :=
  if c.closed then .error .closeOfClosedChannel else .ok { closed := true }

namespace context

/-- A context.Context as Start uses it: Err() is nil until the context is
done, and its Done channel is closed from then on. -/
structure Context where
  err : Option Error
  deriving DecidableEq, Repr

/-- Model of context.Background(). -/
def Background : Context := { err := none }

/-- Model of ctx.Err(). -/
def Context.Err (ctx : Context) : Option Error := ctx.err

/-- Model of ctx.Done(). -/
def Context.Done (ctx : Context) : Chan := { closed := ctx.err.isSome }

/-- The effect of the cancel function returned by context.WithCancel: the
first cancellation sets the error to context.Canceled. -/
def Context.cancel (ctx : Context) : Context :=
  match ctx.err with
  | none => { err := some .canceled }
  | some e => { err := some e }

end context

/-- Worker handles task processing. -/
structure Worker where
  ID : List Char
  logger : zerolog.Logger
  shutdown : Chan
  deriving DecidableEq, Repr

/-- NewWorker creates a new worker instance. The generator is the stream of
values uuid.New() returns; the second argument is the position in the stream
and the second component of the result the position afterwards. -/
def NewWorker (gen : Nat → uuid.UUID) (n : Nat) : Worker × Nat :=
  ({ ID := (gen n).String.take 8
     logger := zerolog.global.withStr "worker_id".toList ((gen (n + 1)).String.take 8)
     shutdown := Chan.make }, n + 2)

/-- The case a select statement of the Start loop acts on in one iteration. -/
inductive SelectCase where
  /-- A receive from ctx.Done(). -/
  | ctxDone
  /-- A receive from w.shutdown. -/
  | shutdown
  /-- A receive from ticker.C. -/
  | tick
  deriving DecidableEq, Repr

/-- State of the Start loop. -/
inductive LoopState where
  | running
  | returned (err : Option Error)
  deriving DecidableEq, Repr

/-- One iteration of the loop of Start. -/
def Worker.step (_w : Worker) (ctx : context.Context) : LoopState → SelectCase → LoopState
  | .running, .ctxDone => .returned ctx.Err
  | .running, .shutdown => .returned none
  | .running, .tick => .running
  | .returned err, _ => .returned err

/-- A select case can be acted on only when its channel is ready. -/
def Worker.ready (w : Worker) (ctx : context.Context) : SelectCase → Bool
  | .ctxDone => ctx.Done.closed
  | .shutdown => w.shutdown.closed
  | .tick => true

/-- Start begins the worker's main loop. The list gives the cases the select
statement acts on, iteration after iteration; the result is the state reached
when the list is used up. -/
def Worker.Start (w : Worker) (ctx : context.Context) (cases : List SelectCase) : LoopState :=
  cases.foldl (w.step ctx) .running

/-- The result of a processed task (struct TaskResult). -/
structure TaskResult where
  TaskID : List Char
  Status : List Char
  Output : List Char
  Error : List Char
  ProcessedAt : time.Time
  Duration : Int
  deriving DecidableEq, Repr

namespace time

/-- One reading of the system clocks: the wall clock and the monotonic clock in
nanoseconds. -/
structure Reading where
  wall : Time
  mono : Int
  deriving DecidableEq, Repr

/-- Model of time.Now() at a clock reading. -/
def Now (r : Reading) : Time := { r.wall with mono := some r.mono }

/-- The largest Duration. -/
def maxDuration : Int := 9223372036854775807

/-- The smallest Duration. -/
def minDuration : Int := -9223372036854775808

/-- The int64 a mathematical integer wraps to. -/
def wrapInt64 (x : Int) : Int := (x + 9223372036854775808) % 18446744073709551616 - 9223372036854775808

/-- Model of subMono: the difference of two monotonic readings as a Duration,
saturating on overflow. -/
def subMono (t u : Int) : Int :=
  let d := wrapInt64 (t - u)
  if d < 0 ∧ t > u then maxDuration
  else if d > 0 ∧ t < u then minDuration
  else d

/-- Model of time.Since(start) for a start that carries the monotonic reading
given first, at the monotonic reading given second. -/
def Since (startMono now : Int) : Int := subMono now startMono

/-- Model of Duration.Milliseconds. -/
def Milliseconds (d : Int) : Int := Int.tdiv d 1000000

end time

/-- ProcessTask handles a single task. The clock gives the successive
readings the call takes: at entry, for ProcessedAt and for the duration. The
result is the returned pointer (none for nil), the returned error and the log
events written. -/
def Worker.ProcessTask (w : Worker) (clock : Nat → time.Reading) (task : Task) :
    Option TaskResult × Option Error × List zerolog.Event :=
  let start := clock 0
  let entry := w.logger.event .info
    [("task_id".toList, task.ID), ("agent_id".toList, task.AgentID), ("type".toList, task.TaskType)]
    "Processing task".toList
  let result : TaskResult :=
    { TaskID := task.ID
      Status := "completed".toList
      Output := fmt.Sprintf "Task %s processed successfully by agent %s".toList
        [task.ID, task.AgentID]
      Error := []
      ProcessedAt := time.Now (clock 1)
      Duration := time.Milliseconds (time.Since start.mono (clock 2).mono) }
  let done := w.logger.event .info
    [("task_id".toList, task.ID), ("duration_ms".toList, formatInt result.Duration)]
    "Task completed".toList
  (some result, none, [entry, done])

/-- Shutdown gracefully stops the worker. -/
def Worker.Shutdown (w : Worker) : Except Panic Worker :=
  match w.shutdown.close with
  | .ok c => .ok { w with shutdown := c }
  | .error p => .error p

/-- How the process ends. -/
structure Exit where
  log : List zerolog.Event
  status : Nat
  deriving DecidableEq, Repr

/-- The text Err(err) logs for an error: the library's message for the two
context errors, which are the errors Start can return, and a short
description in place of the library's message for the others. -/
def Error.text : Error → List Char
  | .canceled => "context canceled".toList
  | .deadlineExceeded => "context deadline exceeded".toList
  | .invalidJSON => "invalid JSON".toList
  | .unmarshalType v _ => "json: cannot unmarshal ".toList ++ v
  | .unsupportedType => "json: unsupported type".toList
  | .unsupportedValue => "json: unsupported value".toList
  | .marshaler m => m
  | .timeFormat m => m
  | .phase => "JSON decoder out of sync".toList
  | .other m => m

/-- The end of main, from the value worker.Start returned: a non-nil error
other than context.Canceled is logged at fatal level and the process exits
with status 1; otherwise the completion message is logged and main returns. -/
def mainAfterStart (err : Option Error) : Exit :=
  if err ≠ none ∧ err ≠ some Error.canceled then
    { log := [zerolog.global.event .fatal [("error".toList, (err.map Error.text).getD [])]
        "Worker failed".toList]
      status := 1 }
  else
    { log := [zerolog.global.event .info [] "Worker shutdown complete".toList]
      status := 0 }

namespace json

/-- A character that ends a value inside an array or an object. -/
def isDelim (c : Char) : Bool := c == ',' || c == ']' || c == rbrace

/-- The input after a value is empty or starts with a delimiter. -/
def stops (rest : List Char) : Prop := ∀ c cs, rest = c :: cs → isDelim c = true

mutual
/-- A value whose literals are texts the scanner reads back whole: numbers
are complete number literals and strings are texts written by appendString. -/
def Value.printable : Value → Prop
  | .null => True
  | .bool _ => True
  | .number lit => scanNumberLit lit = some (lit, [])
  | .string raw => ∃ s, raw = appendString s
  | .array elems => printableElems elems
  | .object members => printableMembers members
/-- All elements are printable. -/
def printableElems : List Value → Prop
  | [] => True
  | v :: vs => v.printable ∧ printableElems vs
/-- All keys are texts written by appendString and all values are printable. -/
def printableMembers : List (List Char × Value) → Prop
  | [] => True
  | (k, v) :: ms => (∃ s, k = appendString s) ∧ v.printable ∧ printableMembers ms
end

mutual
/-- Number of nested arrays and objects of a value. -/
def Value.depth : Value → Nat
  | .null => 0
  | .bool _ => 0
  | .number _ => 0
  | .string _ => 0
  | .array elems => depthElems elems + 1
  | .object members => depthMembers members + 1
/-- Greatest depth among the elements. -/
def depthElems : List Value → Nat
  | [] => 0
  | v :: vs => max v.depth (depthElems vs)
/-- Greatest depth among the member values. -/
def depthMembers : List (List Char × Value) → Nat
  | [] => 0
  | (_, v) :: ms => max v.depth (depthMembers ms)
end

/-- What the first character of a rendered value tells the parser. -/
inductive Lead (c : Char) : Value → Prop where
  | null : c = 'n' → Lead c .null
  | true_ : c = 't' → Lead c (.bool true)
  | false_ : c = 'f' → Lead c (.bool false)
  | number (lit : List Char) : c = '-' ∨ isDigit c = true → Lead c (.number lit)
  | string (raw : List Char) : c = dquote → Lead c (.string raw)
  | array (elems : List Value) : c = '[' → Lead c (.array elems)
  | object (members : List (List Char × Value)) : c = lbrace → Lead c (.object members)

/-- The entries are pairwise in increasing key order. -/
def Ascending {α : Type} (l : List (List Char × α)) : Prop :=
  l.Pairwise (fun a b => keyLt a.1 b.1 = true)

/-- The entries are listed in strictly increasing key order. -/
def sortedKeys {α : Type} : List (List Char × α) → Bool
  | [] => true
  | [_] => true
  | x :: y :: rest => keyLt x.1 y.1 && sortedKeys (y :: rest)

/-- A member of an object whose key selects a field of Task that cannot hold
the member's value: a value other than null of the wrong kind, a number that
is not an int64 for priority. -/
def mismatch (f : Field) (v : Value) : Bool :=
  match f, v with
  | _, .null => false
  | .id, .string _ => false
  | .agentID, .string _ => false
  | .type_, .string _ => false
  | .input, .string _ => false
  | .priority, .number lit => (parseInt64 lit).isNone
  | .config, .object _ => false
  | .createdAt, .string _ => false
  | _, _ => true

/-- The member selects a field and its value does not fit it. -/
def memberMismatch (m : List Char × Value) : Bool :=
  match unquote m.1 with
  | none => false
  | some key =>
    match lookupField key with
    | none => false
    | some f => mismatch f m.2

/-- The check the parser of the model makes for a malformed input: the input
does not parse, or parses to a value other than null that is not an object,
or to an object with a mismatched member. -/
def malformed (data : List Char) : Bool :=
  match parse data with
  | none => true
  | some .null => false
  | some (.object members) => members.any memberMismatch
  | some _ => true

end json

/-- The float routines agree on a float64: the text written for it is a
complete JSON number literal and parses back to the same value. The routines
of strconv agree on every finite float64. -/
def Runtime.readsBack (rt : Runtime) (x : Float64) : Bool :=
  decide (json.scanNumberLit (rt.formatFloat x) = some (rt.formatFloat x, [])) &&
    decide (rt.parseFloat (rt.formatFloat x) = some x)

mutual
/-- The values decoding produces for an interface: nil, booleans, finite
float64 numbers on which the float routines agree, strings, and slices and
maps of such values, the entries of every map listed in increasing key
order. -/
def GoValue.normal (rt : Runtime) : GoValue → Bool
  | .nil => true
  | .bool _ => true
  | .int _ => false
  | .float64 x => x.isFinite && rt.readsBack x
  | .string _ => true
  | .slice elems => GoValue.normalElems rt elems
  | .map entries => json.sortedKeys entries && GoValue.normalEntries rt entries
  | .chan => false
/-- All elements are in the form decoding produces. -/
def GoValue.normalElems (rt : Runtime) : List GoValue → Bool
  | [] => true
  | v :: vs => v.normal rt && GoValue.normalElems rt vs
/-- All entry values are in the form decoding produces. -/
def GoValue.normalEntries (rt : Runtime) : List (List Char × GoValue) → Bool
  | [] => true
  | (_, v) :: rest => v.normal rt && GoValue.normalEntries rt rest
end

mutual
/-- The values the encoder can represent: nil, booleans, integers, finite
float64 numbers, strings, and slices and maps of such values. -/
def GoValue.representable : GoValue → Bool
  | .nil => true
  | .bool _ => true
  | .int _ => true
  | .float64 x => x.isFinite
  | .string _ => true
  | .slice elems => GoValue.representableElems elems
  | .map entries => GoValue.representableEntries entries
  | .chan => false
/-- All elements are representable. -/
def GoValue.representableElems : List GoValue → Bool
  | [] => true
  | v :: vs => v.representable && GoValue.representableElems vs
/-- All entry values are representable. -/
def GoValue.representableEntries : List (List Char × GoValue) → Bool
  | [] => true
  | (_, v) :: rest => v.representable && GoValue.representableEntries rest
end

mutual
/-- Number of nested slices and maps of an interface value. -/
def GoValue.depth : GoValue → Nat
  | .nil => 0
  | .bool _ => 0
  | .int _ => 0
  | .float64 _ => 0
  | .string _ => 0
  | .slice elems => GoValue.depthElems elems + 1
  | .map entries => GoValue.depthEntries entries + 1
  | .chan => 0
/-- Greatest depth among the elements. -/
def GoValue.depthElems : List GoValue → Nat
  | [] => 0
  | v :: vs => max v.depth (GoValue.depthElems vs)
/-- Greatest depth among the entry values. -/
def GoValue.depthEntries : List (List Char × GoValue) → Nat
  | [] => 0
  | (_, v) :: rest => max v.depth (GoValue.depthEntries rest)
end

mutual
/-- Some value of type int occurs in the interface value. -/
def GoValue.hasInt : GoValue → Bool
  | .nil => false
  | .bool _ => false
  | .int _ => true
  | .float64 _ => false
  | .string _ => false
  | .slice elems => GoValue.hasIntElems elems
  | .map entries => GoValue.hasIntEntries entries
  | .chan => false
/-- Some value of type int occurs in an element. -/
def GoValue.hasIntElems : List GoValue → Bool
  | [] => false
  | v :: vs => v.hasInt || GoValue.hasIntElems vs
/-- Some value of type int occurs in an entry. -/
def GoValue.hasIntEntries : List (List Char × GoValue) → Bool
  | [] => false
  | (_, v) :: rest => v.hasInt || GoValue.hasIntEntries rest
end

/-- Some value of type int occurs in the config map of the Task. -/
def Task.configHasInt (t : Task) : Bool :=
  match t.Config with
  | none => false
  | some entries => GoValue.hasIntEntries entries

namespace time

/-- The characters that occur in the RFC 3339 text of a Time. -/
def timeChar (c : Char) : Prop :=
  isDigit c = true ∨ c = '-' ∨ c = 'T' ∨ c = ':' ∨ c = '.' ∨ c = 'Z' ∨ c = '+'

/-- The calendar reading is one a Time can have. -/
def Time.valid (t : Time) : Bool :=
  decide (1 ≤ t.month) && decide (t.month ≤ 12) && decide (1 ≤ t.day) &&
    decide (t.day ≤ daysIn t.month t.year) && decide (t.hour < 24) && decide (t.minute < 60) &&
    decide (t.second < 60) && decide (t.nanosecond < 1000000000)

/-- The location parseRFC3339 gives a Time read with a zone suffix other
than Z. -/
def parsedLocation (localOffset : Time → Int) (t : Time) : Location :=
  if localOffset { t with loc := .Fixed [] t.offset, mono := none } = t.offset then .Local
  else .Fixed [] t.offset

/-- The Time values that Time.UnmarshalJSON can produce from the text of
Time.MarshalJSON: a year from 0 to 9999, no monotonic reading, and either
offset zero in time.UTC or a whole-minute offset of less than a day in the
location the parser chooses for it. -/
def Time.onWire (localOffset : Time → Int) (t : Time) : Bool :=
  t.valid && decide (t.mono = none) && decide (0 ≤ t.year) && decide (t.year ≤ 9999) &&
    (if t.offset = 0 then decide (t.loc = .UTC)
     else decide (t.offset % 60 = 0) && decide (-86400 < t.offset) && decide (t.offset < 86400) &&
       decide (t.loc = parsedLocation localOffset t))

end time

/-- The Tasks that DeserializeTask can return: the config map is nil or holds
values in the form decoding produces (with float64 numbers on which the float
routines agree), nested less deep than the decoder allows, the priority is an
int64 and the timestamp is one the decoder can produce. -/
def Task.onWire (rt : Runtime) (t : Task) : Bool :=
  (match t.Config with
    | none => true
    | some entries =>
      (GoValue.map entries).normal rt &&
        decide ((GoValue.map entries).depth + 1 ≤ json.maxNestingDepth)) &&
    decide (-9223372036854775808 ≤ t.Priority) && decide (t.Priority ≤ 9223372036854775807) &&
    t.CreatedAt.onWire rt.localOffset

mutual
/-- Two interface values hold the same Go value: they are the same nil,
boolean, number, string or channel, slices that agree element by element, or
maps with the same keys and the same value under each key, whatever order the
two lists give the entries in. -/
def GoValue.same : GoValue → GoValue → Prop
  | .nil, w => w = .nil
  | .bool b, w => w = .bool b
  | .int n, w => w = .int n
  | .float64 x, w => w = .float64 x
  | .string s, w => w = .string s
  | .slice xs, w => ∃ ys, w = .slice ys ∧ GoValue.sameElems xs ys
  | .map es, w => ∃ es₁ es₂, w = .map es₂ ∧ GoValue.sameEntries es es₁ ∧ es₁.Perm es₂
  | .chan, w => w = .chan
/-- The two lists have the same length and hold the same Go values, place by
place. -/
def GoValue.sameElems : List GoValue → List GoValue → Prop
  | [], ys => ys = []
  | x :: xs, ys => ∃ y ys', ys = y :: ys' ∧ x.same y ∧ GoValue.sameElems xs ys'
/-- The two lists have the same keys in the same order and hold the same Go
values under them. -/
def GoValue.sameEntries :
    List (List Char × GoValue) → List (List Char × GoValue) → Prop
  | [], es => es = []
  | (k, v) :: rest, es =>
    ∃ w rest', es = (k, w) :: rest' ∧ v.same w ∧ GoValue.sameEntries rest rest'
end

mutual
/-- No map inside the value lists a key twice, as in every Go map. -/
def GoValue.keysDistinct : GoValue → Bool
  | .nil => true
  | .bool _ => true
  | .int _ => true
  | .float64 _ => true
  | .string _ => true
  | .slice xs => GoValue.keysDistinctElems xs
  | .map es => decide ((es.map Prod.fst).Nodup) && GoValue.keysDistinctEntries es
  | .chan => true
/-- No map inside an element lists a key twice. -/
def GoValue.keysDistinctElems : List GoValue → Bool
  | [] => true
  | v :: vs => v.keysDistinct && GoValue.keysDistinctElems vs
/-- No map inside an entry value lists a key twice. -/
def GoValue.keysDistinctEntries : List (List Char × GoValue) → Bool
  | [] => true
  | (_, v) :: rest => v.keysDistinct && GoValue.keysDistinctEntries rest
end

/-- Two Tasks are equal as Go values: the same strings, priority and
timestamp, and config maps that are both nil or hold the same Go values. -/
def Task.same (t u : Task) : Prop :=
  t.ID = u.ID ∧ t.AgentID = u.AgentID ∧ t.TaskType = u.TaskType ∧ t.Input = u.Input ∧
    t.Priority = u.Priority ∧ t.CreatedAt = u.CreatedAt ∧
    match t.Config, u.Config with
    | none, none => True
    | some es, some es' => (GoValue.map es).same (.map es')
    | _, _ => False

/-- No map of the config of the Task lists a key twice. -/
def Task.keysDistinct (t : Task) : Bool :=
  match t.Config with
  | none => true
  | some es => (GoValue.map es).keysDistinct

/-- The Tasks json.Marshal accepts: every config value is representable, the
year of the timestamp has four digits and its zone offset is less than a day. -/
def Task.encodable (t : Task) : Bool :=
  (match t.Config with
    | none => true
    | some entries => (GoValue.map entries).representable) &&
    decide (0 ≤ t.CreatedAt.year) && decide (t.CreatedAt.year ≤ 9999) &&
    decide (-86400 < t.CreatedAt.offset) && decide (t.CreatedAt.offset < 86400)

namespace json

/-! The JSON grammar (RFC 8259), stated on its own: which texts are JSON texts
and of which value. The parser of the model is compared with it. -/

/-- Whitespace of the grammar (production ws): any run of spaces, tabs, line
feeds and carriage returns. -/
def Blank (s : List Char) : Prop := ∀ c ∈ s, c = ' ' ∨ c.toNat = 9 ∨ c.toNat = 10 ∨ c.toNat = 13

/-- A non-empty run of decimal digits. -/
def Digits (s : List Char) : Prop := s ≠ [] ∧ ∀ c ∈ s, isDigit c = true

/-- The integer part of a number (production int): a single zero, or digits
that do not start with a zero. -/
def IntText (s : List Char) : Prop := s = ['0'] ∨ (Digits s ∧ s.head? ≠ some '0')

/-- The optional fraction of a number (production frac): a period and digits. -/
def FracText (s : List Char) : Prop := s = [] ∨ ∃ ds, s = '.' :: ds ∧ Digits ds

/-- The optional exponent of a number (production exp): the letter e in
either case, an optional sign and digits. -/
def ExpText (s : List Char) : Prop :=
  s = [] ∨ ∃ e sign ds, s = e :: (sign ++ ds) ∧ (e = 'e' ∨ e = 'E') ∧
    (sign = [] ∨ sign = ['+'] ∨ sign = ['-']) ∧ Digits ds

/-- A number of the grammar (production number): an optional minus sign, the
integer part, the optional fraction and the optional exponent. -/
def NumberText (s : List Char) : Prop :=
  ∃ sign int frac exp, s = sign ++ (int ++ (frac ++ exp)) ∧ (sign = [] ∨ sign = ['-']) ∧
    IntText int ∧ FracText frac ∧ ExpText exp

/-- The text between the quotes of a string of the grammar (production
char, repeated): characters other than the quote, the backslash and the
control characters, the two-character escapes, and the escapes of a
backslash, the letter u and four hexadecimal digits. -/
inductive StringText : List Char → Prop where
  | nil : StringText []
  | plain (c : Char) (rest : List Char) : c ≠ dquote → c ≠ backslash → 32 ≤ c.toNat →
      StringText rest → StringText (c :: rest)
  | escape (e : Char) (rest : List Char) :
      e ∈ [dquote, backslash, '/', 'b', 'f', 'n', 'r', 't'] →
      StringText rest → StringText (backslash :: e :: rest)
  | unicode (a b c d : Char) (rest : List Char) :
      isHex a = true → isHex b = true → isHex c = true → isHex d = true →
      StringText rest → StringText (backslash :: 'u' :: a :: b :: c :: d :: rest)

mutual
/-- The text is a value of the grammar (production value) and stands for the
given value: a literal name, a number, a string between quotes, an array or
an object. Whitespace may stand around the elements, the keys, the colons and
the member values. -/
def Value.Text : Value → List Char → Prop
  | .null, s => s = "null".toList
  | .bool true, s => s = "true".toList
  | .bool false, s => s = "false".toList
  | .number lit, s => s = lit ∧ NumberText lit
  | .string raw, s => s = dquote :: (raw ++ [dquote]) ∧ StringText raw
  | .array elems, s => ∃ body, s = '[' :: body ∧ ElemsText elems body
  | .object members, s => ∃ body, s = lbrace :: body ∧ MembersText members body
/-- The text after the opening bracket of an array, closing bracket included
(productions begin-array to end-array). -/
def ElemsText : List Value → List Char → Prop
  | [], s => ∃ w, Blank w ∧ s = w ++ [']']
  | [v], s => ∃ w₁ t w₂, Blank w₁ ∧ v.Text t ∧ Blank w₂ ∧ s = w₁ ++ (t ++ (w₂ ++ [']']))
  | v :: u :: vs, s =>
    ∃ w₁ t w₂ rest, Blank w₁ ∧ v.Text t ∧ Blank w₂ ∧ ElemsText (u :: vs) rest ∧
      s = w₁ ++ (t ++ (w₂ ++ ',' :: rest))
/-- The text after the opening brace of an object, closing brace included
(productions begin-object to end-object, with member). -/
def MembersText : List (List Char × Value) → List Char → Prop
  | [], s => ∃ w, Blank w ∧ s = w ++ [rbrace]
  | [(k, v)], s =>
    ∃ w₁ w₂ w₃ t w₄, Blank w₁ ∧ StringText k ∧ Blank w₂ ∧ Blank w₃ ∧ v.Text t ∧ Blank w₄ ∧
      s = w₁ ++ dquote :: (k ++ dquote :: (w₂ ++ ':' :: (w₃ ++ (t ++ (w₄ ++ [rbrace])))))
  | (k, v) :: m :: ms, s =>
    ∃ w₁ w₂ w₃ t w₄ rest, Blank w₁ ∧ StringText k ∧ Blank w₂ ∧ Blank w₃ ∧ v.Text t ∧
      Blank w₄ ∧ MembersText (m :: ms) rest ∧
      s = w₁ ++ dquote :: (k ++ dquote :: (w₂ ++ ':' :: (w₃ ++ (t ++ (w₄ ++ ',' :: rest)))))
end

/-- The text is a JSON text of the value (production JSON-text): a value with
optional whitespace around it. -/
def JSONText (data : List Char) (v : Value) : Prop :=
  ∃ w₁ t w₂, Blank w₁ ∧ v.Text t ∧ Blank w₂ ∧ data = w₁ ++ (t ++ w₂)

/-- The text is well-formed JSON as encoding/json accepts it: a JSON text
whose arrays and objects are nested at most maxNestingDepth deep. -/
def WellFormed (data : List Char) (v : Value) : Prop :=
  JSONText data v ∧ v.depth ≤ maxNestingDepth

/-- The inputs that are not a well-formed encoding of a Task: a text that is
not well-formed JSON (the empty and the truncated input among them), the
well-formed JSON text of a value other than null that is not an object, and
the well-formed JSON text of an object with a member whose key selects a
field of Task and whose value, other than null, that field cannot hold. -/
def Malformed (data : List Char) : Prop :=
  (¬ ∃ v, WellFormed data v) ∨
    (∃ v, WellFormed data v ∧ v ≠ .null ∧ ∀ ms, v ≠ .object ms) ∨
    (∃ ms, WellFormed data (.object ms) ∧ ms.any memberMismatch = true)

end json

namespace Example

/-- The Task of the processing scenario: id t1, agent a1, type echo, input
hello, priority 1, everything else zero. -/
def echoTask : Task :=
  { ID := "t1".toList, AgentID := "a1".toList, TaskType := "echo".toList,
    Input := "hello".toList, Config := none, Priority := 1, CreatedAt := time.Time.zero }

/-- Noon of 29 February 2024, half a second past, at offset -05:30, as the
decoder reads it where time.Local is UTC. -/
def leapNoon : time.Time :=
  { year := 2024, month := 2, day := 29, hour := 12, minute := 0, second := 0,
    nanosecond := 500000000, offset := -19800, loc := .Fixed [] (-19800), mono := none }

/-- A Task in wire form with a nested config: strings that need escaping, the
float64 numbers 1.0 and -42.0, a slice and an inner map. -/
def wireTask : Task :=
  { ID := [Char.ofNat 116, dquote, '<', Char.ofNat 10, Char.ofNat 233]
    AgentID := "a1".toList
    TaskType := "echo".toList
    Input := "hello".toList
    Config := some
      [ ("a".toList, .slice [.nil, .bool true, .string "x".toList, .map []]),
        ("b".toList, .float64 { bits := 4607182418800017408, isLt := by decide }),
        ("c".toList, .map [("k".toList, .string [backslash])]),
        ("d".toList, .float64 { bits := 13854479828675198976, isLt := by decide }) ]
    Priority := -5
    CreatedAt := leapNoon }

/-- The scenario Task with an int in its config map: the Go literal 1 stored
under the key n. -/
def intConfigTask : Task :=
  { echoTask with Config := some [("n".toList, .int 1)] }

/-- The same instant of the wall clock read in time.Local, for a process
whose local zone is at offset zero. -/
def localNoon : time.Time :=
  { year := 2024, month := 2, day := 29, hour := 17, minute := 30, second := 0,
    nanosecond := 500000000, offset := 0, loc := .Local, mono := none }

/-- The scenario Task stamped by time.Now(): the timestamp is in time.Local
and carries a monotonic clock reading. -/
def stampedTask : Task :=
  { echoTask with CreatedAt := time.Now { wall := localNoon, mono := 1500 } }

/-- The scenario Task with a timestamp in the year 10000. -/
def farFutureTask : Task :=
  { echoTask with CreatedAt := { time.Time.zero with year := 10000 } }

/-- The scenario Task with a config map that holds an inner map and, inside
a slice, a third map, each listed out of key order. -/
def listedTask : Task :=
  { echoTask with
    Config := some
      [ ("b".toList, .map
          [ ("y".toList, .int 2),
            ("x".toList, .slice [.map [("q".toList, .nil), ("p".toList, .bool true)]]) ]),
        ("a".toList, .bool true) ] }

/-- The same Task with the entries of every map listed in key order. -/
def relistedTask : Task :=
  { echoTask with
    Config := some
      [ ("a".toList, .bool true),
        ("b".toList, .map
          [ ("x".toList, .slice [.map [("p".toList, .bool true), ("q".toList, .nil)]]),
            ("y".toList, .int 2) ]) ] }

/-- A generator whose first value is all zero bytes and whose later values
are all bytes 17. -/
def gen (n : Nat) : uuid.UUID :=
  if n = 0 then { bytes := List.replicate 16 0, size := by decide }
  else { bytes := List.replicate 16 17, size := by decide }

/-- A clock that advances by 100.4 milliseconds from one reading to the next. -/
def clock (n : Nat) : time.Reading :=
  { wall := leapNoon, mono := 1000 + 100400000 * (n : Int) }

end Example

/-! Decimal numerals. -/

theorem digitChar_toNat (d : Nat) (h : d < 10) : (digitChar d).toNat = 48 + d := by
  interval_cases d <;> rfl

theorem isDigit_digitChar (d : Nat) (h : d < 10) : isDigit (digitChar d) = true := by
  interval_cases d <;> rfl

theorem digitVal_digitChar (d : Nat) (h : d < 10) : digitVal (digitChar d) = d := by
  interval_cases d <;> rfl

theorem digitChar_ne_zero (d : Nat) (h : d < 10) (h0 : 0 < d) : digitChar d ≠ '0' := by
  interval_cases d <;> decide

theorem formatNatFuel_fuel (fuel₁ fuel₂ n : Nat) (h₁ : n < fuel₁) (h₂ : n < fuel₂) :
    formatNatFuel fuel₁ n = formatNatFuel fuel₂ n := by
  induction fuel₁ generalizing fuel₂ n with
  | zero => omega
  | succ f ih =>
    cases fuel₂ with
    | zero => omega
    | succ g =>
      simp only [formatNatFuel]
      split
      · rfl
      · rw [ih g (n / 10) (by omega) (by omega)]

theorem formatNat_small (n : Nat) (h : n < 10) : formatNat n = [digitChar n] := by
  simp [formatNat, formatNatFuel, h]

theorem formatNat_large (n : Nat) (h : 10 ≤ n) :
    formatNat n = formatNat (n / 10) ++ [digitChar (n % 10)] := by
  have h' : ¬ n < 10 := by omega
  unfold formatNat
  rw [formatNatFuel, if_neg h', formatNatFuel_fuel n (n / 10 + 1) (n / 10) (by omega) (by omega)]

theorem parseDigits_snoc (ds : List Char) (c : Char) :
    parseDigits (ds ++ [c]) = parseDigits ds * 10 + digitVal c := by
  simp [parseDigits, List.foldl_append]

theorem parseDigits_formatNat (n : Nat) : parseDigits (formatNat n) = n := by
  induction n using Nat.strong_induction_on with
  | _ n ih =>
    by_cases h : n < 10
    · rw [formatNat_small n h]
      simp [parseDigits, digitVal_digitChar n h]
    · rw [formatNat_large n (by omega), parseDigits_snoc, ih (n / 10) (by omega),
        digitVal_digitChar _ (Nat.mod_lt _ (by decide))]
      omega

theorem all_isDigit_formatNat (n : Nat) : (formatNat n).all isDigit = true := by
  induction n using Nat.strong_induction_on with
  | _ n ih =>
    by_cases h : n < 10
    · rw [formatNat_small n h]
      simp [isDigit_digitChar n h]
    · rw [formatNat_large n (by omega), List.all_append, ih (n / 10) (by omega)]
      simp [isDigit_digitChar _ (Nat.mod_lt n (by decide : 0 < 10))]

/-- The numeral of a positive number starts with a non-zero digit; that of
zero is the single digit zero. -/
theorem formatNat_head (n : Nat) (h : 0 < n) :
    ∃ c cs, formatNat n = c :: cs ∧ isDigit c = true ∧ c ≠ '0' ∧ cs.all isDigit = true := by
  induction n using Nat.strong_induction_on with
  | _ n ih =>
    by_cases h10 : n < 10
    · exact ⟨digitChar n, [], formatNat_small n h10, isDigit_digitChar n h10,
        digitChar_ne_zero n h10 h, rfl⟩
    · obtain ⟨c, cs, hc, hd, hz, hall⟩ := ih (n / 10) (by omega) (by omega)
      refine ⟨c, cs ++ [digitChar (n % 10)], ?_, hd, hz, ?_⟩
      · rw [formatNat_large n (by omega), hc]
        rfl
      · rw [List.all_append, hall]
        simp [isDigit_digitChar _ (Nat.mod_lt n (by decide : 0 < 10))]

theorem formatNat_zero : formatNat 0 = ['0'] := rfl

theorem formatNat_ne_nil (n : Nat) : formatNat n ≠ [] := by
  by_cases h : n < 10
  · rw [formatNat_small n h]
    simp
  · rw [formatNat_large n (by omega)]
    simp

theorem parseMagnitude_formatNat (negative : Bool) (n : Nat)
    (h : -9223372036854775808 ≤ (if negative then -(n : Int) else (n : Int)) ∧
      (if negative then -(n : Int) else (n : Int)) ≤ 9223372036854775807) :
    parseMagnitude negative (formatNat n) =
      some (if negative then -(n : Int) else (n : Int)) := by
  have hne : (formatNat n).isEmpty = false := by
    cases hf : formatNat n with
    | nil => exact absurd hf (formatNat_ne_nil _)
    | cons _ _ => rfl
  unfold parseMagnitude
  simp only [hne, all_isDigit_formatNat, parseDigits_formatNat, Bool.not_true, Bool.or_self,
    Bool.false_eq_true, if_false]
  rw [if_pos h]

theorem parseInt64_unsigned (c : Char) (cs : List Char) (h : isDigit c = true) :
    parseInt64 (c :: cs) = parseMagnitude false (c :: cs) := by
  have hminus : c ≠ '-' := by
    intro h'
    rw [h'] at h
    exact absurd h (by decide)
  have hplus : c ≠ '+' := by
    intro h'
    rw [h'] at h
    exact absurd h (by decide)
  unfold parseInt64
  split
  · rename_i heq
    simp only [List.cons.injEq] at heq
    exact absurd heq.1 hminus
  · rename_i heq
    simp only [List.cons.injEq] at heq
    exact absurd heq.1 hplus
  · rfl

theorem parseInt64_formatInt (n : Int) (h₁ : -9223372036854775808 ≤ n)
    (h₂ : n ≤ 9223372036854775807) : parseInt64 (formatInt n) = some n := by
  unfold formatInt
  by_cases hn : n < 0
  · rw [if_pos hn]
    have hval : -((n.natAbs : Nat) : Int) = n := by omega
    have := parseMagnitude_formatNat true n.natAbs (by simp only [if_true]; omega)
    simp only [if_true, hval] at this
    exact this
  · rw [if_neg hn]
    have hval : ((n.natAbs : Nat) : Int) = n := by omega
    obtain ⟨c, cs, hc⟩ : ∃ c cs, formatNat n.natAbs = c :: cs := by
      cases hf : formatNat n.natAbs with
      | nil => exact absurd hf (formatNat_ne_nil _)
      | cons c cs => exact ⟨c, cs, rfl⟩
    have hcd : isDigit c = true := by
      have := all_isDigit_formatNat n.natAbs
      rw [hc] at this
      simp only [List.all_cons, Bool.and_eq_true] at this
      exact this.1
    have := parseMagnitude_formatNat false n.natAbs
      (by simp only [Bool.false_eq_true, if_false]; omega)
    simp only [Bool.false_eq_true, if_false, hval] at this
    rw [hc, parseInt64_unsigned c cs hcd, ← hc]
    exact this

namespace json

/-! String literals: what appendString writes is scanned back as one literal
and unquoted to the original string. -/

/-- Put a text in front of the literal being scanned. -/
theorem consRaw_eq (c : Char) (r : Option (List Char × List Char)) :
    consRaw c r = r.map (fun p => (c :: p.1, p.2)) := by
  cases r with
  | none => rfl
  | some p => rfl

theorem hexDigit_isHex (n : Nat) (h : n < 16) : isHex (hexDigit n) = true := by
  interval_cases n <;> rfl

theorem hexVal_hexDigit (n : Nat) (h : n < 16) : hexVal (hexDigit n) = some n := by
  interval_cases n <;> rfl

theorem toNat_lt_of_html {c : Char} (h : c.toNat < 32 ∨ c = '<' ∨ c = '>' ∨ c = '&') :
    c.toNat < 128 := by
  rcases h with h | h | h | h
  · omega
  · rw [h]; decide
  · rw [h]; decide
  · rw [h]; decide

theorem char_eq_of_toNat {c : Char} {n : Nat} (h : c.toNat = n) : c = Char.ofNat n := by
  rw [← h, Char.ofNat_toNat]

theorem escapeChar_ne_nil (c : Char) : 1 ≤ (escapeChar c).length := by
  unfold escapeChar
  split_ifs <;> simp

theorem scanString_escapeChar (c : Char) (tail : List Char) :
    scanString .inString (escapeChar c ++ tail) =
      (scanString .inString tail).map (fun p => (escapeChar c ++ p.1, p.2)) := by
  unfold escapeChar
  split_ifs with h1 h2 h3 h4 h5 h6 h7 h8
  · -- backslash or quote
    have hesc : isSimpleEscape c = true := by
      rcases h1 with h | h <;> rw [h] <;> rfl
    simp only [List.cons_append, List.nil_append]
    rw [scanString, if_neg (by decide), if_pos rfl, scanString, if_pos hesc]
    simp only [consRaw_eq, Option.map_map]
    rfl
  · simp only [List.cons_append, List.nil_append]
    rw [scanString, if_neg (by decide), if_pos rfl, scanString, if_pos (by rfl)]
    simp only [consRaw_eq, Option.map_map]
    rfl
  · simp only [List.cons_append, List.nil_append]
    rw [scanString, if_neg (by decide), if_pos rfl, scanString, if_pos (by rfl)]
    simp only [consRaw_eq, Option.map_map]
    rfl
  · simp only [List.cons_append, List.nil_append]
    rw [scanString, if_neg (by decide), if_pos rfl, scanString, if_pos (by rfl)]
    simp only [consRaw_eq, Option.map_map]
    rfl
  · simp only [List.cons_append, List.nil_append]
    rw [scanString, if_neg (by decide), if_pos rfl, scanString, if_pos (by rfl)]
    simp only [consRaw_eq, Option.map_map]
    rfl
  · simp only [List.cons_append, List.nil_append]
    rw [scanString, if_neg (by decide), if_pos rfl, scanString, if_pos (by rfl)]
    simp only [consRaw_eq, Option.map_map]
    rfl
  · -- \u00XY
    have hlt := toNat_lt_of_html h7
    have hx1 : isHex (hexDigit (c.toNat / 16)) = true := hexDigit_isHex _ (by omega)
    have hx2 : isHex (hexDigit (c.toNat % 16)) = true := hexDigit_isHex _ (by omega)
    simp only [List.cons_append, List.nil_append]
    rw [scanString, if_neg (by decide), if_pos rfl, scanString, if_neg (by decide), if_pos rfl,
      scanString, if_pos (by rfl), scanString, if_pos (by rfl), scanString, if_pos hx1,
      scanString, if_pos hx2]
    simp only [consRaw_eq, Option.map_map]
    rfl
  · have hx2 : isHex (hexDigit (c.toNat % 16)) = true :=
      hexDigit_isHex _ (Nat.mod_lt _ (by decide))
    simp only [List.cons_append, List.nil_append]
    rw [scanString, if_neg (by decide), if_pos rfl, scanString, if_neg (by decide), if_pos rfl,
      scanString, if_pos (by rfl), scanString, if_pos (by rfl), scanString, if_pos (by rfl),
      scanString, if_pos hx2]
    simp only [consRaw_eq, Option.map_map]
    rfl
  · -- the character itself
    have hq : c ≠ dquote := fun h => h1 (Or.inr h)
    have hb : c ≠ backslash := fun h => h1 (Or.inl h)
    have hc : ¬ c.toNat < 32 := fun h => h7 (Or.inl h)
    simp only [List.cons_append, List.nil_append]
    rw [scanString, if_neg hq, if_neg hb, if_neg hc, consRaw_eq]

/-- What appendString writes, followed by a quote, scans as one literal. -/
theorem scanString_appendString (s rest : List Char) :
    scanString .inString (appendString s ++ dquote :: rest) = some (appendString s, rest) := by
  induction s with
  | nil =>
    simp only [appendString, List.nil_append]
    rw [scanString, if_pos rfl]
  | cons c cs ih =>
    simp only [appendString, List.append_assoc]
    rw [scanString_escapeChar, ih]
    rfl

theorem consChar_eq (c : Char) (r : Option (List Char)) :
    consChar c r = r.map (fun s => c :: s) := by
  cases r with
  | none => rfl
  | some p => rfl

theorem decodeEscape_simple (e : Char) (ch : Char) (tail : List Char) (hu : e ≠ 'u')
    (h : unescape e = some ch) : decodeEscape (e :: tail) = some (ch, tail) := by
  simp only [decodeEscape, if_neg hu, h]

theorem decodeEscape_u (a b c d : Char) (rr : Nat) (tail : List Char)
    (h : getu4 a b c d = some rr) (hrr : rr < 55296) :
    decodeEscape ('u' :: a :: b :: c :: d :: tail) = some (Char.ofNat rr, tail) := by
  simp only [decodeEscape, if_true, h]
  rw [decodeU, if_neg (by omega)]

theorem unquoteFuel_backslash (fuel : Nat) (cs : List Char) (ch : Char) (tail : List Char)
    (h : decodeEscape cs = some (ch, tail)) :
    unquoteFuel (fuel + 1) (backslash :: cs) = consChar ch (unquoteFuel fuel tail) := by
  rw [unquoteFuel, if_pos rfl, h]

theorem unquoteFuel_escapeChar (fuel : Nat) (c : Char) (tail : List Char) :
    unquoteFuel (fuel + 1) (escapeChar c ++ tail) = consChar c (unquoteFuel fuel tail) := by
  unfold escapeChar
  split_ifs with h1 h2 h3 h4 h5 h6 h7 h8
  · have hu : c ≠ 'u' := by
      rcases h1 with h | h <;> rw [h] <;> decide
    have hun : unescape c = some c := by
      rcases h1 with h | h <;> rw [h] <;> rfl
    exact unquoteFuel_backslash fuel _ c tail (decodeEscape_simple c c tail hu hun)
  · rw [char_eq_of_toNat h2]
    exact unquoteFuel_backslash fuel _ _ tail (decodeEscape_simple _ _ tail (by decide) rfl)
  · rw [char_eq_of_toNat h3]
    exact unquoteFuel_backslash fuel _ _ tail (decodeEscape_simple _ _ tail (by decide) rfl)
  · rw [char_eq_of_toNat h4]
    exact unquoteFuel_backslash fuel _ _ tail (decodeEscape_simple _ _ tail (by decide) rfl)
  · rw [char_eq_of_toNat h5]
    exact unquoteFuel_backslash fuel _ _ tail (decodeEscape_simple _ _ tail (by decide) rfl)
  · rw [char_eq_of_toNat h6]
    exact unquoteFuel_backslash fuel _ _ tail (decodeEscape_simple _ _ tail (by decide) rfl)
  · have hlt := toNat_lt_of_html h7
    have hg : getu4 '0' '0' (hexDigit (c.toNat / 16)) (hexDigit (c.toNat % 16)) =
        some c.toNat := by
      unfold getu4
      rw [hexVal_hexDigit _ (by omega : c.toNat / 16 < 16),
        hexVal_hexDigit _ (by omega : c.toNat % 16 < 16)]
      simp only [show hexVal '0' = some 0 from rfl]
      congr 1
      omega
    have := unquoteFuel_backslash fuel _ _ tail (decodeEscape_u _ _ _ _ _ tail hg (by omega))
    rw [Char.ofNat_toNat] at this
    exact this
  · have hg : getu4 '2' '0' '2' (hexDigit (c.toNat % 16)) = some c.toNat := by
      unfold getu4
      rw [hexVal_hexDigit _ (Nat.mod_lt _ (by decide))]
      simp only [show hexVal '2' = some 2 from rfl, show hexVal '0' = some 0 from rfl]
      congr 1
      omega
    have := unquoteFuel_backslash fuel _ _ tail (decodeEscape_u _ _ _ _ _ tail hg (by omega))
    rw [Char.ofNat_toNat] at this
    exact this
  · have hq : c ≠ dquote := fun h => h1 (Or.inr h)
    have hb : c ≠ backslash := fun h => h1 (Or.inl h)
    have hc : ¬ c.toNat < 32 := fun h => h7 (Or.inl h)
    simp only [List.cons_append, List.nil_append]
    rw [unquoteFuel, if_neg hb, if_neg (by
      intro h
      rcases h with h | h
      · exact hq h
      · exact hc h)]

theorem unquoteFuel_appendString (s : List Char) (fuel : Nat)
    (h : (appendString s).length ≤ fuel) : unquoteFuel fuel (appendString s) = some s := by
  induction s generalizing fuel with
  | nil =>
    simp only [appendString]
    cases fuel <;> rfl
  | cons c cs ih =>
    simp only [appendString, List.length_append] at h ⊢
    have h1 := escapeChar_ne_nil c
    obtain ⟨f, rfl⟩ : ∃ f, fuel = f + 1 := ⟨fuel - 1, by omega⟩
    rw [unquoteFuel_escapeChar, ih f (by omega)]
    rfl

/-- Unquoting what appendString wrote gives the string back. -/
theorem unquote_appendString (s : List Char) : unquote (appendString s) = some s :=
  unquoteFuel_appendString s _ (Nat.le_refl _)

end json

namespace json

/-! Number literals. -/

theorem consRaw_some_iff (c : Char) (r : Option (List Char × List Char)) (lit rest : List Char) :
    consRaw c r = some (c :: lit, rest) ↔ r = some (lit, rest) := by
  cases r with
  | none => simp [consRaw]
  | some p =>
    obtain ⟨a, b⟩ := p
    simp [consRaw]

theorem consRaw_some_cons (c d : Char) (r : Option (List Char × List Char)) (lit rest : List Char)
    (h : consRaw c r = some (d :: lit, rest)) : r = some (lit, rest) := by
  cases r with
  | none => simp [consRaw] at h
  | some p =>
    obtain ⟨a, b⟩ := p
    simp [consRaw] at h
    obtain ⟨⟨_, h2⟩, h3⟩ := h
    rw [h2, h3]

theorem isDelim_not_digit {c : Char} (h : isDelim c = true) : isDigit c = false := by
  simp only [isDelim, Bool.or_eq_true, beq_iff_eq] at h
  rcases h with (h | h) | h <;> rw [h] <;> rfl

theorem isDelim_ne {c : Char} (h : isDelim c = true) :
    c ≠ '.' ∧ c ≠ 'e' ∧ c ≠ 'E' ∧ c ≠ '+' ∧ c ≠ '-' ∧ c ≠ '0' := by
  simp only [isDelim, Bool.or_eq_true, beq_iff_eq] at h
  rcases h with (h | h) | h <;> rw [h] <;> decide

/-- A complete number literal is still read whole when a delimiter follows. -/
theorem scanNumber_append (st : NumState) (lit rest : List Char) (hstop : stops rest)
    (h : scanNumber st lit = some (lit, [])) :
    scanNumber st (lit ++ rest) = some (lit, rest) := by
  induction lit generalizing st with
  | nil =>
    cases rest with
    | nil => exact h
    | cons d ds =>
      have hd := hstop d ds rfl
      have hdig := isDelim_not_digit hd
      obtain ⟨h1, h2, h3, h4, h5, h6⟩ := isDelim_ne hd
      cases st <;> simp [scanNumber] at h <;>
        simp [scanNumber, hdig, h1, h2, h3]
  | cons c cs ih =>
    cases st <;> simp only [scanNumber, List.cons_append, List.append_eq] at h ⊢
    all_goals
      split_ifs at h ⊢
      all_goals
        first
        | exact absurd h (by simp)
        | (have h' := consRaw_some_cons _ _ _ _ _ h
           rw [ih _ h']
           rfl)

theorem scanNumberLit_append (lit rest : List Char) (hstop : stops rest)
    (h : scanNumberLit lit = some (lit, [])) :
    scanNumberLit (lit ++ rest) = some (lit, rest) := by
  cases lit with
  | nil => simp [scanNumberLit] at h
  | cons c cs =>
    simp only [scanNumberLit, List.cons_append] at h ⊢
    split_ifs at h ⊢ with hc
    · have h' := consRaw_some_cons _ _ _ _ _ h
      rw [scanNumber_append _ _ _ hstop h']
      rfl
    · exact scanNumber_append _ (c :: cs) rest hstop h

theorem scanNumber_int_digits (ds : List Char) (h : ds.all isDigit = true) :
    scanNumber .int ds = some (ds, []) := by
  induction ds with
  | nil => rfl
  | cons c cs ih =>
    simp only [List.all_cons, Bool.and_eq_true] at h
    rw [scanNumber, if_pos h.1, ih h.2]
    rfl

theorem scanNumber_formatNat (n : Nat) : scanNumber .neg (formatNat n) = some (formatNat n, []) := by
  by_cases h : n = 0
  · subst h
    rfl
  · obtain ⟨c, cs, hc, hd, hz, hall⟩ := formatNat_head n (by omega)
    rw [hc, scanNumber, if_neg hz, if_pos hd, scanNumber_int_digits cs hall]
    rfl

/-- The numeral of an integer is a complete number literal. -/
theorem scanNumberLit_formatInt (n : Int) : scanNumberLit (formatInt n) = some (formatInt n, []) := by
  unfold formatInt
  split_ifs with h
  · rw [scanNumberLit, if_pos rfl, scanNumber_formatNat]
    rfl
  · obtain ⟨c, cs, hc⟩ : ∃ c cs, formatNat n.natAbs = c :: cs := by
      cases hf : formatNat n.natAbs with
      | nil => exact absurd hf (formatNat_ne_nil _)
      | cons c cs => exact ⟨c, cs, rfl⟩
    have hcd : isDigit c = true := by
      have := all_isDigit_formatNat n.natAbs
      rw [hc] at this
      simp only [List.all_cons, Bool.and_eq_true] at this
      exact this.1
    have hminus : c ≠ '-' := by
      intro h'
      rw [h'] at hcd
      exact absurd hcd (by decide)
    have := scanNumber_formatNat n.natAbs
    rw [hc] at this ⊢
    rw [scanNumberLit, if_neg hminus]
    exact this

/-- A complete number literal starts with a minus sign or a digit. -/
theorem scanNumberLit_head (lit : List Char) (h : scanNumberLit lit = some (lit, [])) :
    ∃ c cs, lit = c :: cs ∧ (c = '-' ∨ isDigit c = true) := by
  cases lit with
  | nil => simp [scanNumberLit] at h
  | cons c cs =>
    refine ⟨c, cs, rfl, ?_⟩
    by_cases hc : c = '-'
    · exact Or.inl hc
    · right
      simp only [scanNumberLit, if_neg hc, scanNumber] at h
      split_ifs at h with h0 hd
      · rw [h0]; rfl
      · exact hd

end json

namespace json

/-! The parser reads back what render writes. -/

theorem skipSpace_cons (c : Char) (cs : List Char) (h : isSpace c = false) :
    skipSpace (c :: cs) = c :: cs := by
  rw [skipSpace, h]
  rfl

theorem isDigit_not_space {c : Char} (h : isDigit c = true) :
    isSpace c = false ∧ c ≠ ']' ∧ c ≠ rbrace ∧ c ≠ lbrace ∧ c ≠ '[' ∧ c ≠ dquote ∧ c ≠ 't' ∧
      c ≠ 'f' ∧ c ≠ 'n' := by
  simp only [isDigit, Bool.and_eq_true, decide_eq_true_eq] at h
  have hne : ∀ d : Char, ¬ (48 ≤ d.toNat ∧ d.toNat ≤ 57) → c ≠ d := by
    intro d hd hcd
    rw [hcd] at h
    exact hd h
  refine ⟨?_, hne _ (by decide), hne _ (by decide), hne _ (by decide), hne _ (by decide),
    hne _ (by decide), hne _ (by decide), hne _ (by decide), hne _ (by decide)⟩
  simp only [isSpace, Bool.or_eq_false_iff, beq_eq_false_iff_ne, ne_eq]
  omega

theorem render_lead (v : Value) (hp : v.printable) : ∃ c cs, render v = c :: cs ∧ Lead c v := by
  cases v with
  | null => exact ⟨'n', _, rfl, .null rfl⟩
  | bool b =>
    cases b
    · exact ⟨'f', _, rfl, .false_ rfl⟩
    · exact ⟨'t', _, rfl, .true_ rfl⟩
  | number lit =>
    simp only [Value.printable] at hp
    obtain ⟨c, cs, hc, h⟩ := scanNumberLit_head lit hp
    exact ⟨c, cs, by rw [render, hc], .number lit h⟩
  | string raw => exact ⟨dquote, _, rfl, .string raw rfl⟩
  | array elems => exact ⟨'[', _, rfl, .array elems rfl⟩
  | object members => exact ⟨lbrace, _, rfl, .object members rfl⟩

theorem lead_not_space {c : Char} {v : Value} (h : Lead c v) :
    isSpace c = false ∧ c ≠ ']' ∧ c ≠ rbrace := by
  cases h with
  | null h => subst h; decide
  | true_ h => subst h; decide
  | false_ h => subst h; decide
  | number lit h =>
    rcases h with h | h
    · subst h; decide
    · exact ⟨(isDigit_not_space h).1, (isDigit_not_space h).2.1, (isDigit_not_space h).2.2.1⟩
  | string raw h => subst h; decide
  | array elems h => subst h; decide
  | object members h => subst h; decide

theorem render_length_pos (v : Value) (hp : v.printable) : 1 ≤ (render v).length := by
  obtain ⟨c, cs, hc, _⟩ := render_lead v hp
  rw [hc]
  simp

theorem skipSpace_render (v : Value) (hp : v.printable) (rest : List Char) :
    skipSpace (render v ++ rest) = render v ++ rest := by
  obtain ⟨c, cs, hc, hl⟩ := render_lead v hp
  rw [hc]
  exact skipSpace_cons c _ (lead_not_space hl).1

theorem skipSpace_delim (c : Char) (cs : List Char) (h : isDelim c = true) :
    skipSpace (c :: cs) = c :: cs := by
  apply skipSpace_cons
  simp only [isDelim, Bool.or_eq_true, beq_iff_eq] at h
  rcases h with (h | h) | h <;> rw [h] <;> rfl

theorem isPrefixOf_append (kw rest : List Char) : kw.isPrefixOf (kw ++ rest) = true := by
  induction kw with
  | nil => simp [List.isPrefixOf]
  | cons c cs ih => simp [List.isPrefixOf, ih]

theorem expect_append (kw rest : List Char) : expect kw (kw ++ rest) = some rest := by
  unfold expect
  rw [if_pos (isPrefixOf_append kw rest), List.drop_left]

theorem parseValue_null (fuel depth : Nat) (rest : List Char) :
    parseValue (fuel + 1) depth (render .null ++ rest) = some (.null, rest) := by
  show parseValue (fuel + 1) depth ('n' :: ('u' :: 'l' :: 'l' :: rest)) = some (.null, rest)
  rw [parseValue, if_neg (by decide), if_neg (by decide), if_neg (by decide), if_neg (by decide),
    if_neg (by decide), if_pos rfl]
  have := expect_append ['u', 'l', 'l'] rest
  simp only [List.cons_append, List.nil_append] at this
  simp only [List.nil_append, this]

theorem parseValue_true (fuel depth : Nat) (rest : List Char) :
    parseValue (fuel + 1) depth (render (.bool true) ++ rest) = some (.bool true, rest) := by
  show parseValue (fuel + 1) depth ('t' :: ('r' :: 'u' :: 'e' :: rest)) = some (.bool true, rest)
  rw [parseValue, if_neg (by decide), if_neg (by decide), if_neg (by decide), if_pos rfl]
  have := expect_append ['r', 'u', 'e'] rest
  simp only [List.cons_append, List.nil_append] at this
  simp only [List.nil_append, this]

theorem parseValue_false (fuel depth : Nat) (rest : List Char) :
    parseValue (fuel + 1) depth (render (.bool false) ++ rest) = some (.bool false, rest) := by
  show parseValue (fuel + 1) depth ('f' :: ('a' :: 'l' :: 's' :: 'e' :: rest)) =
    some (.bool false, rest)
  rw [parseValue, if_neg (by decide), if_neg (by decide), if_neg (by decide), if_neg (by decide),
    if_pos rfl]
  have := expect_append ['a', 'l', 's', 'e'] rest
  simp only [List.cons_append, List.nil_append] at this
  simp only [List.nil_append, this]

theorem parseValue_number (fuel depth : Nat) (lit rest : List Char)
    (hp : scanNumberLit lit = some (lit, [])) (hs : stops rest) :
    parseValue (fuel + 1) depth (render (.number lit) ++ rest) = some (.number lit, rest) := by
  obtain ⟨c, cs, hc, hlead⟩ := scanNumberLit_head lit hp
  have hscan := scanNumberLit_append lit rest hs hp
  have hne : c ≠ lbrace ∧ c ≠ '[' ∧ c ≠ dquote ∧ c ≠ 't' ∧ c ≠ 'f' ∧ c ≠ 'n' := by
    rcases hlead with h | h
    · subst h; decide
    · have := isDigit_not_space h
      exact ⟨this.2.2.2.1, this.2.2.2.2.1, this.2.2.2.2.2.1, this.2.2.2.2.2.2.1,
        this.2.2.2.2.2.2.2.1, this.2.2.2.2.2.2.2.2⟩
  simp only [render]
  rw [hc] at hscan ⊢
  simp only [List.cons_append] at hscan ⊢
  rw [parseValue, if_neg hne.1, if_neg hne.2.1, if_neg hne.2.2.1, if_neg hne.2.2.2.1,
    if_neg hne.2.2.2.2.1, if_neg hne.2.2.2.2.2, hscan]

theorem parseValue_string (fuel depth : Nat) (s rest : List Char) :
    parseValue (fuel + 1) depth (render (.string (appendString s)) ++ rest) =
      some (.string (appendString s), rest) := by
  simp only [render, List.cons_append, List.append_assoc, List.singleton_append,
    List.nil_append]
  rw [parseValue, if_neg (by decide), if_neg (by decide), if_pos rfl, scanString_appendString]

theorem parseValue_array_nil (fuel depth : Nat) (rest : List Char) (hd : depth < maxNestingDepth) :
    parseValue (fuel + 1) depth (render (.array []) ++ rest) = some (.array [], rest) := by
  simp only [render, renderElems, List.cons_append, List.nil_append]
  rw [parseValue, if_neg (by decide), if_pos rfl, if_neg (by omega),
    skipSpace_cons _ _ (by rfl)]
  simp only [if_true]

theorem parseValue_array_cons (fuel depth : Nat) (d : Char) (ds : List Char)
    (hd : depth < maxNestingDepth) (hsp : isSpace d = false) (hne : d ≠ ']') :
    parseValue (fuel + 1) depth ('[' :: d :: ds) =
      match parseElems fuel (depth + 1) (d :: ds) with
      | some (vs, rest) => some (.array vs, rest)
      | none => none := by
  rw [parseValue, if_neg (by decide), if_pos rfl, if_neg (by omega), skipSpace_cons _ _ hsp]
  simp only [if_neg hne]

theorem parseValue_object_nil (fuel depth : Nat) (rest : List Char)
    (hd : depth < maxNestingDepth) :
    parseValue (fuel + 1) depth (render (.object []) ++ rest) = some (.object [], rest) := by
  simp only [render, renderMembers, List.cons_append, List.nil_append]
  rw [parseValue, if_pos rfl, if_neg (by omega), skipSpace_cons _ _ (by rfl)]
  simp only [if_true]

theorem parseValue_object_cons (fuel depth : Nat) (d : Char) (ds : List Char)
    (hd : depth < maxNestingDepth) (hsp : isSpace d = false) (hne : d ≠ rbrace) :
    parseValue (fuel + 1) depth (lbrace :: d :: ds) =
      match parseMembers fuel (depth + 1) (d :: ds) with
      | some (ms, rest) => some (.object ms, rest)
      | none => none := by
  rw [parseValue, if_pos rfl, if_neg (by omega), skipSpace_cons _ _ hsp]
  simp only [if_neg hne]

theorem stops_cons (c : Char) (cs : List Char) (h : isDelim c = true) : stops (c :: cs) := by
  intro d ds hd
  simp only [List.cons.injEq] at hd
  rw [← hd.1]
  exact h

theorem parseElems_last (fuel depth : Nat) (s rest : List Char) (v : Value)
    (h : parseValue fuel depth s = some (v, ']' :: rest)) :
    parseElems (fuel + 1) depth s = some ([v], rest) := by
  rw [parseElems, h]
  simp only [skipSpace_cons _ _ (show isSpace ']' = false from rfl), if_true]

theorem parseElems_more (fuel depth : Nat) (s s2 rest : List Char) (v : Value) (vs : List Value)
    (h : parseValue fuel depth s = some (v, ',' :: s2)) (hs2 : skipSpace s2 = s2)
    (h2 : parseElems fuel depth s2 = some (vs, rest)) :
    parseElems (fuel + 1) depth s = some (v :: vs, rest) := by
  rw [parseElems, h]
  simp only [skipSpace_cons _ _ (show isSpace ',' = false from rfl),
    if_neg (show ¬ (',' = ']') by decide), if_true, hs2, h2]

theorem parseMembers_last (fuel depth : Nat) (k s rest : List Char) (v : Value)
    (h : parseValue fuel depth s = some (v, rbrace :: rest)) (hs : skipSpace s = s) :
    parseMembers (fuel + 1) depth (dquote :: (appendString k ++ dquote :: ':' :: s)) =
      some ([(appendString k, v)], rest) := by
  rw [parseMembers, if_pos rfl, scanString_appendString]
  simp only [skipSpace_cons _ _ (show isSpace ':' = false from rfl), if_true, hs, h,
    skipSpace_cons _ _ (show isSpace rbrace = false from rfl)]

theorem parseMembers_more (fuel depth : Nat) (k s s2 rest : List Char) (v : Value)
    (ms : List (List Char × Value))
    (h : parseValue fuel depth s = some (v, ',' :: s2)) (hs : skipSpace s = s)
    (hs2 : skipSpace s2 = s2) (h2 : parseMembers fuel depth s2 = some (ms, rest)) :
    parseMembers (fuel + 1) depth (dquote :: (appendString k ++ dquote :: ':' :: s)) =
      some ((appendString k, v) :: ms, rest) := by
  rw [parseMembers, if_pos rfl, scanString_appendString]
  simp only [skipSpace_cons _ _ (show isSpace ':' = false from rfl), if_true, hs, h,
    skipSpace_cons _ _ (show isSpace ',' = false from rfl),
    if_neg (show ¬ (',' = rbrace) by decide), hs2, h2]

end json

namespace json

theorem renderElems_cons_length (v : Value) (vs : List Value) :
    (render v).length + 1 ≤ (renderElems (v :: vs)).length := by
  cases vs with
  | nil => simp [renderElems]
  | cons w ws =>
    simp only [renderElems, List.length_append, List.length_cons]
    omega

theorem renderElems_tail_length (v w : Value) (vs : List Value) :
    (renderElems (v :: w :: vs)).length =
      (render v).length + 1 + (renderElems (w :: vs)).length := by
  simp only [renderElems, List.length_append, List.length_cons]
  omega

theorem renderElems_lead (v : Value) (vs : List Value) (hp : v.printable) (rest : List Char) :
    ∃ c cs, renderElems (v :: vs) ++ rest = c :: cs ∧ isSpace c = false ∧ c ≠ ']' := by
  obtain ⟨c, cs, hc, hl⟩ := render_lead v hp
  cases vs with
  | nil =>
    exact ⟨c, cs ++ [']'] ++ rest, by simp [renderElems, hc], (lead_not_space hl).1,
      (lead_not_space hl).2.1⟩
  | cons w ws =>
    exact ⟨c, cs ++ ',' :: renderElems (w :: ws) ++ rest, by simp [renderElems, hc],
      (lead_not_space hl).1, (lead_not_space hl).2.1⟩

theorem renderMembers_lead (k : List Char) (v : Value) (ms : List (List Char × Value))
    (rest : List Char) :
    ∃ cs, renderMembers ((k, v) :: ms) ++ rest = dquote :: cs := by
  cases ms with
  | nil =>
    exact ⟨k ++ dquote :: ':' :: (render v ++ rbrace :: rest), by simp [renderMembers]⟩
  | cons m ms' =>
    exact ⟨k ++ dquote :: ':' :: (render v ++ ',' :: (renderMembers (m :: ms') ++ rest)),
      by simp [renderMembers]⟩

mutual
/-- The parser reads a rendered printable value back, with enough fuel and
within the nesting limit. -/
theorem parseValue_render : ∀ (v : Value) (fuel depth : Nat) (rest : List Char),
    v.printable → depth + v.depth ≤ maxNestingDepth → 2 * (render v).length ≤ fuel →
    stops rest → parseValue fuel depth (render v ++ rest) = some (v, rest)
  | .null, fuel, depth, rest, hp, _, hf, _ => by
    have hpos := render_length_pos .null hp
    obtain ⟨f, rfl⟩ : ∃ f, fuel = f + 1 := ⟨fuel - 1, by omega⟩
    exact parseValue_null f depth rest
  | .bool true, fuel, depth, rest, hp, _, hf, _ => by
    have hpos := render_length_pos (.bool true) hp
    obtain ⟨f, rfl⟩ : ∃ f, fuel = f + 1 := ⟨fuel - 1, by omega⟩
    exact parseValue_true f depth rest
  | .bool false, fuel, depth, rest, hp, _, hf, _ => by
    have hpos := render_length_pos (.bool false) hp
    obtain ⟨f, rfl⟩ : ∃ f, fuel = f + 1 := ⟨fuel - 1, by omega⟩
    exact parseValue_false f depth rest
  | .number lit, fuel, depth, rest, hp, _, hf, hs => by
    have hpos := render_length_pos (.number lit) hp
    obtain ⟨f, rfl⟩ : ∃ f, fuel = f + 1 := ⟨fuel - 1, by omega⟩
    exact parseValue_number f depth lit rest (by simpa [Value.printable] using hp) hs
  | .string raw, fuel, depth, rest, hp, _, hf, _ => by
    have hpos := render_length_pos (.string raw) hp
    obtain ⟨f, rfl⟩ : ∃ f, fuel = f + 1 := ⟨fuel - 1, by omega⟩
    simp only [Value.printable] at hp
    obtain ⟨s, rfl⟩ := hp
    exact parseValue_string f depth s rest
  | .array [], fuel, depth, rest, _, hd, hf, _ => by
    obtain ⟨f, rfl⟩ : ∃ f, fuel = f + 1 := ⟨fuel - 1, by simp [render] at hf; omega⟩
    simp only [Value.depth] at hd
    exact parseValue_array_nil f depth rest (by omega)
  | .array (v :: vs), fuel, depth, rest, hp, hd, hf, _ => by
    obtain ⟨f, rfl⟩ : ∃ f, fuel = f + 1 := ⟨fuel - 1, by simp [render] at hf; omega⟩
    simp only [Value.depth] at hd
    simp only [Value.printable] at hp
    have hp1 : v.printable := by
      simp only [printableElems] at hp
      exact hp.1
    obtain ⟨c, cs, hc, hsp, hne⟩ := renderElems_lead v vs hp1 rest
    have hrec := parseElems_render (v :: vs) f (depth + 1) rest (by simp) hp (by omega)
      (by simp only [render, List.length_cons] at hf; omega)
    simp only [render, List.cons_append]
    rw [hc, parseValue_array_cons f depth c cs (by omega) hsp hne, ← hc, hrec]
  | .object [], fuel, depth, rest, _, hd, hf, _ => by
    obtain ⟨f, rfl⟩ : ∃ f, fuel = f + 1 := ⟨fuel - 1, by simp [render] at hf; omega⟩
    simp only [Value.depth] at hd
    exact parseValue_object_nil f depth rest (by omega)
  | .object ((k, v) :: ms), fuel, depth, rest, hp, hd, hf, _ => by
    obtain ⟨f, rfl⟩ : ∃ f, fuel = f + 1 := ⟨fuel - 1, by simp [render] at hf; omega⟩
    simp only [Value.depth] at hd
    simp only [Value.printable] at hp
    obtain ⟨cs, hc⟩ := renderMembers_lead k v ms rest
    have hrec := parseMembers_render ((k, v) :: ms) f (depth + 1) rest (by simp) hp (by omega)
      (by simp only [render, List.length_cons] at hf; omega)
    simp only [render, List.cons_append]
    rw [hc, parseValue_object_cons f depth dquote cs (by omega) (by rfl) (by decide), ← hc, hrec]
/-- The parser reads the rendered elements of a non-empty array back. -/
theorem parseElems_render : ∀ (vs : List Value) (fuel depth : Nat) (rest : List Char),
    vs ≠ [] → printableElems vs → depth + depthElems vs ≤ maxNestingDepth →
    2 * (renderElems vs).length + 1 ≤ fuel →
    parseElems fuel depth (renderElems vs ++ rest) = some (vs, rest)
  | [], _, _, _, hne, _, _, _ => absurd rfl hne
  | [v], fuel, depth, rest, _, hp, hd, hf => by
    obtain ⟨f, rfl⟩ : ∃ f, fuel = f + 1 := ⟨fuel - 1, by omega⟩
    simp only [printableElems] at hp
    simp only [depthElems] at hd
    have hlen := renderElems_cons_length v []
    have hv := parseValue_render v f depth (']' :: rest) hp.1
      (by have := Nat.le_max_left v.depth 0; omega) (by omega) (stops_cons _ _ (by rfl))
    simp only [renderElems, List.append_assoc, List.singleton_append]
    exact parseElems_last f depth _ rest v hv
  | v :: w :: vs, fuel, depth, rest, _, hp, hd, hf => by
    obtain ⟨f, rfl⟩ : ∃ f, fuel = f + 1 := ⟨fuel - 1, by omega⟩
    simp only [printableElems] at hp
    have hd1 : v.depth ≤ depthElems (v :: w :: vs) := by
      simp only [depthElems]
      exact Nat.le_max_left _ _
    have hd2 : depthElems (w :: vs) ≤ depthElems (v :: w :: vs) := by
      simp only [depthElems]
      exact Nat.le_max_right _ _
    have hlen := renderElems_tail_length v w vs
    have hv := parseValue_render v f depth (',' :: (renderElems (w :: vs) ++ rest)) hp.1
      (by omega) (by omega) (stops_cons _ _ (by rfl))
    have hp2 : printableElems (w :: vs) := by
      simp only [printableElems]
      exact hp.2
    have hrec := parseElems_render (w :: vs) f depth rest (by simp) hp2 (by omega) (by omega)
    obtain ⟨c, cs, hc, hsp, _⟩ := renderElems_lead w vs hp.2.1 rest
    have hskip : skipSpace (renderElems (w :: vs) ++ rest) = renderElems (w :: vs) ++ rest := by
      rw [hc]
      exact skipSpace_cons c cs hsp
    have : renderElems (v :: w :: vs) ++ rest =
        render v ++ ',' :: (renderElems (w :: vs) ++ rest) := by
      simp only [renderElems, List.append_assoc, List.cons_append]
    rw [this]
    exact parseElems_more f depth _ _ rest v (w :: vs) hv hskip hrec
/-- The parser reads the rendered members of a non-empty object back. -/
theorem parseMembers_render : ∀ (ms : List (List Char × Value)) (fuel depth : Nat)
    (rest : List Char),
    ms ≠ [] → printableMembers ms → depth + depthMembers ms ≤ maxNestingDepth →
    2 * (renderMembers ms).length ≤ fuel →
    parseMembers fuel depth (renderMembers ms ++ rest) = some (ms, rest)
  | [], _, _, _, hne, _, _, _ => absurd rfl hne
  | [(k, v)], fuel, depth, rest, _, hp, hd, hf => by
    obtain ⟨f, rfl⟩ : ∃ f, fuel = f + 1 :=
      ⟨fuel - 1, by simp only [renderMembers, List.length_cons] at hf; omega⟩
    simp only [printableMembers] at hp
    obtain ⟨⟨s, rfl⟩, hpv, _⟩ := hp
    simp only [depthMembers] at hd
    have hv := parseValue_render v f depth (rbrace :: rest) hpv
      (by have := Nat.le_max_left v.depth 0; omega)
      (by simp only [renderMembers, List.length_cons, List.length_append] at hf; omega)
      (stops_cons _ _ (by rfl))
    have hskip := skipSpace_render v hpv (rbrace :: rest)
    have : renderMembers [(appendString s, v)] ++ rest =
        dquote :: (appendString s ++ dquote :: ':' :: (render v ++ rbrace :: rest)) := by
      simp only [renderMembers, List.append_assoc, List.cons_append, List.nil_append]
    rw [this]
    exact parseMembers_last f depth s _ rest v hv hskip
  | (k, v) :: m :: ms, fuel, depth, rest, _, hp, hd, hf => by
    obtain ⟨f, rfl⟩ : ∃ f, fuel = f + 1 :=
      ⟨fuel - 1, by simp only [renderMembers, List.length_cons] at hf; omega⟩
    simp only [printableMembers] at hp
    obtain ⟨⟨s, rfl⟩, hpv, hpm⟩ := hp
    have hd1 : v.depth ≤ depthMembers ((appendString s, v) :: m :: ms) := by
      simp only [depthMembers]
      exact Nat.le_max_left _ _
    have hd2 : depthMembers (m :: ms) ≤ depthMembers ((appendString s, v) :: m :: ms) := by
      simp only [depthMembers]
      exact Nat.le_max_right _ _
    have hlen : (renderMembers ((appendString s, v) :: m :: ms)).length =
        (appendString s).length + 3 + (render v).length + 1 + (renderMembers (m :: ms)).length := by
      simp only [renderMembers, List.length_cons, List.length_append]
      omega
    have hv := parseValue_render v f depth (',' :: (renderMembers (m :: ms) ++ rest)) hpv
      (by omega) (by omega) (stops_cons _ _ (by rfl))
    have hskip := skipSpace_render v hpv (',' :: (renderMembers (m :: ms) ++ rest))
    have hp2 : printableMembers (m :: ms) := by
      obtain ⟨mk, mv⟩ := m
      simp only [printableMembers] at hpm ⊢
      exact hpm
    have hrec := parseMembers_render (m :: ms) f depth rest (by simp) hp2 (by omega) (by omega)
    obtain ⟨cs, hc⟩ : ∃ cs, renderMembers (m :: ms) ++ rest = dquote :: cs := by
      obtain ⟨mk, mv⟩ := m
      exact renderMembers_lead mk mv ms rest
    have hskip2 : skipSpace (renderMembers (m :: ms) ++ rest) =
        renderMembers (m :: ms) ++ rest := by
      rw [hc]
      exact skipSpace_cons _ _ (by rfl)
    have : renderMembers ((appendString s, v) :: m :: ms) ++ rest =
        dquote :: (appendString s ++ dquote :: ':' ::
          (render v ++ ',' :: (renderMembers (m :: ms) ++ rest))) := by
      simp only [renderMembers, List.append_assoc, List.cons_append, List.nil_append]
    rw [this]
    exact parseMembers_more f depth s _ _ rest v (m :: ms) hv hskip hskip2 hrec
end

/-- Parsing the rendering of a printable value within the nesting limit
gives the value back. -/
theorem parse_render (v : Value) (hp : v.printable) (hd : v.depth ≤ maxNestingDepth) :
    parse (render v) = some v := by
  unfold parse
  have hsk : skipSpace (render v) = render v := by
    have := skipSpace_render v hp []
    simpa using this
  have h := parseValue_render v (2 * (render v).length + 2) 0 [] hp (by omega) (by omega)
    (by intro c cs h; exact absurd h (by simp))
  simp only [List.append_nil] at h
  rw [hsk, h]
  rfl

end json

namespace json

/-! The recursion bound of the parser: a bound as large as the number of
characters a value occupies is enough, so the bound used by `parse` never
makes a valid text fail. -/

theorem skipSpace_length_le (s : List Char) : (skipSpace s).length ≤ s.length := by
  induction s with
  | nil => simp [skipSpace]
  | cons c cs ih =>
    simp only [skipSpace]
    split
    · simp only [List.length_cons]; omega
    · exact Nat.le_refl _

theorem skipSpace_cons_length {s : List Char} {d : Char} {ds : List Char}
    (h : skipSpace s = d :: ds) : ds.length + 1 ≤ s.length := by
  have := skipSpace_length_le s
  rw [h] at this
  simpa using this

theorem consRaw_rest {c : Char} {r : Option (List Char × List Char)} {raw rest : List Char}
    (h : consRaw c r = some (raw, rest)) : ∃ raw', r = some (raw', rest) := by
  cases r with
  | none => simp [consRaw] at h
  | some p =>
    obtain ⟨a, b⟩ := p
    simp only [consRaw, Option.some.injEq, Prod.mk.injEq] at h
    exact ⟨a, by rw [h.2]⟩

theorem scanString_length (s : List Char) : ∀ (st : StrState) (raw rest : List Char),
    scanString st s = some (raw, rest) → rest.length < s.length := by
  induction s with
  | nil => intro st raw rest h; cases st <;> simp [scanString] at h
  | cons c cs ih =>
    intro st raw rest h
    simp only [List.length_cons]
    cases st with
    | inString =>
      simp only [scanString] at h
      split_ifs at h
      · simp only [Option.some.injEq, Prod.mk.injEq] at h
        rw [← h.2]; omega
      · obtain ⟨raw', h'⟩ := consRaw_rest h
        have := ih _ _ _ h'; omega
      · obtain ⟨raw', h'⟩ := consRaw_rest h
        have := ih _ _ _ h'; omega
    | inStringEsc =>
      simp only [scanString] at h
      split_ifs at h
      · obtain ⟨raw', h'⟩ := consRaw_rest h
        have := ih _ _ _ h'; omega
      · obtain ⟨raw', h'⟩ := consRaw_rest h
        have := ih _ _ _ h'; omega
    | inStringEscU n =>
      simp only [scanString] at h
      split_ifs at h
      cases n with
      | zero =>
        obtain ⟨raw', h'⟩ := consRaw_rest h
        have := ih _ _ _ h'; omega
      | succ k =>
        obtain ⟨raw', h'⟩ := consRaw_rest h
        have := ih _ _ _ h'; omega

theorem scanNumber_length (s : List Char) : ∀ (st : NumState) (lit rest : List Char),
    scanNumber st s = some (lit, rest) → rest.length ≤ s.length := by
  induction s with
  | nil =>
    intro st lit rest h
    cases st <;> simp [scanNumber] at h <;> simp [h]
  | cons c cs ih =>
    intro st lit rest h
    simp only [List.length_cons]
    cases st <;> simp only [scanNumber] at h <;> split_ifs at h <;>
      first
      | (obtain ⟨raw', h'⟩ := consRaw_rest h
         have := ih _ _ _ h'; omega)
      | (simp only [Option.some.injEq, Prod.mk.injEq] at h
         rw [← h.2]; simp)

theorem scanNumberLit_length (s lit rest : List Char)
    (h : scanNumberLit s = some (lit, rest)) : rest.length < s.length := by
  cases s with
  | nil => simp [scanNumberLit] at h
  | cons c cs =>
    simp only [scanNumberLit] at h
    simp only [List.length_cons]
    split_ifs at h
    · obtain ⟨raw', h'⟩ := consRaw_rest h
      have := scanNumber_length _ _ _ _ h'; omega
    · simp only [scanNumber] at h
      split_ifs at h <;>
        (obtain ⟨raw', h'⟩ := consRaw_rest h
         have := scanNumber_length _ _ _ _ h'; omega)

theorem expect_length {kw s rest : List Char} (h : expect kw s = some rest) :
    rest.length ≤ s.length := by
  simp only [expect] at h
  split_ifs at h
  simp only [Option.some.injEq] at h
  rw [← h, List.length_drop]
  omega

theorem parse_fuel_aux (F : Nat) :
    (∀ (d : Nat) (s : List Char) (v : Value) (rest : List Char),
      parseValue F d s = some (v, rest) →
        rest.length < s.length ∧
          ∀ G, s.length - rest.length ≤ G → parseValue G d s = some (v, rest)) ∧
    (∀ (d : Nat) (s : List Char) (vs : List Value) (rest : List Char),
      parseElems F d s = some (vs, rest) →
        rest.length < s.length ∧
          ∀ G, s.length - rest.length ≤ G → parseElems G d s = some (vs, rest)) ∧
    (∀ (d : Nat) (s : List Char) (ms : List (List Char × Value)) (rest : List Char),
      parseMembers F d s = some (ms, rest) →
        rest.length < s.length ∧
          ∀ G, s.length - rest.length ≤ G → parseMembers G d s = some (ms, rest)) := by
  induction F with
  | zero =>
    refine ⟨?_, ?_, ?_⟩ <;> intro d s v rest h
    · simp [parseValue] at h
    · simp [parseElems] at h
    · simp [parseMembers] at h
  | succ F ih =>
    obtain ⟨ihV, ihE, ihM⟩ := ih
    refine ⟨?_, ?_, ?_⟩
    · intro d s v rest h
      cases s with
      | nil => simp [parseValue] at h
      | cons c cs =>
        rw [parseValue] at h
        simp only [List.length_cons]
        split_ifs at h with hc1 hd1 hc2 hd2 hc3 hc4 hc5 hc6
        · -- object
          cases hsp : skipSpace cs with
          | nil => rw [hsp] at h; simp at h
          | cons x xs =>
            rw [hsp] at h
            have hlen := skipSpace_cons_length hsp
            simp only at h
            split_ifs at h with hx
            · simp only [Option.some.injEq, Prod.mk.injEq] at h
              obtain ⟨hv, hr⟩ := h
              subst hv hr
              refine ⟨by omega, ?_⟩
              intro G hG
              obtain ⟨G', rfl⟩ : ∃ G', G = G' + 1 := ⟨G - 1, by omega⟩
              rw [parseValue, if_pos hc1, if_neg hd1, hsp]
              simp only [if_pos hx]
            · cases hm : parseMembers F (d + 1) (x :: xs) with
              | none => rw [hm] at h; simp at h
              | some p =>
                obtain ⟨ms, r⟩ := p
                rw [hm] at h
                simp only [Option.some.injEq, Prod.mk.injEq] at h
                obtain ⟨hv, hr⟩ := h
                subst hv hr
                obtain ⟨h1, h2⟩ := ihM _ _ _ _ hm
                simp only [List.length_cons] at h1 h2
                refine ⟨by omega, ?_⟩
                intro G hG
                obtain ⟨G', rfl⟩ : ∃ G', G = G' + 1 := ⟨G - 1, by omega⟩
                rw [parseValue, if_pos hc1, if_neg hd1, hsp]
                simp only [if_neg hx]
                rw [h2 G' (by omega)]
        · -- array
          cases hsp : skipSpace cs with
          | nil => rw [hsp] at h; simp at h
          | cons x xs =>
            rw [hsp] at h
            have hlen := skipSpace_cons_length hsp
            simp only at h
            split_ifs at h with hx
            · simp only [Option.some.injEq, Prod.mk.injEq] at h
              obtain ⟨hv, hr⟩ := h
              subst hv hr
              refine ⟨by omega, ?_⟩
              intro G hG
              obtain ⟨G', rfl⟩ : ∃ G', G = G' + 1 := ⟨G - 1, by omega⟩
              rw [parseValue, if_neg hc1, if_pos hc2, if_neg hd2, hsp]
              simp only [if_pos hx]
            · cases hm : parseElems F (d + 1) (x :: xs) with
              | none => rw [hm] at h; simp at h
              | some p =>
                obtain ⟨vs, r⟩ := p
                rw [hm] at h
                simp only [Option.some.injEq, Prod.mk.injEq] at h
                obtain ⟨hv, hr⟩ := h
                subst hv hr
                obtain ⟨h1, h2⟩ := ihE _ _ _ _ hm
                simp only [List.length_cons] at h1 h2
                refine ⟨by omega, ?_⟩
                intro G hG
                obtain ⟨G', rfl⟩ : ∃ G', G = G' + 1 := ⟨G - 1, by omega⟩
                rw [parseValue, if_neg hc1, if_pos hc2, if_neg hd2, hsp]
                simp only [if_neg hx]
                rw [h2 G' (by omega)]
        · -- string
          cases hs : scanString .inString cs with
          | none => rw [hs] at h; simp at h
          | some p =>
            obtain ⟨raw, r⟩ := p
            rw [hs] at h
            simp only [Option.some.injEq, Prod.mk.injEq] at h
            obtain ⟨hv, hr⟩ := h
            subst hv hr
            have h1 := scanString_length _ _ _ _ hs
            refine ⟨by omega, ?_⟩
            intro G hG
            obtain ⟨G', rfl⟩ : ∃ G', G = G' + 1 := ⟨G - 1, by omega⟩
            rw [parseValue, if_neg hc1, if_neg hc2, if_pos hc3, hs]
        · -- true
          cases hs : expect ['r', 'u', 'e'] cs with
          | none => rw [hs] at h; simp at h
          | some r =>
            rw [hs] at h
            simp only [Option.some.injEq, Prod.mk.injEq] at h
            obtain ⟨hv, hr⟩ := h
            subst hv hr
            have h1 := expect_length hs
            refine ⟨by omega, ?_⟩
            intro G hG
            obtain ⟨G', rfl⟩ : ∃ G', G = G' + 1 := ⟨G - 1, by omega⟩
            rw [parseValue, if_neg hc1, if_neg hc2, if_neg hc3, if_pos hc4, hs]
        · -- false
          cases hs : expect ['a', 'l', 's', 'e'] cs with
          | none => rw [hs] at h; simp at h
          | some r =>
            rw [hs] at h
            simp only [Option.some.injEq, Prod.mk.injEq] at h
            obtain ⟨hv, hr⟩ := h
            subst hv hr
            have h1 := expect_length hs
            refine ⟨by omega, ?_⟩
            intro G hG
            obtain ⟨G', rfl⟩ : ∃ G', G = G' + 1 := ⟨G - 1, by omega⟩
            rw [parseValue, if_neg hc1, if_neg hc2, if_neg hc3, if_neg hc4, if_pos hc5, hs]
        · -- null
          cases hs : expect ['u', 'l', 'l'] cs with
          | none => rw [hs] at h; simp at h
          | some r =>
            rw [hs] at h
            simp only [Option.some.injEq, Prod.mk.injEq] at h
            obtain ⟨hv, hr⟩ := h
            subst hv hr
            have h1 := expect_length hs
            refine ⟨by omega, ?_⟩
            intro G hG
            obtain ⟨G', rfl⟩ : ∃ G', G = G' + 1 := ⟨G - 1, by omega⟩
            rw [parseValue, if_neg hc1, if_neg hc2, if_neg hc3, if_neg hc4, if_neg hc5,
              if_pos hc6, hs]
        · -- number
          cases hs : scanNumberLit (c :: cs) with
          | none => rw [hs] at h; simp at h
          | some p =>
            obtain ⟨lit, r⟩ := p
            rw [hs] at h
            simp only [Option.some.injEq, Prod.mk.injEq] at h
            obtain ⟨hv, hr⟩ := h
            subst hv hr
            have h1 := scanNumberLit_length _ _ _ hs
            simp only [List.length_cons] at h1
            refine ⟨by omega, ?_⟩
            intro G hG
            obtain ⟨G', rfl⟩ : ∃ G', G = G' + 1 := ⟨G - 1, by omega⟩
            rw [parseValue, if_neg hc1, if_neg hc2, if_neg hc3, if_neg hc4, if_neg hc5,
              if_neg hc6, hs]
    · intro d s vs rest h
      rw [parseElems] at h
      cases hv : parseValue F d s with
      | none => rw [hv] at h; simp at h
      | some p =>
        obtain ⟨v, r⟩ := p
        rw [hv] at h
        obtain ⟨h1, h2⟩ := ihV _ _ _ _ hv
        simp only at h
        cases hsp : skipSpace r with
        | nil => rw [hsp] at h; simp at h
        | cons x xs =>
          rw [hsp] at h
          have hlen := skipSpace_cons_length hsp
          simp only at h
          split_ifs at h with hx1 hx2
          · simp only [Option.some.injEq, Prod.mk.injEq] at h
            obtain ⟨hvs, hr⟩ := h
            subst hvs hr
            refine ⟨by omega, ?_⟩
            intro G hG
            obtain ⟨G', rfl⟩ : ∃ G', G = G' + 1 := ⟨G - 1, by omega⟩
            rw [parseElems, h2 G' (by omega)]
            simp only [hsp, if_pos hx1]
          · cases he : parseElems F d (skipSpace xs) with
            | none => rw [he] at h; simp at h
            | some q =>
              obtain ⟨ws, r2⟩ := q
              rw [he] at h
              simp only [Option.some.injEq, Prod.mk.injEq] at h
              obtain ⟨hvs, hr⟩ := h
              subst hvs hr
              obtain ⟨h3, h4⟩ := ihE _ _ _ _ he
              have hlen2 := skipSpace_length_le xs
              refine ⟨by omega, ?_⟩
              intro G hG
              obtain ⟨G', rfl⟩ : ∃ G', G = G' + 1 := ⟨G - 1, by omega⟩
              rw [parseElems, h2 G' (by omega)]
              simp only [hsp, if_neg hx1, if_pos hx2]
              rw [h4 G' (by omega)]
    · intro d s ms rest h
      cases s with
      | nil => simp [parseMembers] at h
      | cons c cs =>
        rw [parseMembers] at h
        simp only [List.length_cons]
        split_ifs at h with hc
        cases hs : scanString .inString cs with
        | none => rw [hs] at h; simp at h
        | some p =>
          obtain ⟨key, r⟩ := p
          rw [hs] at h
          have hk := scanString_length _ _ _ _ hs
          simp only at h
          cases hsp : skipSpace r with
          | nil => rw [hsp] at h; simp at h
          | cons y ys =>
            rw [hsp] at h
            have hlen := skipSpace_cons_length hsp
            simp only at h
            split_ifs at h with hy
            cases hv : parseValue F d (skipSpace ys) with
            | none => rw [hv] at h; simp at h
            | some q =>
              obtain ⟨v, r2⟩ := q
              rw [hv] at h
              obtain ⟨h1, h2⟩ := ihV _ _ _ _ hv
              have hlen2 := skipSpace_length_le ys
              simp only at h
              cases hsp2 : skipSpace r2 with
              | nil => rw [hsp2] at h; simp at h
              | cons x xs =>
                rw [hsp2] at h
                have hlen3 := skipSpace_cons_length hsp2
                simp only at h
                split_ifs at h with hx1 hx2
                · simp only [Option.some.injEq, Prod.mk.injEq] at h
                  obtain ⟨hms, hr⟩ := h
                  subst hms hr
                  refine ⟨by omega, ?_⟩
                  intro G hG
                  obtain ⟨G', rfl⟩ : ∃ G', G = G' + 1 := ⟨G - 1, by omega⟩
                  rw [parseMembers, if_pos hc, hs]
                  simp only [hsp, if_pos hy]
                  rw [h2 G' (by omega)]
                  simp only [hsp2, if_pos hx1]
                · cases hm : parseMembers F d (skipSpace xs) with
                  | none => rw [hm] at h; simp at h
                  | some q2 =>
                    obtain ⟨ms2, r3⟩ := q2
                    rw [hm] at h
                    simp only [Option.some.injEq, Prod.mk.injEq] at h
                    obtain ⟨hms, hr⟩ := h
                    subst hms hr
                    obtain ⟨h3, h4⟩ := ihM _ _ _ _ hm
                    have hlen4 := skipSpace_length_le xs
                    refine ⟨by omega, ?_⟩
                    intro G hG
                    obtain ⟨G', rfl⟩ : ∃ G', G = G' + 1 := ⟨G - 1, by omega⟩
                    rw [parseMembers, if_pos hc, hs]
                    simp only [hsp, if_pos hy]
                    rw [h2 G' (by omega)]
                    simp only [hsp2, if_neg hx1, if_pos hx2]
                    rw [h4 G' (by omega)]

/-- The bound used by `parse` is enough: whenever some bound lets the parser
read a value at the front of the input, `parse` reads the same value. -/
theorem parse_fuel_enough (data : List Char) (F : Nat) (v : Value) (rest : List Char)
    (h : parseValue F 0 (skipSpace data) = some (v, rest)) :
    parse data = if (skipSpace rest).isEmpty then some v else none := by
  obtain ⟨_, h2⟩ := (parse_fuel_aux F).1 _ _ _ _ h
  have hlen := skipSpace_length_le data
  rw [parse, h2 (2 * data.length + 2) (by omega)]

/-- A text refused by `parse` is refused with every bound: no bound lets the
parser read a value that fills the whole input. -/
theorem parse_none_all_fuel (data : List Char) (h : parse data = none) (F : Nat) (v : Value)
    (rest : List Char) (hF : parseValue F 0 (skipSpace data) = some (v, rest)) :
    (skipSpace rest).isEmpty = false := by
  rw [parse_fuel_enough data F v rest hF] at h
  cases hr : (skipSpace rest).isEmpty with
  | false => rfl
  | true => rw [hr] at h; simp at h

/-! The recursion bound of `unquote`: every step consumes a character, so the
length of the text is enough. -/

theorem secondEscape_length {s : List Char} {v : Nat} {rest : List Char}
    (h : secondEscape s = some (v, rest)) : rest.length ≤ s.length := by
  unfold secondEscape at h
  split at h
  · split_ifs at h
    split at h
    · simp only [Option.some.injEq, Prod.mk.injEq] at h
      rw [← h.2]; simp only [List.length_cons]; omega
    · simp at h
  · simp at h

theorem decodeU_length (rr : Nat) (rest : List Char) :
    (decodeU rr rest).2.length ≤ rest.length := by
  unfold decodeU
  split_ifs
  · split
    · rename_i rr1 rest2 hse
      split_ifs
      · exact secondEscape_length hse
      · exact Nat.le_refl _
    · exact Nat.le_refl _
  · exact Nat.le_refl _

theorem decodeEscape_length {s : List Char} {ch : Char} {rest : List Char}
    (h : decodeEscape s = some (ch, rest)) : rest.length < s.length := by
  unfold decodeEscape at h
  split at h
  · simp at h
  · rename_i e r
    split_ifs at h
    · split at h
      · rename_i a b c d rest2
        split at h
        · simp only [Option.some.injEq] at h
          have := decodeU_length ‹Nat› rest2
          rw [h] at this
          simp only [List.length_cons]
          simp only at this
          omega
        · simp at h
      · simp at h
    · split at h
      · simp only [Option.some.injEq, Prod.mk.injEq] at h
        rw [← h.2]; simp
      · simp at h

theorem unquoteFuel_enough (n : Nat) : ∀ (s : List Char) (F G : Nat),
    s.length ≤ n → s.length ≤ F → s.length ≤ G → unquoteFuel F s = unquoteFuel G s := by
  induction n with
  | zero =>
    intro s F G hs _ _
    cases s with
    | nil => cases F <;> cases G <;> rfl
    | cons c cs => simp at hs
  | succ n ih =>
    intro s F G hs hF hG
    cases s with
    | nil => cases F <;> cases G <;> rfl
    | cons c cs =>
      simp only [List.length_cons] at hs hF hG
      obtain ⟨F', rfl⟩ : ∃ F', F = F' + 1 := ⟨F - 1, by omega⟩
      obtain ⟨G', rfl⟩ : ∃ G', G = G' + 1 := ⟨G - 1, by omega⟩
      simp only [unquoteFuel]
      split_ifs
      · cases hd : decodeEscape cs with
        | none => rfl
        | some p =>
          obtain ⟨ch, rest⟩ := p
          have := decodeEscape_length hd
          simp only
          rw [ih rest F' G' (by omega) (by omega) (by omega)]
      · rfl
      · rw [ih cs F' G' (by omega) (by omega) (by omega)]

/-- A larger bound never changes what `unquote` returns. -/
theorem unquote_fuel (s : List Char) (F : Nat) (h : s.length ≤ F) :
    unquoteFuel F s = unquote s :=
  unquoteFuel_enough s.length s F s.length (Nat.le_refl _) h (Nat.le_refl _)

end json

namespace json

/-! Truncated input. The parser reads from left to right: on a text cut short
it either gives the same result as on the whole text, when the cut lies
behind the value, or it fails. -/

theorem skipSpace_append_cases (p q : List Char) :
    (skipSpace p = [] ∧ skipSpace (p ++ q) = skipSpace q) ∨
      (skipSpace p ≠ [] ∧ skipSpace (p ++ q) = skipSpace p ++ q) := by
  induction p with
  | nil => exact Or.inl ⟨rfl, rfl⟩
  | cons c cs ih =>
    simp only [List.cons_append, skipSpace]
    split_ifs
    · exact ih
    · exact Or.inr ⟨by simp, rfl⟩

theorem parseValue_nil (F d : Nat) : parseValue F d [] = none := by
  cases F <;> simp [parseValue]

theorem parseElems_nil (F d : Nat) : parseElems F d [] = none := by
  cases F with
  | zero => simp [parseElems]
  | succ F => rw [parseElems, parseValue_nil]

theorem parseMembers_nil (F d : Nat) : parseMembers F d [] = none := by
  cases F <;> simp [parseMembers]

theorem scanString_nil (st : StrState) : scanString st [] = none := by
  cases st <;> simp [scanString]

theorem consRaw_inv {c : Char} {r : Option (List Char × List Char)} {raw rest : List Char}
    (h : consRaw c r = some (raw, rest)) : ∃ raw', r = some (raw', rest) ∧ raw = c :: raw' := by
  cases r with
  | none => simp [consRaw] at h
  | some p =>
    obtain ⟨a, b⟩ := p
    simp only [consRaw, Option.some.injEq, Prod.mk.injEq] at h
    exact ⟨a, by rw [h.2], h.1.symm⟩

theorem consRaw_split {c : Char} {X Y : Option (List Char × List Char)} {raw rest q : List Char}
    (h : consRaw c X = some (raw, rest))
    (ih : ∀ raw', X = some (raw', rest) →
      (∃ r', rest = r' ++ q ∧ Y = some (raw', r')) ∨ Y = none) :
    (∃ r', rest = r' ++ q ∧ consRaw c Y = some (raw, r')) ∨ consRaw c Y = none := by
  obtain ⟨raw', hX, hraw⟩ := consRaw_inv h
  rcases ih raw' hX with ⟨r', hr, hY⟩ | hY
  · exact Or.inl ⟨r', hr, by rw [hY, hraw]; rfl⟩
  · exact Or.inr (by rw [hY]; rfl)

theorem scanString_split (p : List Char) : ∀ (st : StrState) (q raw rest : List Char),
    scanString st (p ++ q) = some (raw, rest) →
      (∃ r', rest = r' ++ q ∧ scanString st p = some (raw, r')) ∨ scanString st p = none := by
  induction p with
  | nil => intro st q raw rest _; exact Or.inr (scanString_nil st)
  | cons c cs ih =>
    intro st q raw rest h
    simp only [List.cons_append] at h
    cases st with
    | inString =>
      simp only [scanString] at h ⊢
      split_ifs at h ⊢
      · simp only [Option.some.injEq, Prod.mk.injEq] at h
        exact Or.inl ⟨cs, h.2.symm, by rw [h.1]⟩
      · exact consRaw_split h (fun raw' h' => ih _ _ _ _ h')
      · exact consRaw_split h (fun raw' h' => ih _ _ _ _ h')
    | inStringEsc =>
      simp only [scanString] at h ⊢
      split_ifs at h ⊢
      · exact consRaw_split h (fun raw' h' => ih _ _ _ _ h')
      · exact consRaw_split h (fun raw' h' => ih _ _ _ _ h')
    | inStringEscU n =>
      simp only [scanString] at h ⊢
      split_ifs at h ⊢
      cases n with
      | zero => exact consRaw_split h (fun raw' h' => ih _ _ _ _ h')
      | succ k => exact consRaw_split h (fun raw' h' => ih _ _ _ _ h')

theorem consRaw_split_number {c : Char} {X Y : Option (List Char × List Char)}
    {lit rest q : List Char} (h : consRaw c X = some (lit, rest))
    (ih : ∀ lit', X = some (lit', rest) →
      (∃ r', rest = r' ++ q ∧ Y = some (lit', r')) ∨ Y = none ∨ ∃ l, Y = some (l, [])) :
    (∃ r', rest = r' ++ q ∧ consRaw c Y = some (lit, r')) ∨ consRaw c Y = none ∨
      ∃ l, consRaw c Y = some (l, []) := by
  obtain ⟨lit', hX, hlit⟩ := consRaw_inv h
  rcases ih lit' hX with ⟨r', hr, hY⟩ | hY | ⟨l, hY⟩
  · exact Or.inl ⟨r', hr, by rw [hY, hlit]; rfl⟩
  · exact Or.inr (Or.inl (by rw [hY]; rfl))
  · exact Or.inr (Or.inr ⟨c :: l, by rw [hY]; rfl⟩)

theorem scanNumber_nil (st : NumState) :
    scanNumber st [] = none ∨ ∃ l, scanNumber st [] = some (l, []) := by
  cases st <;> simp [scanNumber]

theorem scanNumber_split (p : List Char) : ∀ (st : NumState) (q lit rest : List Char),
    scanNumber st (p ++ q) = some (lit, rest) →
      (∃ r', rest = r' ++ q ∧ scanNumber st p = some (lit, r')) ∨ scanNumber st p = none ∨
        ∃ l, scanNumber st p = some (l, []) := by
  induction p with
  | nil => intro st q lit rest _; exact Or.inr (scanNumber_nil st)
  | cons c cs ih =>
    intro st q lit rest h
    simp only [List.cons_append] at h
    cases st <;> simp only [scanNumber] at h ⊢ <;> split_ifs at h ⊢ <;>
      first
      | exact consRaw_split_number h (fun lit' h' => ih _ _ _ _ h')
      | (simp only [Option.some.injEq, Prod.mk.injEq] at h
         exact Or.inl ⟨c :: cs, by rw [← h.2]; rfl, by rw [h.1]⟩)

theorem scanNumberLit_split (p q lit rest : List Char)
    (h : scanNumberLit (p ++ q) = some (lit, rest)) :
    (∃ r', rest = r' ++ q ∧ scanNumberLit p = some (lit, r')) ∨ scanNumberLit p = none ∨
      ∃ l, scanNumberLit p = some (l, []) := by
  cases p with
  | nil => exact Or.inr (Or.inl rfl)
  | cons c cs =>
    simp only [List.cons_append] at h
    simp only [scanNumberLit] at h ⊢
    split_ifs at h ⊢
    · exact consRaw_split_number h (fun lit' h' => scanNumber_split _ _ _ _ _ h')
    · exact scanNumber_split (c :: cs) _ _ _ _ h

theorem expect_split (kw : List Char) : ∀ (p q rest : List Char),
    expect kw (p ++ q) = some rest →
      (∃ r', rest = r' ++ q ∧ expect kw p = some r') ∨ expect kw p = none := by
  induction kw with
  | nil =>
    intro p q rest h
    simp only [expect, List.isPrefixOf, List.length_nil, List.drop_zero, if_true,
      Option.some.injEq] at h ⊢
    exact Or.inl ⟨p, h.symm, rfl⟩
  | cons k ks ih =>
    intro p q rest h
    cases p with
    | nil => exact Or.inr (by simp [expect, List.isPrefixOf])
    | cons c cs =>
      simp only [List.cons_append, expect, List.isPrefixOf, List.length_cons,
        List.drop_succ_cons, Bool.and_eq_true, beq_iff_eq] at h ⊢
      by_cases hk : k = c
      · have ih' := ih cs q rest
        simp only [expect] at ih'
        by_cases hp : ks.isPrefixOf (cs ++ q) = true
        · rw [if_pos ⟨hk, hp⟩] at h
          rcases ih' (by rw [if_pos hp]; exact h) with ⟨r', hr, he⟩ | he
          · left
            refine ⟨r', hr, ?_⟩
            split_ifs at he with h1
            · rw [if_pos ⟨hk, h1⟩]; exact he
          · right
            split_ifs at he with h1
            · rw [if_neg (fun hh => h1 hh.2)]
        · rw [if_neg (fun hh => hp hh.2)] at h
          simp at h
      · rw [if_neg (fun hh => hk hh.1)] at h
        simp at h

theorem parse_split_aux (F : Nat) :
    (∀ (d : Nat) (p q : List Char) (v : Value) (rest : List Char),
      parseValue F d (p ++ q) = some (v, rest) →
        (∃ r', rest = r' ++ q ∧ parseValue F d p = some (v, r')) ∨ parseValue F d p = none ∨
          ∃ lit l, v = .number lit ∧ parseValue F d p = some (.number l, [])) ∧
    (∀ (d : Nat) (p q : List Char) (vs : List Value) (rest : List Char),
      parseElems F d (p ++ q) = some (vs, rest) →
        (∃ r', rest = r' ++ q ∧ parseElems F d p = some (vs, r')) ∨ parseElems F d p = none) ∧
    (∀ (d : Nat) (p q : List Char) (ms : List (List Char × Value)) (rest : List Char),
      parseMembers F d (p ++ q) = some (ms, rest) →
        (∃ r', rest = r' ++ q ∧ parseMembers F d p = some (ms, r')) ∨
          parseMembers F d p = none) := by
  induction F with
  | zero =>
    refine ⟨?_, ?_, ?_⟩ <;> intro d p q v rest h
    · simp [parseValue] at h
    · simp [parseElems] at h
    · simp [parseMembers] at h
  | succ F ih =>
    obtain ⟨ihV, ihE, ihM⟩ := ih
    refine ⟨?_, ?_, ?_⟩
    · intro d p q v rest h
      cases p with
      | nil => exact Or.inr (Or.inl (parseValue_nil _ _))
      | cons c cs =>
        simp only [List.cons_append] at h
        rw [parseValue] at h
        split_ifs at h with hc1 hd1 hc2 hd2 hc3 hc4 hc5 hc6
        · -- object
          rcases skipSpace_append_cases cs q with ⟨hsp, _⟩ | ⟨hne, hsp⟩
          · right; left
            rw [parseValue, if_pos hc1, if_neg hd1, hsp]
          · obtain ⟨x, xs, hx⟩ : ∃ x xs, skipSpace cs = x :: xs := by
              cases hs : skipSpace cs with
              | nil => exact absurd hs hne
              | cons x xs => exact ⟨x, xs, rfl⟩
            rw [hsp, hx, List.cons_append] at h
            simp only at h
            split_ifs at h with hx1
            · simp only [Option.some.injEq, Prod.mk.injEq] at h
              left
              refine ⟨xs, h.2.symm, ?_⟩
              rw [parseValue, if_pos hc1, if_neg hd1, hx]
              simp only [if_pos hx1, h.1]
            · cases hm : parseMembers F (d + 1) (x :: (xs ++ q)) with
              | none => rw [hm] at h; simp at h
              | some r =>
                obtain ⟨ms, r⟩ := r
                rw [hm] at h
                simp only [Option.some.injEq, Prod.mk.injEq] at h
                obtain ⟨hv, hr⟩ := h
                subst hv hr
                rcases ihM (d + 1) (x :: xs) q ms r hm with ⟨r', hr', hp⟩ | hp
                · left
                  refine ⟨r', hr', ?_⟩
                  rw [parseValue, if_pos hc1, if_neg hd1, hx]
                  simp only [if_neg hx1, hp]
                · right; left
                  rw [parseValue, if_pos hc1, if_neg hd1, hx]
                  simp only [if_neg hx1, hp]
        · -- array
          rcases skipSpace_append_cases cs q with ⟨hsp, _⟩ | ⟨hne, hsp⟩
          · right; left
            rw [parseValue, if_neg hc1, if_pos hc2, if_neg hd2, hsp]
          · obtain ⟨x, xs, hx⟩ : ∃ x xs, skipSpace cs = x :: xs := by
              cases hs : skipSpace cs with
              | nil => exact absurd hs hne
              | cons x xs => exact ⟨x, xs, rfl⟩
            rw [hsp, hx, List.cons_append] at h
            simp only at h
            split_ifs at h with hx1
            · simp only [Option.some.injEq, Prod.mk.injEq] at h
              left
              refine ⟨xs, h.2.symm, ?_⟩
              rw [parseValue, if_neg hc1, if_pos hc2, if_neg hd2, hx]
              simp only [if_pos hx1, h.1]
            · cases hm : parseElems F (d + 1) (x :: (xs ++ q)) with
              | none => rw [hm] at h; simp at h
              | some r =>
                obtain ⟨vs, r⟩ := r
                rw [hm] at h
                simp only [Option.some.injEq, Prod.mk.injEq] at h
                obtain ⟨hv, hr⟩ := h
                subst hv hr
                rcases ihE (d + 1) (x :: xs) q vs r hm with ⟨r', hr', hp⟩ | hp
                · left
                  refine ⟨r', hr', ?_⟩
                  rw [parseValue, if_neg hc1, if_pos hc2, if_neg hd2, hx]
                  simp only [if_neg hx1, hp]
                · right; left
                  rw [parseValue, if_neg hc1, if_pos hc2, if_neg hd2, hx]
                  simp only [if_neg hx1, hp]
        · -- string
          cases hs : scanString .inString (cs ++ q) with
          | none => rw [hs] at h; simp at h
          | some r =>
            obtain ⟨raw, r⟩ := r
            rw [hs] at h
            simp only [Option.some.injEq, Prod.mk.injEq] at h
            obtain ⟨hv, hr⟩ := h
            subst hv hr
            rcases scanString_split cs _ q raw r hs with ⟨r', hr', hp⟩ | hp
            · left
              refine ⟨r', hr', ?_⟩
              rw [parseValue, if_neg hc1, if_neg hc2, if_pos hc3, hp]
            · right; left
              rw [parseValue, if_neg hc1, if_neg hc2, if_pos hc3, hp]
        · -- true
          cases hs : expect ['r', 'u', 'e'] (cs ++ q) with
          | none => rw [hs] at h; simp at h
          | some r =>
            rw [hs] at h
            simp only [Option.some.injEq, Prod.mk.injEq] at h
            obtain ⟨hv, hr⟩ := h
            subst hv hr
            rcases expect_split _ cs q r hs with ⟨r', hr', hp⟩ | hp
            · left
              refine ⟨r', hr', ?_⟩
              rw [parseValue, if_neg hc1, if_neg hc2, if_neg hc3, if_pos hc4, hp]
            · right; left
              rw [parseValue, if_neg hc1, if_neg hc2, if_neg hc3, if_pos hc4, hp]
        · -- false
          cases hs : expect ['a', 'l', 's', 'e'] (cs ++ q) with
          | none => rw [hs] at h; simp at h
          | some r =>
            rw [hs] at h
            simp only [Option.some.injEq, Prod.mk.injEq] at h
            obtain ⟨hv, hr⟩ := h
            subst hv hr
            rcases expect_split _ cs q r hs with ⟨r', hr', hp⟩ | hp
            · left
              refine ⟨r', hr', ?_⟩
              rw [parseValue, if_neg hc1, if_neg hc2, if_neg hc3, if_neg hc4, if_pos hc5, hp]
            · right; left
              rw [parseValue, if_neg hc1, if_neg hc2, if_neg hc3, if_neg hc4, if_pos hc5, hp]
        · -- null
          cases hs : expect ['u', 'l', 'l'] (cs ++ q) with
          | none => rw [hs] at h; simp at h
          | some r =>
            rw [hs] at h
            simp only [Option.some.injEq, Prod.mk.injEq] at h
            obtain ⟨hv, hr⟩ := h
            subst hv hr
            rcases expect_split _ cs q r hs with ⟨r', hr', hp⟩ | hp
            · left
              refine ⟨r', hr', ?_⟩
              rw [parseValue, if_neg hc1, if_neg hc2, if_neg hc3, if_neg hc4, if_neg hc5,
                if_pos hc6, hp]
            · right; left
              rw [parseValue, if_neg hc1, if_neg hc2, if_neg hc3, if_neg hc4, if_neg hc5,
                if_pos hc6, hp]
        · -- number
          cases hs : scanNumberLit (c :: (cs ++ q)) with
          | none => rw [hs] at h; simp at h
          | some r =>
            obtain ⟨lit, r⟩ := r
            rw [hs] at h
            simp only [Option.some.injEq, Prod.mk.injEq] at h
            obtain ⟨hv, hr⟩ := h
            subst hv hr
            rcases scanNumberLit_split (c :: cs) q lit r hs with ⟨r', hr', hp⟩ | hp | ⟨l, hp⟩
            · left
              refine ⟨r', hr', ?_⟩
              rw [parseValue, if_neg hc1, if_neg hc2, if_neg hc3, if_neg hc4, if_neg hc5,
                if_neg hc6, hp]
            · right; left
              rw [parseValue, if_neg hc1, if_neg hc2, if_neg hc3, if_neg hc4, if_neg hc5,
                if_neg hc6, hp]
            · right; right
              refine ⟨lit, l, rfl, ?_⟩
              rw [parseValue, if_neg hc1, if_neg hc2, if_neg hc3, if_neg hc4, if_neg hc5,
                if_neg hc6, hp]
    · intro d p q vs rest h
      rw [parseElems] at h
      cases hv : parseValue F d (p ++ q) with
      | none => rw [hv] at h; simp at h
      | some r =>
        obtain ⟨v, r⟩ := r
        rw [hv] at h
        simp only at h
        rcases ihV d p q v r hv with ⟨r', hr', hp⟩ | hp | ⟨lit, l, _, hp⟩
        · subst hr'
          rcases skipSpace_append_cases r' q with ⟨hsp, _⟩ | ⟨hne, hsp⟩
          · right
            rw [parseElems, hp]
            simp only [hsp]
          · obtain ⟨x, xs, hx⟩ : ∃ x xs, skipSpace r' = x :: xs := by
              cases hs : skipSpace r' with
              | nil => exact absurd hs hne
              | cons x xs => exact ⟨x, xs, rfl⟩
            rw [hsp, hx, List.cons_append] at h
            simp only at h
            split_ifs at h with hx1 hx2
            · simp only [Option.some.injEq, Prod.mk.injEq] at h
              left
              refine ⟨xs, h.2.symm, ?_⟩
              rw [parseElems, hp]
              simp only [hx, if_pos hx1, h.1]
            · cases he : parseElems F d (skipSpace (xs ++ q)) with
              | none => rw [he] at h; simp at h
              | some r2 =>
                obtain ⟨ws, r2⟩ := r2
                rw [he] at h
                simp only [Option.some.injEq, Prod.mk.injEq] at h
                obtain ⟨hvs, hr⟩ := h
                subst hvs hr
                rcases skipSpace_append_cases xs q with ⟨hsp2, _⟩ | ⟨_, hsp2⟩
                · right
                  rw [parseElems, hp]
                  simp only [hx, if_neg hx1, if_pos hx2, hsp2, parseElems_nil]
                · rw [hsp2] at he
                  rcases ihE d (skipSpace xs) q ws r2 he with ⟨r3, hr3, hp3⟩ | hp3
                  · left
                    refine ⟨r3, hr3, ?_⟩
                    rw [parseElems, hp]
                    simp only [hx, if_neg hx1, if_pos hx2, hp3]
                  · right
                    rw [parseElems, hp]
                    simp only [hx, if_neg hx1, if_pos hx2, hp3]
        · right
          rw [parseElems, hp]
        · right
          rw [parseElems, hp]
          simp only [skipSpace]
    · intro d p q ms rest h
      cases p with
      | nil => exact Or.inr (parseMembers_nil _ _)
      | cons c cs =>
        simp only [List.cons_append] at h
        rw [parseMembers] at h
        split_ifs at h with hc
        cases hs : scanString .inString (cs ++ q) with
        | none => rw [hs] at h; simp at h
        | some r =>
          obtain ⟨key, r⟩ := r
          rw [hs] at h
          simp only at h
          rcases scanString_split cs _ q key r hs with ⟨r', hr', hk⟩ | hk
          · subst hr'
            rcases skipSpace_append_cases r' q with ⟨hsp, _⟩ | ⟨hne, hsp⟩
            · right
              rw [parseMembers, if_pos hc, hk]
              simp only [hsp]
            · obtain ⟨y, ys, hy⟩ : ∃ y ys, skipSpace r' = y :: ys := by
                cases hs : skipSpace r' with
                | nil => exact absurd hs hne
                | cons x xs => exact ⟨x, xs, rfl⟩
              rw [hsp, hy, List.cons_append] at h
              simp only at h
              split_ifs at h with hy1
              cases hv : parseValue F d (skipSpace (ys ++ q)) with
              | none => rw [hv] at h; simp at h
              | some r2 =>
                obtain ⟨v, r2⟩ := r2
                rw [hv] at h
                simp only at h
                rcases skipSpace_append_cases ys q with ⟨hsp2, _⟩ | ⟨_, hsp2⟩
                · right
                  rw [parseMembers, if_pos hc, hk]
                  simp only [hy, if_pos hy1, hsp2, parseValue_nil]
                · rw [hsp2] at hv
                  rcases ihV d (skipSpace ys) q v r2 hv with ⟨r3, hr3, hp⟩ | hp | ⟨lit, l, _, hp⟩
                  · subst hr3
                    rcases skipSpace_append_cases r3 q with ⟨hsp3, _⟩ | ⟨hne3, hsp3⟩
                    · right
                      rw [parseMembers, if_pos hc, hk]
                      simp only [hy, if_pos hy1, hp, hsp3]
                    · obtain ⟨x, xs, hx⟩ : ∃ x xs, skipSpace r3 = x :: xs := by
                        cases hs : skipSpace r3 with
                        | nil => exact absurd hs hne3
                        | cons x xs => exact ⟨x, xs, rfl⟩
                      rw [hsp3, hx, List.cons_append] at h
                      simp only at h
                      split_ifs at h with hx1 hx2
                      · simp only [Option.some.injEq, Prod.mk.injEq] at h
                        left
                        refine ⟨xs, h.2.symm, ?_⟩
                        rw [parseMembers, if_pos hc, hk]
                        simp only [hy, if_pos hy1, hp, hx, if_pos hx1, h.1]
                      · cases hm : parseMembers F d (skipSpace (xs ++ q)) with
                        | none => rw [hm] at h; simp at h
                        | some r4 =>
                          obtain ⟨ms2, r4⟩ := r4
                          rw [hm] at h
                          simp only [Option.some.injEq, Prod.mk.injEq] at h
                          obtain ⟨hms, hr⟩ := h
                          subst hms hr
                          rcases skipSpace_append_cases xs q with ⟨hsp4, _⟩ | ⟨_, hsp4⟩
                          · right
                            rw [parseMembers, if_pos hc, hk]
                            simp only [hy, if_pos hy1, hp, hx, if_neg hx1, if_pos hx2, hsp4,
                              parseMembers_nil]
                          · rw [hsp4] at hm
                            rcases ihM d (skipSpace xs) q ms2 r4 hm with ⟨r5, hr5, hp5⟩ | hp5
                            · left
                              refine ⟨r5, hr5, ?_⟩
                              rw [parseMembers, if_pos hc, hk]
                              simp only [hy, if_pos hy1, hp, hx, if_neg hx1, if_pos hx2, hp5]
                            · right
                              rw [parseMembers, if_pos hc, hk]
                              simp only [hy, if_pos hy1, hp, hx, if_neg hx1, if_pos hx2, hp5]
                  · right
                    rw [parseMembers, if_pos hc, hk]
                    simp only [hy, if_pos hy1, hp]
                  · right
                    rw [parseMembers, if_pos hc, hk]
                    simp only [hy, if_pos hy1, hp, skipSpace]
          · right
            rw [parseMembers, if_pos hc, hk]

theorem skipSpace_append_nil (a b : List Char) (h : skipSpace (a ++ b) = []) :
    skipSpace b = [] := by
  rcases skipSpace_append_cases a b with ⟨_, h2⟩ | ⟨_, h2⟩
  · rw [← h2, h]
  · rw [h2] at h
    rw [(List.append_eq_nil.1 h).2]
    rfl

/-- A text cut short is refused: when the whole text is one JSON value other
than a number and the part cut off holds more than whitespace, the part that
is left is not a JSON value. -/
theorem parse_truncated (p q : List Char) (v : Value) (h : parse (p ++ q) = some v)
    (hv : ∀ lit, v ≠ .number lit) (hq : skipSpace q ≠ []) : parse p = none := by
  unfold parse at h
  cases hfull : parseValue (2 * (p ++ q).length + 2) 0 (skipSpace (p ++ q)) with
  | none => rw [hfull] at h; simp at h
  | some r =>
    obtain ⟨v', rest⟩ := r
    rw [hfull] at h
    simp only at h
    split_ifs at h with hempty
    simp only [Option.some.injEq] at h
    subst h
    have hrest : skipSpace rest = [] := by simpa using hempty
    have hnone : parseValue (2 * (p ++ q).length + 2) 0 (skipSpace p) = none := by
      rcases skipSpace_append_cases p q with ⟨hsp, _⟩ | ⟨_, hsp⟩
      · rw [hsp, parseValue_nil]
      · rw [hsp] at hfull
        rcases (parse_split_aux _).1 0 (skipSpace p) q v' rest hfull with
          ⟨r', hr', _⟩ | hp | ⟨lit, _, hl, _⟩
        · rw [hr'] at hrest
          exact absurd (skipSpace_append_nil r' q hrest) hq
        · exact hp
        · exact absurd hl (hv lit)
    unfold parse
    cases hcut : parseValue (2 * p.length + 2) 0 (skipSpace p) with
    | none => rfl
    | some r2 =>
      obtain ⟨v2, r2⟩ := r2
      obtain ⟨_, hup⟩ := (parse_fuel_aux _).1 _ _ _ _ hcut
      have hlen := skipSpace_length_le p
      rw [hup (2 * (p ++ q).length + 2) (by simp only [List.length_append]; omega)] at hnone
      simp at hnone

/-- Every text cut short of a JSON object is among the malformed inputs. -/
theorem malformed_of_truncated (p q : List Char) (ms : List (List Char × Value))
    (h : parse (p ++ q) = some (.object ms)) (hq : skipSpace q ≠ []) : malformed p = true := by
  unfold malformed
  rw [parse_truncated p q _ h (fun lit hl => by cases hl) hq]

end json

namespace json

/-! The scanner and the grammar agree on whitespace, strings and numbers. -/

theorem isSpace_iff (c : Char) :
    isSpace c = true ↔ c = ' ' ∨ c.toNat = 9 ∨ c.toNat = 10 ∨ c.toNat = 13 := by
  simp only [isSpace, Bool.or_eq_true, beq_iff_eq]
  constructor
  · rintro (((h | h) | h) | h)
    · exact Or.inl (char_eq_of_toNat h)
    · exact Or.inr (Or.inl h)
    · exact Or.inr (Or.inr (Or.inr h))
    · exact Or.inr (Or.inr (Or.inl h))
  · rintro (h | h | h | h)
    · subst h
      exact Or.inl (Or.inl (Or.inl rfl))
    · exact Or.inl (Or.inl (Or.inr h))
    · exact Or.inr h
    · exact Or.inl (Or.inr h)

theorem blank_nil : Blank [] := fun c hc => absurd hc (List.not_mem_nil c)

theorem blank_cons {c : Char} {cs : List Char} :
    Blank (c :: cs) ↔ isSpace c = true ∧ Blank cs := by
  unfold Blank
  constructor
  · intro h
    exact ⟨(isSpace_iff c).2 (h c (List.mem_cons_self _ _)),
      fun d hd => h d (List.mem_cons_of_mem _ hd)⟩
  · intro h d hd
    rcases List.mem_cons.1 hd with hd | hd
    · rw [hd]
      exact (isSpace_iff c).1 h.1
    · exact h.2 d hd

theorem skipSpace_blank (w s : List Char) (h : Blank w) : skipSpace (w ++ s) = skipSpace s := by
  induction w with
  | nil => rfl
  | cons c cs ih =>
    rw [blank_cons] at h
    rw [List.cons_append, skipSpace, if_pos h.1, ih h.2]

theorem skipSpace_decomp (s : List Char) : ∃ w, Blank w ∧ s = w ++ skipSpace s := by
  induction s with
  | nil => exact ⟨[], blank_nil, rfl⟩
  | cons c cs ih =>
    by_cases hc : isSpace c = true
    · obtain ⟨w, hw, hs⟩ := ih
      refine ⟨c :: w, blank_cons.2 ⟨hc, hw⟩, ?_⟩
      rw [skipSpace, if_pos hc, List.cons_append, ← hs]
    · refine ⟨[], blank_nil, ?_⟩
      rw [skipSpace, if_neg hc]
      rfl

theorem skipSpace_head {s : List Char} {c : Char} {cs : List Char} (h : skipSpace s = c :: cs) :
    isSpace c = false := by
  induction s with
  | nil => simp [skipSpace] at h
  | cons d ds ih =>
    rw [skipSpace] at h
    split_ifs at h with hd
    · exact ih h
    · simp only [List.cons.injEq] at h
      rw [← h.1]
      simpa using hd

theorem skipSpace_eq_nil_iff (s : List Char) : skipSpace s = [] ↔ Blank s := by
  induction s with
  | nil => exact ⟨fun _ => blank_nil, fun _ => rfl⟩
  | cons c cs ih =>
    rw [skipSpace, blank_cons]
    split_ifs with hc
    · rw [ih]
      exact ⟨fun h => ⟨hc, h⟩, fun h => h.2⟩
    · exact ⟨fun h => (by cases h), fun h => absurd h.1 hc⟩

/-! Strings. -/

theorem isSimpleEscape_iff (e : Char) :
    isSimpleEscape e = true ↔ e ∈ [dquote, backslash, '/', 'b', 'f', 'n', 'r', 't'] := by
  simp only [isSimpleEscape, Bool.or_eq_true, beq_iff_eq, List.mem_cons, List.mem_singleton,
    List.not_mem_nil, or_false]
  tauto

/-- What the scanner has read when it ends a string, by the state it started
in. -/
theorem scanString_sound (s : List Char) : ∀ (st : StrState) (raw rest : List Char),
    scanString st s = some (raw, rest) →
      s = raw ++ dquote :: rest ∧
        match st with
        | .inString => StringText raw
        | .inStringEsc => StringText (backslash :: raw)
        | .inStringEscU k => k ≤ 3 → ∀ pre : List Char, pre.length = 3 - k →
            (∀ c ∈ pre, isHex c = true) → StringText (backslash :: 'u' :: (pre ++ raw)) := by
  induction s with
  | nil => intro st raw rest h; rw [scanString_nil] at h; cases h
  | cons c cs ih =>
    intro st raw rest h
    cases st with
    | inString =>
      simp only [scanString] at h
      split_ifs at h with h1 h2 h3
      · simp only [Option.some.injEq, Prod.mk.injEq] at h
        obtain ⟨hr, hrest⟩ := h
        subst hr hrest h1
        exact ⟨rfl, .nil⟩
      · obtain ⟨raw', h', hraw⟩ := consRaw_inv h
        obtain ⟨hs, ht⟩ := ih _ _ _ h'
        subst hraw h2
        exact ⟨by rw [hs]; rfl, ht⟩
      · obtain ⟨raw', h', hraw⟩ := consRaw_inv h
        obtain ⟨hs, ht⟩ := ih _ _ _ h'
        subst hraw
        exact ⟨by rw [hs]; rfl, .plain c raw' h1 h2 (by omega) ht⟩
    | inStringEsc =>
      simp only [scanString] at h
      split_ifs at h with h1 h2
      · obtain ⟨raw', h', hraw⟩ := consRaw_inv h
        obtain ⟨hs, ht⟩ := ih _ _ _ h'
        subst hraw
        exact ⟨by rw [hs]; rfl, .escape c raw' ((isSimpleEscape_iff c).1 h1) ht⟩
      · obtain ⟨raw', h', hraw⟩ := consRaw_inv h
        obtain ⟨hs, ht⟩ := ih _ _ _ h'
        subst hraw h2
        exact ⟨by rw [hs]; rfl, ht (by omega) [] rfl (fun c hc => absurd hc (List.not_mem_nil c))⟩
    | inStringEscU n =>
      simp only [scanString] at h
      split_ifs at h with h1
      cases n with
      | zero =>
        obtain ⟨raw', h', hraw⟩ := consRaw_inv h
        obtain ⟨hs, ht⟩ := ih _ _ _ h'
        subst hraw
        refine ⟨by rw [hs]; rfl, ?_⟩
        intro _ pre hlen hhex
        match pre, hlen, hhex with
        | [a, b, d], _, hhex =>
          exact .unicode a b d c raw' (hhex a (by simp)) (hhex b (by simp)) (hhex d (by simp)) h1 ht
      | succ k =>
        obtain ⟨raw', h', hraw⟩ := consRaw_inv h
        obtain ⟨hs, ht⟩ := ih _ _ _ h'
        subst hraw
        refine ⟨by rw [hs]; rfl, ?_⟩
        intro hk pre hlen hhex
        have := ht (by omega) (pre ++ [c]) (by rw [List.length_append, hlen]; simp; omega)
          (fun d hd => by
            rcases List.mem_append.1 hd with hd | hd
            · exact hhex d hd
            · rw [List.mem_singleton.1 hd]; exact h1)
        simpa using this

/-- The scanner reads every string of the grammar up to its closing quote. -/
theorem scanString_complete {raw : List Char} (h : StringText raw) (rest : List Char) :
    scanString .inString (raw ++ dquote :: rest) = some (raw, rest) := by
  induction h with
  | nil => simp [scanString]
  | plain c tail h1 h2 h3 _ ih =>
    rw [List.cons_append, scanString, if_neg h1, if_neg h2, if_neg (by omega), ih]
    rfl
  | escape e tail he _ ih =>
    rw [List.cons_append, List.cons_append, scanString, if_neg (by decide), if_pos rfl, scanString,
      if_pos ((isSimpleEscape_iff e).2 he), ih]
    rfl
  | unicode a b c d tail ha hb hc hd _ ih =>
    simp only [List.cons_append]
    rw [scanString, if_neg (by decide), if_pos rfl, scanString, if_neg (by decide), if_pos rfl,
      scanString, if_pos ha]
    show consRaw backslash (consRaw 'u' (consRaw a
      (scanString (.inStringEscU 2) (b :: c :: d :: (tail ++ dquote :: rest))))) = _
    rw [scanString, if_pos hb]
    show consRaw backslash (consRaw 'u' (consRaw a (consRaw b
      (scanString (.inStringEscU 1) (c :: d :: (tail ++ dquote :: rest)))))) = _
    rw [scanString, if_pos hc]
    show consRaw backslash (consRaw 'u' (consRaw a (consRaw b (consRaw c
      (scanString (.inStringEscU 0) (d :: (tail ++ dquote :: rest))))))) = _
    rw [scanString, if_pos hd]
    show consRaw backslash (consRaw 'u' (consRaw a (consRaw b (consRaw c (consRaw d
      (scanString .inString (tail ++ dquote :: rest))))))) = _
    rw [ih]
    rfl

/-! Numbers. -/

theorem isDigit_ne {c d : Char} (h : isDigit c = true) (hd : isDigit d = false) : c ≠ d := by
  intro hcd
  rw [hcd, hd] at h
  cases h

theorem consRaw_self {c : Char} {r : Option (List Char × List Char)} {cs : List Char}
    (h : consRaw c r = some (c :: cs, [])) : r = some (cs, []) :=
  (consRaw_some_iff c r cs []).1 h

theorem num_exp_sound (s : List Char) (h : scanNumber .exp s = some (s, [])) :
    ∀ c ∈ s, isDigit c = true := by
  induction s with
  | nil => exact fun c hc => absurd hc (List.not_mem_nil c)
  | cons c cs ih =>
    simp only [scanNumber] at h
    split_ifs at h with hd
    · intro x hx
      rcases List.mem_cons.1 hx with hx | hx
      · rw [hx]; exact hd
      · exact ih (consRaw_self h) x hx
    · simp at h

theorem num_eSign_sound (s : List Char) (h : scanNumber .eSign s = some (s, [])) : Digits s := by
  cases s with
  | nil => simp [scanNumber] at h
  | cons c cs =>
    simp only [scanNumber] at h
    split_ifs at h with hd
    refine ⟨by simp, ?_⟩
    intro x hx
    rcases List.mem_cons.1 hx with hx | hx
    · rw [hx]; exact hd
    · exact num_exp_sound cs (consRaw_self h) x hx

theorem num_e_sound (s : List Char) (h : scanNumber .e s = some (s, [])) :
    ∃ sign ds, s = sign ++ ds ∧ (sign = [] ∨ sign = ['+'] ∨ sign = ['-']) ∧ Digits ds := by
  cases s with
  | nil => simp [scanNumber] at h
  | cons c cs =>
    simp only [scanNumber] at h
    split_ifs at h with hs hd
    · refine ⟨[c], cs, rfl, ?_, num_eSign_sound cs (consRaw_self h)⟩
      rcases hs with hs | hs
      · exact Or.inr (Or.inl (by rw [hs]))
      · exact Or.inr (Or.inr (by rw [hs]))
    · refine ⟨[], c :: cs, rfl, Or.inl rfl, by simp, ?_⟩
      intro x hx
      rcases List.mem_cons.1 hx with hx | hx
      · rw [hx]; exact hd
      · exact num_exp_sound cs (consRaw_self h) x hx

theorem expText_of_e {c : Char} {cs : List Char} (hc : c = 'e' ∨ c = 'E')
    (h : scanNumber .e cs = some (cs, [])) : ExpText (c :: cs) := by
  obtain ⟨sign, ds, hs, hsign, hds⟩ := num_e_sound cs h
  exact Or.inr ⟨c, sign, ds, by rw [hs], hc, hsign, hds⟩

theorem num_frac_sound (s : List Char) (h : scanNumber .frac s = some (s, [])) :
    ∃ ds exp, s = ds ++ exp ∧ (∀ c ∈ ds, isDigit c = true) ∧ ExpText exp := by
  induction s with
  | nil => exact ⟨[], [], rfl, fun c hc => absurd hc (List.not_mem_nil c), Or.inl rfl⟩
  | cons c cs ih =>
    simp only [scanNumber] at h
    split_ifs at h with hd he
    · obtain ⟨ds, exp, hs, hds, hexp⟩ := ih (consRaw_self h)
      refine ⟨c :: ds, exp, by rw [hs]; rfl, ?_, hexp⟩
      intro x hx
      rcases List.mem_cons.1 hx with hx | hx
      · rw [hx]; exact hd
      · exact hds x hx
    · exact ⟨[], c :: cs, rfl, fun c hc => absurd hc (List.not_mem_nil c),
        expText_of_e he (consRaw_self h)⟩
    · simp at h

theorem num_dot_sound (s : List Char) (h : scanNumber .dot s = some (s, [])) :
    ∃ ds exp, s = ds ++ exp ∧ Digits ds ∧ ExpText exp := by
  cases s with
  | nil => simp [scanNumber] at h
  | cons c cs =>
    simp only [scanNumber] at h
    split_ifs at h with hd
    obtain ⟨ds, exp, hs, hds, hexp⟩ := num_frac_sound cs (consRaw_self h)
    refine ⟨c :: ds, exp, by rw [hs]; rfl, ⟨by simp, ?_⟩, hexp⟩
    intro x hx
    rcases List.mem_cons.1 hx with hx | hx
    · rw [hx]; exact hd
    · exact hds x hx

theorem fracText_of_dot {cs : List Char} (h : scanNumber .dot cs = some (cs, [])) :
    ∃ frac exp, '.' :: cs = frac ++ exp ∧ FracText frac ∧ ExpText exp := by
  obtain ⟨ds, exp, hs, hds, hexp⟩ := num_dot_sound cs h
  exact ⟨'.' :: ds, exp, by rw [hs]; rfl, Or.inr ⟨ds, rfl, hds⟩, hexp⟩

theorem num_int_sound (s : List Char) (h : scanNumber .int s = some (s, [])) :
    ∃ ds frac exp, s = ds ++ (frac ++ exp) ∧ (∀ c ∈ ds, isDigit c = true) ∧ FracText frac ∧
      ExpText exp := by
  induction s with
  | nil =>
    exact ⟨[], [], [], rfl, fun c hc => absurd hc (List.not_mem_nil c), Or.inl rfl, Or.inl rfl⟩
  | cons c cs ih =>
    simp only [scanNumber] at h
    split_ifs at h with hd hdot he
    · obtain ⟨ds, frac, exp, hs, hds, hfrac, hexp⟩ := ih (consRaw_self h)
      refine ⟨c :: ds, frac, exp, by rw [hs]; rfl, ?_, hfrac, hexp⟩
      intro x hx
      rcases List.mem_cons.1 hx with hx | hx
      · rw [hx]; exact hd
      · exact hds x hx
    · subst hdot
      obtain ⟨frac, exp, hs, hfrac, hexp⟩ := fracText_of_dot (consRaw_self h)
      exact ⟨[], frac, exp, hs, fun c hc => absurd hc (List.not_mem_nil c), hfrac, hexp⟩
    · exact ⟨[], [], c :: cs, rfl, fun c hc => absurd hc (List.not_mem_nil c), Or.inl rfl,
        expText_of_e he (consRaw_self h)⟩
    · simp at h

theorem num_zero_sound (s : List Char) (h : scanNumber .zero s = some (s, [])) :
    ∃ frac exp, s = frac ++ exp ∧ FracText frac ∧ ExpText exp := by
  cases s with
  | nil => exact ⟨[], [], rfl, Or.inl rfl, Or.inl rfl⟩
  | cons c cs =>
    simp only [scanNumber] at h
    split_ifs at h with hdot he
    · subst hdot
      exact fracText_of_dot (consRaw_self h)
    · exact ⟨[], c :: cs, rfl, Or.inl rfl, expText_of_e he (consRaw_self h)⟩
    · simp at h

theorem num_neg_sound (s : List Char) (h : scanNumber .neg s = some (s, [])) :
    ∃ int frac exp, s = int ++ (frac ++ exp) ∧ IntText int ∧ FracText frac ∧ ExpText exp := by
  cases s with
  | nil => simp [scanNumber] at h
  | cons c cs =>
    simp only [scanNumber] at h
    split_ifs at h with hz hd
    · subst hz
      obtain ⟨frac, exp, hs, hfrac, hexp⟩ := num_zero_sound cs (consRaw_self h)
      exact ⟨['0'], frac, exp, by rw [hs]; rfl, Or.inl rfl, hfrac, hexp⟩
    · obtain ⟨ds, frac, exp, hs, hds, hfrac, hexp⟩ := num_int_sound cs (consRaw_self h)
      refine ⟨c :: ds, frac, exp, by rw [hs]; rfl, Or.inr ⟨⟨by simp, ?_⟩, ?_⟩, hfrac, hexp⟩
      · intro x hx
        rcases List.mem_cons.1 hx with hx | hx
        · rw [hx]; exact hd
        · exact hds x hx
      · simpa using hz

/-- A text the scanner reads whole as a number is a number of the grammar. -/
theorem numberText_of_scan (s : List Char) (h : scanNumberLit s = some (s, [])) :
    NumberText s := by
  cases s with
  | nil => simp [scanNumberLit] at h
  | cons c cs =>
    simp only [scanNumberLit] at h
    split_ifs at h with hm
    · subst hm
      obtain ⟨int, frac, exp, hs, hint, hfrac, hexp⟩ := num_neg_sound cs (consRaw_self h)
      exact ⟨['-'], int, frac, exp, by rw [hs]; rfl, Or.inr rfl, hint, hfrac, hexp⟩
    · obtain ⟨int, frac, exp, hs, hint, hfrac, hexp⟩ := num_neg_sound (c :: cs) h
      exact ⟨[], int, frac, exp, hs, Or.inl rfl, hint, hfrac, hexp⟩

theorem num_exp_complete (s : List Char) (h : ∀ c ∈ s, isDigit c = true) :
    scanNumber .exp s = some (s, []) := by
  induction s with
  | nil => rfl
  | cons c cs ih =>
    rw [scanNumber, if_pos (h c (List.mem_cons_self _ _)),
      ih (fun x hx => h x (List.mem_cons_of_mem _ hx))]
    rfl

theorem num_eSign_complete (s : List Char) (h : Digits s) :
    scanNumber .eSign s = some (s, []) := by
  obtain ⟨hne, hd⟩ := h
  cases s with
  | nil => exact absurd rfl hne
  | cons c cs =>
    rw [scanNumber, if_pos (hd c (List.mem_cons_self _ _)),
      num_exp_complete cs (fun x hx => hd x (List.mem_cons_of_mem _ hx))]
    rfl

theorem num_e_complete (sign ds : List Char)
    (hsign : sign = [] ∨ sign = ['+'] ∨ sign = ['-']) (h : Digits ds) :
    scanNumber .e (sign ++ ds) = some (sign ++ ds, []) := by
  rcases hsign with hs | hs | hs
  · subst hs
    obtain ⟨hne, hd⟩ := h
    cases ds with
    | nil => exact absurd rfl hne
    | cons c cs =>
      have hc := hd c (List.mem_cons_self _ _)
      rw [List.nil_append, scanNumber,
        if_neg (by
          rintro (h1 | h1)
          · exact isDigit_ne hc (by decide) h1
          · exact isDigit_ne hc (by decide) h1),
        if_pos hc, num_exp_complete cs (fun x hx => hd x (List.mem_cons_of_mem _ hx))]
      rfl
  · subst hs
    rw [List.singleton_append, scanNumber, if_pos (Or.inl rfl), num_eSign_complete ds h]
    rfl
  · subst hs
    rw [List.singleton_append, scanNumber, if_pos (Or.inr rfl), num_eSign_complete ds h]
    rfl

/-- An exponent of the grammar, met in a state that allows one. -/
theorem expText_cases {exp : List Char} (h : ExpText exp) :
    exp = [] ∨ ∃ e cs, exp = e :: cs ∧ (e = 'e' ∨ e = 'E') ∧ isDigit e = false ∧ e ≠ '.' ∧
      scanNumber .e cs = some (cs, []) := by
  rcases h with h | ⟨e, sign, ds, hs, he, hsign, hds⟩
  · exact Or.inl h
  · refine Or.inr ⟨e, sign ++ ds, hs, he, ?_, ?_, num_e_complete sign ds hsign hds⟩
    · rcases he with he | he <;> rw [he] <;> rfl
    · rcases he with he | he <;> rw [he] <;> decide

theorem num_frac_complete (ds exp : List Char) (hd : ∀ c ∈ ds, isDigit c = true)
    (hexp : ExpText exp) : scanNumber .frac (ds ++ exp) = some (ds ++ exp, []) := by
  induction ds with
  | nil =>
    rcases expText_cases hexp with h | ⟨e, cs, hs, he, hnd, _, hscan⟩
    · subst h
      rfl
    · subst hs
      rw [List.nil_append, scanNumber, if_neg (by rw [hnd]; simp), if_pos he, hscan]
      rfl
  | cons c cs ih =>
    rw [List.cons_append, scanNumber, if_pos (hd c (List.mem_cons_self _ _)),
      ih (fun x hx => hd x (List.mem_cons_of_mem _ hx))]
    rfl

theorem num_dot_complete (ds exp : List Char) (hd : Digits ds) (hexp : ExpText exp) :
    scanNumber .dot (ds ++ exp) = some (ds ++ exp, []) := by
  obtain ⟨hne, hd⟩ := hd
  cases ds with
  | nil => exact absurd rfl hne
  | cons c cs =>
    rw [List.cons_append, scanNumber, if_pos (hd c (List.mem_cons_self _ _)),
      num_frac_complete cs exp (fun x hx => hd x (List.mem_cons_of_mem _ hx)) hexp]
    rfl

/-- A fraction and an exponent of the grammar, met after the integer part. -/
theorem tail_cases {frac exp : List Char} (hfrac : FracText frac) (hexp : ExpText exp) :
    frac ++ exp = [] ∨
      (∃ cs, frac ++ exp = '.' :: cs ∧ scanNumber .dot cs = some (cs, [])) ∨
      ∃ e cs, frac ++ exp = e :: cs ∧ (e = 'e' ∨ e = 'E') ∧ isDigit e = false ∧ e ≠ '.' ∧
        scanNumber .e cs = some (cs, []) := by
  rcases hfrac with h | ⟨ds, hs, hds⟩
  · subst h
    rcases expText_cases hexp with h | h
    · exact Or.inl (by rw [h]; rfl)
    · exact Or.inr (Or.inr h)
  · subst hs
    exact Or.inr (Or.inl ⟨ds ++ exp, rfl, num_dot_complete ds exp hds hexp⟩)

theorem num_int_complete (ds frac exp : List Char) (hd : ∀ c ∈ ds, isDigit c = true)
    (hfrac : FracText frac) (hexp : ExpText exp) :
    scanNumber .int (ds ++ (frac ++ exp)) = some (ds ++ (frac ++ exp), []) := by
  induction ds with
  | nil =>
    rcases tail_cases hfrac hexp with h | ⟨cs, h, hscan⟩ | ⟨e, cs, h, he, hnd, hndot, hscan⟩
    · rw [h]
      rfl
    · rw [List.nil_append, h, scanNumber, if_neg (by decide), if_pos rfl, hscan]
      rfl
    · rw [List.nil_append, h, scanNumber, if_neg (by rw [hnd]; simp), if_neg hndot, if_pos he,
        hscan]
      rfl
  | cons c cs ih =>
    rw [List.cons_append, scanNumber, if_pos (hd c (List.mem_cons_self _ _)),
      ih (fun x hx => hd x (List.mem_cons_of_mem _ hx))]
    rfl

theorem num_zero_complete (frac exp : List Char) (hfrac : FracText frac) (hexp : ExpText exp) :
    scanNumber .zero (frac ++ exp) = some (frac ++ exp, []) := by
  rcases tail_cases hfrac hexp with h | ⟨cs, h, hscan⟩ | ⟨e, cs, h, he, hnd, hndot, hscan⟩
  · rw [h]
    rfl
  · rw [h, scanNumber, if_pos rfl, hscan]
    rfl
  · rw [h, scanNumber, if_neg hndot, if_pos he, hscan]
    rfl

theorem num_neg_complete (int frac exp : List Char) (hint : IntText int)
    (hfrac : FracText frac) (hexp : ExpText exp) :
    scanNumber .neg (int ++ (frac ++ exp)) = some (int ++ (frac ++ exp), []) := by
  rcases hint with h | ⟨⟨hne, hd⟩, hz⟩
  · subst h
    rw [List.singleton_append, scanNumber, if_pos rfl, num_zero_complete frac exp hfrac hexp]
    rfl
  · cases int with
    | nil => exact absurd rfl hne
    | cons c cs =>
      have hcz : c ≠ '0' := by simpa using hz
      rw [List.cons_append, scanNumber, if_neg hcz, if_pos (hd c (List.mem_cons_self _ _)),
        num_int_complete cs frac exp (fun x hx => hd x (List.mem_cons_of_mem _ hx)) hfrac hexp]
      rfl

theorem intText_head {int : List Char} (h : IntText int) :
    ∃ c cs, int = c :: cs ∧ isDigit c = true := by
  rcases h with h | ⟨⟨hne, hd⟩, _⟩
  · exact ⟨'0', [], h, rfl⟩
  · cases int with
    | nil => exact absurd rfl hne
    | cons c cs => exact ⟨c, cs, rfl, hd c (List.mem_cons_self _ _)⟩

/-- The scanner reads every number of the grammar whole. -/
theorem scan_of_numberText (s : List Char) (h : NumberText s) :
    scanNumberLit s = some (s, []) := by
  obtain ⟨sign, int, frac, exp, hs, hsign, hint, hfrac, hexp⟩ := h
  have hscan := num_neg_complete int frac exp hint hfrac hexp
  rcases hsign with h0 | h0
  · subst h0
    obtain ⟨c, cs, hc, hd⟩ := intText_head hint
    rw [List.nil_append] at hs
    rw [hs]
    rw [hc] at hscan ⊢
    rw [List.cons_append] at hscan ⊢
    rw [scanNumberLit, if_neg (isDigit_ne hd (by decide))]
    exact hscan
  · subst h0
    rw [hs, List.singleton_append, scanNumberLit, if_pos rfl, hscan]
    rfl

/-- The numbers of the grammar are the texts the scanner reads whole as a
number. -/
theorem numberText_iff (s : List Char) : NumberText s ↔ scanNumberLit s = some (s, []) :=
  ⟨scan_of_numberText s, numberText_of_scan s⟩

/-- What the scanner returns as a number is a front part of the input and
is read whole when it stands alone. -/
theorem scanNumber_front (s : List Char) : ∀ (st : NumState) (lit rest : List Char),
    scanNumber st s = some (lit, rest) → s = lit ++ rest ∧ scanNumber st lit = some (lit, []) := by
  induction s with
  | nil =>
    intro st lit rest h
    cases st <;> simp [scanNumber] at h <;> (obtain ⟨h1, h2⟩ := h; subst h1 h2; exact ⟨rfl, rfl⟩)
  | cons c cs ih =>
    intro st lit rest h
    cases st <;> simp only [scanNumber] at h <;> split_ifs at h <;>
      first
      | (obtain ⟨lit', h', hlit⟩ := consRaw_inv h
         obtain ⟨hs, hl⟩ := ih _ _ _ h'
         subst hlit
         refine ⟨by rw [hs]; rfl, ?_⟩
         simp only [scanNumber]
         split_ifs
         rw [hl]
         rfl)
      | (simp only [Option.some.injEq, Prod.mk.injEq] at h
         obtain ⟨h1, h2⟩ := h
         subst h1 h2
         exact ⟨rfl, rfl⟩)

theorem scanNumberLit_front (s lit rest : List Char) (h : scanNumberLit s = some (lit, rest)) :
    s = lit ++ rest ∧ scanNumberLit lit = some (lit, []) := by
  cases s with
  | nil => simp [scanNumberLit] at h
  | cons c cs =>
    simp only [scanNumberLit] at h
    split_ifs at h with hm
    · obtain ⟨lit', h', hlit⟩ := consRaw_inv h
      obtain ⟨hs, hl⟩ := scanNumber_front _ _ _ _ h'
      subst hlit
      refine ⟨by rw [hs]; rfl, ?_⟩
      rw [scanNumberLit, if_pos hm, hl]
      rfl
    · obtain ⟨hs, hl⟩ := scanNumber_front _ _ _ _ h
      refine ⟨hs, ?_⟩
      cases lit with
      | nil =>
        simp only [scanNumber] at h
        split_ifs at h <;> first | (exact absurd h (by simp)) | (obtain ⟨l, h', hl'⟩ := consRaw_inv h; cases hl')
      | cons d ds =>
        simp only [List.cons_append, List.cons.injEq] at hs
        rw [← hs.1]
        rw [scanNumberLit, if_neg hm]
        rw [← hs.1] at hl
        exact hl

/-- A number is still read whole when the input goes on with a character
that cannot continue it. -/
theorem scanNumber_then (st : NumState) (lit rest : List Char)
    (hstop : ∀ c cs, rest = c :: cs → isDigit c = false ∧ c ≠ '.' ∧ c ≠ 'e' ∧ c ≠ 'E')
    (h : scanNumber st lit = some (lit, [])) :
    scanNumber st (lit ++ rest) = some (lit, rest) := by
  induction lit generalizing st with
  | nil =>
    cases rest with
    | nil => exact h
    | cons d ds =>
      obtain ⟨hdig, h1, h2, h3⟩ := hstop d ds rfl
      cases st <;> simp [scanNumber] at h <;>
        simp [scanNumber, hdig, h1, h2, h3]
  | cons c cs ih =>
    cases st <;> simp only [scanNumber, List.cons_append, List.append_eq] at h ⊢
    all_goals
      split_ifs at h ⊢
      all_goals
        first
        | exact absurd h (by simp)
        | (have h' := consRaw_some_cons _ _ _ _ _ h
           rw [ih _ h']
           rfl)

theorem scanNumberLit_then (lit rest : List Char)
    (hstop : ∀ c cs, rest = c :: cs → isDigit c = false ∧ c ≠ '.' ∧ c ≠ 'e' ∧ c ≠ 'E')
    (h : scanNumberLit lit = some (lit, [])) :
    scanNumberLit (lit ++ rest) = some (lit, rest) := by
  cases lit with
  | nil => simp [scanNumberLit] at h
  | cons c cs =>
    simp only [scanNumberLit, List.cons_append] at h ⊢
    split_ifs at h ⊢ with hc
    · have h' := consRaw_some_cons _ _ _ _ _ h
      rw [scanNumber_then _ _ _ hstop h']
      rfl
    · exact scanNumber_then _ (c :: cs) rest hstop h

end json

namespace json

/-! The parser accepts only texts of the grammar. -/

theorem blank_append {a b : List Char} (ha : Blank a) (hb : Blank b) : Blank (a ++ b) := by
  intro c hc
  rcases List.mem_append.1 hc with h | h
  · exact ha c h
  · exact hb c h

theorem skipSpace_split {s : List Char} {x : Char} {xs : List Char} (h : skipSpace s = x :: xs) :
    ∃ w, Blank w ∧ s = w ++ x :: xs := by
  obtain ⟨w, hw, hs⟩ := skipSpace_decomp s
  exact ⟨w, hw, by rw [← h]; exact hs⟩

theorem elemsText_blank (w : List Char) (hw : Blank w) : ∀ (vs : List Value) (body : List Char),
    ElemsText vs body → ElemsText vs (w ++ body)
  | [], body, h => by
    simp only [ElemsText] at h ⊢
    obtain ⟨w', hw', hb⟩ := h
    exact ⟨w ++ w', blank_append hw hw', by rw [hb, List.append_assoc]⟩
  | [v], body, h => by
    simp only [ElemsText] at h ⊢
    obtain ⟨w₁, t, w₂, h1, h2, h3, hb⟩ := h
    exact ⟨w ++ w₁, t, w₂, blank_append hw h1, h2, h3, by rw [hb, List.append_assoc]⟩
  | v :: u :: vs, body, h => by
    simp only [ElemsText] at h ⊢
    obtain ⟨w₁, t, w₂, rest, h1, h2, h3, h4, hb⟩ := h
    exact ⟨w ++ w₁, t, w₂, rest, blank_append hw h1, h2, h3, h4, by rw [hb, List.append_assoc]⟩

theorem membersText_blank (w : List Char) (hw : Blank w) :
    ∀ (ms : List (List Char × Value)) (body : List Char),
    MembersText ms body → MembersText ms (w ++ body)
  | [], body, h => by
    simp only [MembersText] at h ⊢
    obtain ⟨w', hw', hb⟩ := h
    exact ⟨w ++ w', blank_append hw hw', by rw [hb, List.append_assoc]⟩
  | [(k, v)], body, h => by
    simp only [MembersText] at h ⊢
    obtain ⟨w₁, w₂, w₃, t, w₄, h1, h2, h3, h4, h5, h6, hb⟩ := h
    exact ⟨w ++ w₁, w₂, w₃, t, w₄, blank_append hw h1, h2, h3, h4, h5, h6,
      by rw [hb, List.append_assoc]⟩
  | (k, v) :: m :: ms, body, h => by
    simp only [MembersText] at h ⊢
    obtain ⟨w₁, w₂, w₃, t, w₄, rest, h1, h2, h3, h4, h5, h6, h7, hb⟩ := h
    exact ⟨w ++ w₁, w₂, w₃, t, w₄, rest, blank_append hw h1, h2, h3, h4, h5, h6, h7,
      by rw [hb, List.append_assoc]⟩

theorem expect_sound {kw s rest : List Char} (h : expect kw s = some rest) : s = kw ++ rest := by
  induction kw generalizing s with
  | nil =>
    simp only [expect, List.isPrefixOf, List.length_nil, List.drop_zero, if_true,
      Option.some.injEq] at h
    rw [h]
    rfl
  | cons k ks ih =>
    cases s with
    | nil => simp [expect, List.isPrefixOf] at h
    | cons c cs =>
      simp only [expect, List.isPrefixOf, List.length_cons, List.drop_succ_cons,
        Bool.and_eq_true, beq_iff_eq] at h
      split_ifs at h with hc
      have := ih (s := cs) (by rw [expect, if_pos hc.2]; exact h)
      rw [this, hc.1]
      rfl

theorem parse_sound_aux (F : Nat) :
    (∀ (d : Nat) (s : List Char) (v : Value) (rest : List Char),
      parseValue F d s = some (v, rest) →
        ∃ t, s = t ++ rest ∧ v.Text t ∧ (d ≤ maxNestingDepth → d + v.depth ≤ maxNestingDepth)) ∧
    (∀ (d : Nat) (s : List Char) (vs : List Value) (rest : List Char),
      parseElems F d s = some (vs, rest) →
        vs ≠ [] ∧ ∃ body, s = body ++ rest ∧ ElemsText vs body ∧
          (d ≤ maxNestingDepth → d + depthElems vs ≤ maxNestingDepth)) ∧
    (∀ (d : Nat) (s : List Char) (ms : List (List Char × Value)) (rest : List Char),
      parseMembers F d s = some (ms, rest) →
        ms ≠ [] ∧ ∃ body, s = body ++ rest ∧ MembersText ms body ∧
          (d ≤ maxNestingDepth → d + depthMembers ms ≤ maxNestingDepth)) := by
  induction F with
  | zero =>
    refine ⟨?_, ?_, ?_⟩ <;> intro d s v rest h
    · simp [parseValue] at h
    · simp [parseElems] at h
    · simp [parseMembers] at h
  | succ F ih =>
    obtain ⟨ihV, ihE, ihM⟩ := ih
    refine ⟨?_, ?_, ?_⟩
    · intro d s v rest h
      cases s with
      | nil => simp [parseValue] at h
      | cons c cs =>
        rw [parseValue] at h
        split_ifs at h with hc1 hd1 hc2 hd2 hc3 hc4 hc5 hc6
        · -- object
          cases hsp : skipSpace cs with
          | nil => rw [hsp] at h; simp at h
          | cons x xs =>
            rw [hsp] at h
            obtain ⟨w, hw, hcs⟩ := skipSpace_split hsp
            simp only at h
            split_ifs at h with hx
            · simp only [Option.some.injEq, Prod.mk.injEq] at h
              obtain ⟨hv, hr⟩ := h
              subst hv hr hc1 hx
              refine ⟨lbrace :: (w ++ [rbrace]), by rw [hcs]; simp, ?_, ?_⟩
              · simp only [Value.Text, MembersText]
                exact ⟨_, rfl, w, hw, rfl⟩
              · intro _
                simp only [Value.depth, depthMembers]
                omega
            · cases hm : parseMembers F (d + 1) (x :: xs) with
              | none => rw [hm] at h; simp at h
              | some p =>
                obtain ⟨ms, r⟩ := p
                rw [hm] at h
                simp only [Option.some.injEq, Prod.mk.injEq] at h
                obtain ⟨hv, hr⟩ := h
                subst hv hr hc1
                obtain ⟨_, body, hb, ht, hdep⟩ := ihM _ _ _ _ hm
                refine ⟨lbrace :: (w ++ body), by rw [hcs, hb]; simp, ?_, ?_⟩
                · simp only [Value.Text]
                  exact ⟨_, rfl, membersText_blank w hw ms body ht⟩
                · intro _
                  have := hdep (by omega)
                  simp only [Value.depth]
                  omega
        · -- array
          cases hsp : skipSpace cs with
          | nil => rw [hsp] at h; simp at h
          | cons x xs =>
            rw [hsp] at h
            obtain ⟨w, hw, hcs⟩ := skipSpace_split hsp
            simp only at h
            split_ifs at h with hx
            · simp only [Option.some.injEq, Prod.mk.injEq] at h
              obtain ⟨hv, hr⟩ := h
              subst hv hr hc2 hx
              refine ⟨'[' :: (w ++ [']']), by rw [hcs]; simp, ?_, ?_⟩
              · simp only [Value.Text, ElemsText]
                exact ⟨_, rfl, w, hw, rfl⟩
              · intro _
                simp only [Value.depth, depthElems]
                omega
            · cases hm : parseElems F (d + 1) (x :: xs) with
              | none => rw [hm] at h; simp at h
              | some p =>
                obtain ⟨vs, r⟩ := p
                rw [hm] at h
                simp only [Option.some.injEq, Prod.mk.injEq] at h
                obtain ⟨hv, hr⟩ := h
                subst hv hr hc2
                obtain ⟨_, body, hb, ht, hdep⟩ := ihE _ _ _ _ hm
                refine ⟨'[' :: (w ++ body), by rw [hcs, hb]; simp, ?_, ?_⟩
                · simp only [Value.Text]
                  exact ⟨_, rfl, elemsText_blank w hw vs body ht⟩
                · intro _
                  have := hdep (by omega)
                  simp only [Value.depth]
                  omega
        · -- string
          cases hs : scanString .inString cs with
          | none => rw [hs] at h; simp at h
          | some p =>
            obtain ⟨raw, r⟩ := p
            rw [hs] at h
            simp only [Option.some.injEq, Prod.mk.injEq] at h
            obtain ⟨hv, hr⟩ := h
            subst hv hr hc3
            obtain ⟨hcs, ht⟩ := scanString_sound _ _ _ _ hs
            refine ⟨dquote :: (raw ++ [dquote]), by rw [hcs]; simp, ?_, ?_⟩
            · simp only [Value.Text, true_and]
              exact ht
            · intro hd
              simp only [Value.depth]
              omega
        · -- true
          cases hs : expect ['r', 'u', 'e'] cs with
          | none => rw [hs] at h; simp at h
          | some r =>
            rw [hs] at h
            simp only [Option.some.injEq, Prod.mk.injEq] at h
            obtain ⟨hv, hr⟩ := h
            subst hv hr hc4
            refine ⟨"true".toList, by rw [expect_sound hs]; rfl, by simp only [Value.Text], ?_⟩
            intro hd
            simp only [Value.depth]
            omega
        · -- false
          cases hs : expect ['a', 'l', 's', 'e'] cs with
          | none => rw [hs] at h; simp at h
          | some r =>
            rw [hs] at h
            simp only [Option.some.injEq, Prod.mk.injEq] at h
            obtain ⟨hv, hr⟩ := h
            subst hv hr hc5
            refine ⟨"false".toList, by rw [expect_sound hs]; rfl, by simp only [Value.Text], ?_⟩
            intro hd
            simp only [Value.depth]
            omega
        · -- null
          cases hs : expect ['u', 'l', 'l'] cs with
          | none => rw [hs] at h; simp at h
          | some r =>
            rw [hs] at h
            simp only [Option.some.injEq, Prod.mk.injEq] at h
            obtain ⟨hv, hr⟩ := h
            subst hv hr hc6
            refine ⟨"null".toList, by rw [expect_sound hs]; rfl, by simp only [Value.Text], ?_⟩
            intro hd
            simp only [Value.depth]
            omega
        · -- number
          cases hs : scanNumberLit (c :: cs) with
          | none => rw [hs] at h; simp at h
          | some p =>
            obtain ⟨lit, r⟩ := p
            rw [hs] at h
            simp only [Option.some.injEq, Prod.mk.injEq] at h
            obtain ⟨hv, hr⟩ := h
            subst hv hr
            obtain ⟨hcs, hl⟩ := scanNumberLit_front _ _ _ hs
            refine ⟨lit, hcs, ?_, ?_⟩
            · simp only [Value.Text, true_and]
              exact numberText_of_scan lit hl
            · intro hd
              simp only [Value.depth]
              omega
    · intro d s vs rest h
      rw [parseElems] at h
      cases hv : parseValue F d s with
      | none => rw [hv] at h; simp at h
      | some p =>
        obtain ⟨v, r⟩ := p
        rw [hv] at h
        obtain ⟨t, hst, htext, hdep⟩ := ihV _ _ _ _ hv
        simp only at h
        cases hsp : skipSpace r with
        | nil => rw [hsp] at h; simp at h
        | cons x xs =>
          rw [hsp] at h
          obtain ⟨w, hw, hr⟩ := skipSpace_split hsp
          simp only at h
          split_ifs at h with hx1 hx2
          · simp only [Option.some.injEq, Prod.mk.injEq] at h
            obtain ⟨hvs, hrest⟩ := h
            subst hvs hrest hx1
            refine ⟨by simp, t ++ (w ++ [']']), by rw [hst, hr]; simp, ?_, ?_⟩
            · simp only [ElemsText]
              exact ⟨[], t, w, blank_nil, htext, hw, rfl⟩
            · intro hd
              have := hdep hd
              simp only [depthElems]
              omega
          · cases he : parseElems F d (skipSpace xs) with
            | none => rw [he] at h; simp at h
            | some q =>
              obtain ⟨us, r2⟩ := q
              rw [he] at h
              simp only [Option.some.injEq, Prod.mk.injEq] at h
              obtain ⟨hvs, hrest⟩ := h
              subst hvs hrest hx2
              obtain ⟨hne, body, hb, hbt, hdep2⟩ := ihE _ _ _ _ he
              obtain ⟨w', hw', hxs⟩ := skipSpace_decomp xs
              refine ⟨by simp, t ++ (w ++ ',' :: (w' ++ body)), ?_, ?_, ?_⟩
              · rw [hst, hr, hxs, hb]; simp
              · cases us with
                | nil => exact absurd rfl hne
                | cons u us' =>
                  simp only [ElemsText]
                  exact ⟨[], t, w, _, blank_nil, htext, hw, elemsText_blank w' hw' _ _ hbt, rfl⟩
              · intro hd
                have h1 := hdep hd
                have h2 := hdep2 hd
                simp only [depthElems]
                omega
    · intro d s ms rest h
      cases s with
      | nil => simp [parseMembers] at h
      | cons c cs =>
        rw [parseMembers] at h
        split_ifs at h with hc
        subst hc
        cases hs : scanString .inString cs with
        | none => rw [hs] at h; simp at h
        | some p =>
          obtain ⟨key, r⟩ := p
          rw [hs] at h
          obtain ⟨hcs, hkey⟩ := scanString_sound _ _ _ _ hs
          simp only at h hkey
          cases hsp : skipSpace r with
          | nil => rw [hsp] at h; simp at h
          | cons y ys =>
            rw [hsp] at h
            obtain ⟨w₂, hw₂, hr⟩ := skipSpace_split hsp
            simp only at h
            split_ifs at h with hy
            subst hy
            obtain ⟨w₃, hw₃, hys⟩ := skipSpace_decomp ys
            cases hv : parseValue F d (skipSpace ys) with
            | none => rw [hv] at h; simp at h
            | some q =>
              obtain ⟨v, r2⟩ := q
              rw [hv] at h
              obtain ⟨t, hst, htext, hdep⟩ := ihV _ _ _ _ hv
              simp only at h
              cases hsp2 : skipSpace r2 with
              | nil => rw [hsp2] at h; simp at h
              | cons x xs =>
                rw [hsp2] at h
                obtain ⟨w₄, hw₄, hr2⟩ := skipSpace_split hsp2
                simp only at h
                have hfront : dquote :: cs =
                    dquote :: (key ++ dquote :: (w₂ ++ ':' :: (w₃ ++ (t ++ (w₄ ++ x :: xs))))) := by
                  rw [hcs, hr, hys, hst, hr2]
                split_ifs at h with hx1 hx2
                · simp only [Option.some.injEq, Prod.mk.injEq] at h
                  obtain ⟨hms, hrest⟩ := h
                  subst hms hrest hx1
                  refine ⟨by simp,
                    dquote :: (key ++ dquote :: (w₂ ++ ':' :: (w₃ ++ (t ++ (w₄ ++ [rbrace]))))),
                    by rw [hfront]; simp, ?_, ?_⟩
                  · simp only [MembersText]
                    exact ⟨[], w₂, w₃, t, w₄, blank_nil, hkey, hw₂, hw₃, htext, hw₄, rfl⟩
                  · intro hd
                    have := hdep hd
                    simp only [depthMembers]
                    omega
                · cases hm : parseMembers F d (skipSpace xs) with
                  | none => rw [hm] at h; simp at h
                  | some q2 =>
                    obtain ⟨ms2, r3⟩ := q2
                    rw [hm] at h
                    simp only [Option.some.injEq, Prod.mk.injEq] at h
                    obtain ⟨hms, hrest⟩ := h
                    subst hms hrest hx2
                    obtain ⟨hne, body, hb, hbt, hdep2⟩ := ihM _ _ _ _ hm
                    obtain ⟨w', hw', hxs⟩ := skipSpace_decomp xs
                    refine ⟨by simp,
                      dquote :: (key ++ dquote :: (w₂ ++ ':' :: (w₃ ++ (t ++
                        (w₄ ++ ',' :: (w' ++ body)))))), ?_, ?_, ?_⟩
                    · rw [hfront, hxs, hb]; simp
                    · cases ms2 with
                      | nil => exact absurd rfl hne
                      | cons m ms' =>
                        simp only [MembersText]
                        exact ⟨[], w₂, w₃, t, w₄, _, blank_nil, hkey, hw₂, hw₃, htext, hw₄,
                          membersText_blank w' hw' _ _ hbt, rfl⟩
                    · intro hd
                      have h1 := hdep hd
                      have h2 := hdep2 hd
                      simp only [depthMembers]
                      omega

end json

namespace json

/-! The parser accepts every text of the grammar within the nesting limit. -/

theorem parseValue_up {F d : Nat} {s : List Char} {v : Value} {rest : List Char}
    (h : parseValue F d s = some (v, rest)) (G : Nat) (hG : s.length ≤ G) :
    parseValue G d s = some (v, rest) :=
  ((parse_fuel_aux F).1 d s v rest h).2 G (by omega)

theorem parseElems_up {F d : Nat} {s : List Char} {vs : List Value} {rest : List Char}
    (h : parseElems F d s = some (vs, rest)) (G : Nat) (hG : s.length ≤ G) :
    parseElems G d s = some (vs, rest) :=
  ((parse_fuel_aux F).2.1 d s vs rest h).2 G (by omega)

theorem parseMembers_up {F d : Nat} {s : List Char} {ms : List (List Char × Value)}
    {rest : List Char} (h : parseMembers F d s = some (ms, rest)) (G : Nat)
    (hG : s.length ≤ G) : parseMembers G d s = some (ms, rest) :=
  ((parse_fuel_aux F).2.2 d s ms rest h).2 G (by omega)

theorem isSpace_stop {c : Char} (h : isSpace c = true) :
    isDigit c = false ∧ c ≠ '.' ∧ c ≠ 'e' ∧ c ≠ 'E' := by
  rcases (isSpace_iff c).1 h with h | h | h | h
  · subst h
    decide
  all_goals
    have hc := char_eq_of_toNat h
    subst hc
    decide

theorem isDelim_stop {c : Char} (h : isDelim c = true) :
    isDigit c = false ∧ c ≠ '.' ∧ c ≠ 'e' ∧ c ≠ 'E' :=
  ⟨isDelim_not_digit h, (isDelim_ne h).1, (isDelim_ne h).2.1, (isDelim_ne h).2.2.1⟩

/-- After a value inside an array or an object comes whitespace and a
delimiter: nothing that could continue a number. -/
theorem stop_blank_delim (w : List Char) (hw : Blank w) (x : Char) (tail : List Char)
    (hx : isDelim x = true) :
    ∀ c cs, w ++ x :: tail = c :: cs → isDigit c = false ∧ c ≠ '.' ∧ c ≠ 'e' ∧ c ≠ 'E' := by
  intro c cs h
  cases w with
  | nil =>
    simp only [List.nil_append, List.cons.injEq] at h
    rw [← h.1]
    exact isDelim_stop hx
  | cons a w' =>
    simp only [List.cons_append, List.cons.injEq] at h
    rw [← h.1]
    exact isSpace_stop (blank_cons.1 hw).1

theorem stop_blank (w : List Char) (hw : Blank w) :
    ∀ c cs, w = c :: cs → isDigit c = false ∧ c ≠ '.' ∧ c ≠ 'e' ∧ c ≠ 'E' := by
  intro c cs h
  subst h
  exact isSpace_stop (blank_cons.1 hw).1

theorem skipSpace_blank_delim (w : List Char) (hw : Blank w) (x : Char) (tail : List Char)
    (hx : isDelim x = true) : skipSpace (w ++ x :: tail) = x :: tail := by
  rw [skipSpace_blank w _ hw, skipSpace_delim x tail hx]

theorem skipSpace_blank_char (w : List Char) (hw : Blank w) (x : Char) (tail : List Char)
    (hx : isSpace x = false) : skipSpace (w ++ x :: tail) = x :: tail := by
  rw [skipSpace_blank w _ hw, skipSpace_cons x tail hx]

theorem text_lead : ∀ (v : Value) (t : List Char), v.Text t → ∃ c cs, t = c :: cs ∧ Lead c v
  | .null, t, h => by
    simp only [Value.Text] at h
    exact ⟨'n', _, h, .null rfl⟩
  | .bool true, t, h => by
    simp only [Value.Text] at h
    exact ⟨'t', _, h, .true_ rfl⟩
  | .bool false, t, h => by
    simp only [Value.Text] at h
    exact ⟨'f', _, h, .false_ rfl⟩
  | .number lit, t, h => by
    simp only [Value.Text] at h
    obtain ⟨ht, hn⟩ := h
    obtain ⟨c, cs, hc, hl⟩ := scanNumberLit_head lit (scan_of_numberText lit hn)
    exact ⟨c, cs, by rw [ht, hc], .number lit hl⟩
  | .string raw, t, h => by
    simp only [Value.Text] at h
    exact ⟨dquote, _, h.1, .string raw rfl⟩
  | .array elems, t, h => by
    simp only [Value.Text] at h
    obtain ⟨body, ht, _⟩ := h
    exact ⟨'[', body, ht, .array elems rfl⟩
  | .object members, t, h => by
    simp only [Value.Text] at h
    obtain ⟨body, ht, _⟩ := h
    exact ⟨lbrace, body, ht, .object members rfl⟩

theorem skipSpace_text (v : Value) (t : List Char) (h : v.Text t) (w rest : List Char)
    (hw : Blank w) : skipSpace (w ++ (t ++ rest)) = t ++ rest := by
  obtain ⟨c, cs, hc, hl⟩ := text_lead v t h
  rw [skipSpace_blank w _ hw, hc, List.cons_append]
  exact skipSpace_cons c _ (lead_not_space hl).1

theorem parseValue_numberText (fuel depth : Nat) (lit rest : List Char) (hn : NumberText lit)
    (hs : ∀ c cs, rest = c :: cs → isDigit c = false ∧ c ≠ '.' ∧ c ≠ 'e' ∧ c ≠ 'E') :
    parseValue (fuel + 1) depth (lit ++ rest) = some (.number lit, rest) := by
  have hp := scan_of_numberText lit hn
  obtain ⟨c, cs, hc, hlead⟩ := scanNumberLit_head lit hp
  have hscan := scanNumberLit_then lit rest hs hp
  have hne : c ≠ lbrace ∧ c ≠ '[' ∧ c ≠ dquote ∧ c ≠ 't' ∧ c ≠ 'f' ∧ c ≠ 'n' := by
    rcases hlead with h | h
    · subst h; decide
    · have := isDigit_not_space h
      exact ⟨this.2.2.2.1, this.2.2.2.2.1, this.2.2.2.2.2.1, this.2.2.2.2.2.2.1,
        this.2.2.2.2.2.2.2.1, this.2.2.2.2.2.2.2.2⟩
  rw [hc] at hscan ⊢
  simp only [List.cons_append] at hscan ⊢
  rw [parseValue, if_neg hne.1, if_neg hne.2.1, if_neg hne.2.2.1, if_neg hne.2.2.2.1,
    if_neg hne.2.2.2.2.1, if_neg hne.2.2.2.2.2, hscan]

theorem parseValue_stringText (fuel depth : Nat) (raw rest : List Char) (h : StringText raw) :
    parseValue (fuel + 1) depth (dquote :: (raw ++ [dquote]) ++ rest) =
      some (.string raw, rest) := by
  simp only [List.cons_append, List.append_assoc, List.singleton_append]
  rw [parseValue, if_neg (by decide), if_neg (by decide), if_pos rfl, scanString_complete h]
  rfl

theorem elemsText_lead (v : Value) (vs : List Value) (body rest : List Char)
    (h : ElemsText (v :: vs) body) :
    ∃ c cs, skipSpace (body ++ rest) = c :: cs ∧ isSpace c = false ∧ c ≠ ']' := by
  cases vs with
  | nil =>
    simp only [ElemsText] at h
    obtain ⟨w₁, t, w₂, h1, h2, _, hb⟩ := h
    obtain ⟨c, cs, hc, hl⟩ := text_lead v t h2
    refine ⟨c, cs ++ (w₂ ++ [']']) ++ rest, ?_, (lead_not_space hl).1, (lead_not_space hl).2.1⟩
    rw [hb, List.append_assoc, skipSpace_blank w₁ _ h1, hc]
    simp only [List.cons_append, List.append_assoc]
    exact skipSpace_cons c _ (lead_not_space hl).1
  | cons u us =>
    simp only [ElemsText] at h
    obtain ⟨w₁, t, w₂, r, h1, h2, _, _, hb⟩ := h
    obtain ⟨c, cs, hc, hl⟩ := text_lead v t h2
    refine ⟨c, cs ++ (w₂ ++ ',' :: r) ++ rest, ?_, (lead_not_space hl).1,
      (lead_not_space hl).2.1⟩
    rw [hb, List.append_assoc, skipSpace_blank w₁ _ h1, hc]
    simp only [List.cons_append, List.append_assoc]
    exact skipSpace_cons c _ (lead_not_space hl).1

theorem membersText_lead (m : List Char × Value) (ms : List (List Char × Value))
    (body rest : List Char) (h : MembersText (m :: ms) body) :
    ∃ cs, skipSpace (body ++ rest) = dquote :: cs := by
  obtain ⟨k, v⟩ := m
  cases ms with
  | nil =>
    simp only [MembersText] at h
    obtain ⟨w₁, w₂, w₃, t, w₄, h1, _, _, _, _, _, hb⟩ := h
    rw [hb, List.append_assoc, skipSpace_blank w₁ _ h1, List.cons_append,
      skipSpace_cons _ _ (by rfl)]
    exact ⟨_, rfl⟩
  | cons m' ms' =>
    simp only [MembersText] at h
    obtain ⟨w₁, w₂, w₃, t, w₄, r, h1, _, _, _, _, _, _, hb⟩ := h
    rw [hb, List.append_assoc, skipSpace_blank w₁ _ h1, List.cons_append,
      skipSpace_cons _ _ (by rfl)]
    exact ⟨_, rfl⟩

mutual
/-- The parser reads a value of the grammar, followed by anything that cannot
continue a number, provided the nesting limit allows it. -/
theorem parseValue_complete : ∀ (v : Value) (t : List Char), v.Text t →
    ∀ (d : Nat) (rest : List Char), d + v.depth ≤ maxNestingDepth →
    (∀ c cs, rest = c :: cs → isDigit c = false ∧ c ≠ '.' ∧ c ≠ 'e' ∧ c ≠ 'E') →
    ∃ F, parseValue F d (t ++ rest) = some (v, rest)
  | .null, t, h, d, rest, _, _ => by
    simp only [Value.Text] at h
    subst h
    exact ⟨1, parseValue_null 0 d rest⟩
  | .bool true, t, h, d, rest, _, _ => by
    simp only [Value.Text] at h
    subst h
    exact ⟨1, parseValue_true 0 d rest⟩
  | .bool false, t, h, d, rest, _, _ => by
    simp only [Value.Text] at h
    subst h
    exact ⟨1, parseValue_false 0 d rest⟩
  | .number lit, t, h, d, rest, _, hs => by
    simp only [Value.Text] at h
    obtain ⟨ht, hn⟩ := h
    subst ht
    exact ⟨1, parseValue_numberText 0 d t rest hn hs⟩
  | .string raw, t, h, d, rest, _, _ => by
    simp only [Value.Text] at h
    obtain ⟨ht, hn⟩ := h
    subst ht
    exact ⟨1, parseValue_stringText 0 d raw rest hn⟩
  | .array [], t, h, d, rest, hd, _ => by
    simp only [Value.Text, ElemsText] at h
    obtain ⟨body, ht, w, hw, hb⟩ := h
    subst ht hb
    simp only [Value.depth] at hd
    refine ⟨1, ?_⟩
    rw [List.cons_append, parseValue, if_neg (by decide), if_pos rfl, if_neg (by omega)]
    have : skipSpace (w ++ [']'] ++ rest) = ']' :: rest := by
      rw [List.append_assoc, List.singleton_append]
      exact skipSpace_blank_delim w hw ']' rest (by rfl)
    rw [this]
    simp only [if_true]
  | .array (v :: vs), t, h, d, rest, hd, _ => by
    simp only [Value.Text] at h
    obtain ⟨body, ht, hb⟩ := h
    subst ht
    simp only [Value.depth] at hd
    obtain ⟨F, hF⟩ := parseElems_complete (v :: vs) body (by simp) hb (d + 1) rest (by omega)
    obtain ⟨c, cs, hc, _, hne⟩ := elemsText_lead v vs body rest hb
    refine ⟨F + 1, ?_⟩
    rw [List.cons_append, parseValue, if_neg (by decide), if_pos rfl, if_neg (by omega)]
    rw [hc] at hF ⊢
    simp only [if_neg hne, hF]
  | .object [], t, h, d, rest, hd, _ => by
    simp only [Value.Text, MembersText] at h
    obtain ⟨body, ht, w, hw, hb⟩ := h
    subst ht hb
    simp only [Value.depth] at hd
    refine ⟨1, ?_⟩
    rw [List.cons_append, parseValue, if_pos rfl, if_neg (by omega)]
    have : skipSpace (w ++ [rbrace] ++ rest) = rbrace :: rest := by
      rw [List.append_assoc, List.singleton_append]
      exact skipSpace_blank_delim w hw rbrace rest (by rfl)
    rw [this]
    simp only [if_true]
  | .object ((k, v) :: ms), t, h, d, rest, hd, _ => by
    simp only [Value.Text] at h
    obtain ⟨body, ht, hb⟩ := h
    subst ht
    simp only [Value.depth] at hd
    obtain ⟨F, hF⟩ :=
      parseMembers_complete ((k, v) :: ms) body (by simp) hb (d + 1) rest (by omega)
    obtain ⟨cs, hc⟩ := membersText_lead (k, v) ms body rest hb
    refine ⟨F + 1, ?_⟩
    rw [List.cons_append, parseValue, if_pos rfl, if_neg (by omega)]
    rw [hc] at hF ⊢
    simp only [if_neg (show ¬ dquote = rbrace by decide), hF]
/-- The parser reads the elements of a non-empty array of the grammar. -/
theorem parseElems_complete : ∀ (vs : List Value) (body : List Char), vs ≠ [] →
    ElemsText vs body → ∀ (d : Nat) (rest : List Char),
    d + depthElems vs ≤ maxNestingDepth →
    ∃ F, parseElems F d (skipSpace (body ++ rest)) = some (vs, rest)
  | [], _, hne, _, _, _, _ => absurd rfl hne
  | [v], body, _, h, d, rest, hd => by
    simp only [ElemsText] at h
    obtain ⟨w₁, t, w₂, h1, h2, h3, hb⟩ := h
    subst hb
    simp only [depthElems] at hd
    obtain ⟨F, hF⟩ := parseValue_complete v t h2 d (w₂ ++ ']' :: rest)
      (by have := Nat.le_max_left v.depth 0; omega) (stop_blank_delim w₂ h3 ']' rest (by rfl))
    have hs : skipSpace (w₁ ++ (t ++ (w₂ ++ [']'])) ++ rest) = t ++ (w₂ ++ ']' :: rest) := by
      have := skipSpace_text v t h2 w₁ (w₂ ++ ']' :: rest) h1
      simpa using this
    refine ⟨(t ++ (w₂ ++ ']' :: rest)).length + 1, ?_⟩
    rw [hs, parseElems, parseValue_up hF _ (Nat.le_refl _)]
    simp only [skipSpace_blank_delim w₂ h3 ']' rest (by rfl), if_true]
  | v :: u :: vs, body, _, h, d, rest, hd => by
    simp only [ElemsText] at h
    obtain ⟨w₁, t, w₂, r, h1, h2, h3, h4, hb⟩ := h
    subst hb
    have hd1 : v.depth ≤ depthElems (v :: u :: vs) := by
      simp only [depthElems]
      exact Nat.le_max_left _ _
    have hd2 : depthElems (u :: vs) ≤ depthElems (v :: u :: vs) := by
      simp only [depthElems]
      exact Nat.le_max_right _ _
    obtain ⟨F, hF⟩ := parseValue_complete v t h2 d (w₂ ++ ',' :: (r ++ rest)) (by omega)
      (stop_blank_delim w₂ h3 ',' (r ++ rest) (by rfl))
    obtain ⟨F2, hF2⟩ := parseElems_complete (u :: vs) r (by simp) h4 d rest (by omega)
    have hs : skipSpace (w₁ ++ (t ++ (w₂ ++ ',' :: r)) ++ rest) =
        t ++ (w₂ ++ ',' :: (r ++ rest)) := by
      have := skipSpace_text v t h2 w₁ (w₂ ++ ',' :: (r ++ rest)) h1
      simpa using this
    have hlen : (skipSpace (r ++ rest)).length ≤ (t ++ (w₂ ++ ',' :: (r ++ rest))).length := by
      have := skipSpace_length_le (r ++ rest)
      simp only [List.length_append, List.length_cons] at this ⊢
      omega
    refine ⟨(t ++ (w₂ ++ ',' :: (r ++ rest))).length + 1, ?_⟩
    rw [hs, parseElems, parseValue_up hF _ (Nat.le_refl _)]
    simp only [skipSpace_blank_delim w₂ h3 ',' (r ++ rest) (by rfl),
      if_neg (show ¬ (',' = ']') by decide), if_true, parseElems_up hF2 _ hlen]
/-- The parser reads the members of a non-empty object of the grammar. -/
theorem parseMembers_complete : ∀ (ms : List (List Char × Value)) (body : List Char), ms ≠ [] →
    MembersText ms body → ∀ (d : Nat) (rest : List Char),
    d + depthMembers ms ≤ maxNestingDepth →
    ∃ F, parseMembers F d (skipSpace (body ++ rest)) = some (ms, rest)
  | [], _, hne, _, _, _, _ => absurd rfl hne
  | [(k, v)], body, _, h, d, rest, hd => by
    simp only [MembersText] at h
    obtain ⟨w₁, w₂, w₃, t, w₄, h1, hk, h2, h3, ht, h4, hb⟩ := h
    subst hb
    simp only [depthMembers] at hd
    obtain ⟨F, hF⟩ := parseValue_complete v t ht d (w₄ ++ rbrace :: rest)
      (by have := Nat.le_max_left v.depth 0; omega) (stop_blank_delim w₄ h4 rbrace rest (by rfl))
    have hs : skipSpace (w₁ ++ dquote :: (k ++ dquote :: (w₂ ++ ':' :: (w₃ ++ (t ++
        (w₄ ++ [rbrace]))))) ++ rest) =
        dquote :: (k ++ dquote :: (w₂ ++ ':' :: (w₃ ++ (t ++ (w₄ ++ rbrace :: rest))))) := by
      rw [List.append_assoc, skipSpace_blank w₁ _ h1]
      simp only [List.cons_append, List.append_assoc, List.nil_append]
      exact skipSpace_cons _ _ (by rfl)
    have hlen : (t ++ (w₄ ++ rbrace :: rest)).length ≤
        (k ++ dquote :: (w₂ ++ ':' :: (w₃ ++ (t ++ (w₄ ++ rbrace :: rest))))).length := by
      simp only [List.length_append, List.length_cons]
      omega
    refine ⟨(k ++ dquote :: (w₂ ++ ':' :: (w₃ ++ (t ++ (w₄ ++ rbrace :: rest))))).length + 1, ?_⟩
    rw [hs, parseMembers, if_pos rfl, scanString_complete hk]
    simp only [skipSpace_blank_char w₂ h2 ':' _ (by rfl), if_true,
      skipSpace_text v t ht w₃ _ h3, parseValue_up hF _ hlen,
      skipSpace_blank_delim w₄ h4 rbrace rest (by rfl)]
  | (k, v) :: m :: ms, body, _, h, d, rest, hd => by
    simp only [MembersText] at h
    obtain ⟨w₁, w₂, w₃, t, w₄, r, h1, hk, h2, h3, ht, h4, hr, hb⟩ := h
    subst hb
    have hd1 : v.depth ≤ depthMembers ((k, v) :: m :: ms) := by
      simp only [depthMembers]
      exact Nat.le_max_left _ _
    have hd2 : depthMembers (m :: ms) ≤ depthMembers ((k, v) :: m :: ms) := by
      simp only [depthMembers]
      exact Nat.le_max_right _ _
    obtain ⟨F, hF⟩ := parseValue_complete v t ht d (w₄ ++ ',' :: (r ++ rest)) (by omega)
      (stop_blank_delim w₄ h4 ',' (r ++ rest) (by rfl))
    obtain ⟨F2, hF2⟩ := parseMembers_complete (m :: ms) r (by simp) hr d rest (by omega)
    have hs : skipSpace (w₁ ++ dquote :: (k ++ dquote :: (w₂ ++ ':' :: (w₃ ++ (t ++
        (w₄ ++ ',' :: r))))) ++ rest) =
        dquote :: (k ++ dquote :: (w₂ ++ ':' :: (w₃ ++ (t ++ (w₄ ++ ',' :: (r ++ rest)))))) := by
      rw [List.append_assoc, skipSpace_blank w₁ _ h1]
      simp only [List.cons_append, List.append_assoc, List.nil_append]
      exact skipSpace_cons _ _ (by rfl)
    have hlen : (t ++ (w₄ ++ ',' :: (r ++ rest))).length ≤
        (k ++ dquote :: (w₂ ++ ':' :: (w₃ ++ (t ++ (w₄ ++ ',' :: (r ++ rest)))))).length := by
      simp only [List.length_append, List.length_cons]
      omega
    have hlen2 : (skipSpace (r ++ rest)).length ≤
        (k ++ dquote :: (w₂ ++ ':' :: (w₃ ++ (t ++ (w₄ ++ ',' :: (r ++ rest)))))).length := by
      have := skipSpace_length_le (r ++ rest)
      simp only [List.length_append, List.length_cons] at this ⊢
      omega
    refine ⟨(k ++ dquote :: (w₂ ++ ':' :: (w₃ ++ (t ++ (w₄ ++ ',' :: (r ++ rest)))))).length + 1,
      ?_⟩
    rw [hs, parseMembers, if_pos rfl, scanString_complete hk]
    simp only [skipSpace_blank_char w₂ h2 ':' _ (by rfl), if_true,
      skipSpace_text v t ht w₃ _ h3, parseValue_up hF _ hlen,
      skipSpace_blank_delim w₄ h4 ',' (r ++ rest) (by rfl),
      if_neg (show ¬ (',' = rbrace) by decide), parseMembers_up hF2 _ hlen2]
end

end json

namespace json

/-! The parser decides the grammar. -/

/-- The parser of the model accepts exactly the well-formed JSON texts, and
returns the value the text stands for. -/
theorem parse_iff (data : List Char) (v : Value) : parse data = some v ↔ WellFormed data v := by
  constructor
  · intro h
    unfold parse at h
    cases hp : parseValue (2 * data.length + 2) 0 (skipSpace data) with
    | none => rw [hp] at h; simp at h
    | some r =>
      obtain ⟨v', rest⟩ := r
      rw [hp] at h
      simp only at h
      split_ifs at h with hempty
      simp only [Option.some.injEq] at h
      subst h
      have hrest : Blank rest := (skipSpace_eq_nil_iff rest).1 (by simpa using hempty)
      obtain ⟨t, hst, htext, hdep⟩ := (parse_sound_aux _).1 _ _ _ _ hp
      obtain ⟨w₁, hw₁, hdata⟩ := skipSpace_decomp data
      refine ⟨⟨w₁, t, rest, hw₁, htext, hrest, by rw [← hst]; exact hdata⟩, ?_⟩
      have := hdep (by decide)
      omega
  · rintro ⟨⟨w₁, t, w₂, hw₁, htext, hw₂, hdata⟩, hdepth⟩
    obtain ⟨F, hF⟩ := parseValue_complete v t htext 0 w₂ (by omega) (stop_blank w₂ hw₂)
    have hskip : skipSpace data = t ++ w₂ := by
      rw [hdata]
      exact skipSpace_text v t htext w₁ w₂ hw₁
    rw [← hskip] at hF
    rw [parse_fuel_enough data F v w₂ hF, (skipSpace_eq_nil_iff w₂).2 hw₂]
    rfl

/-- A text is well-formed JSON of at most one value. -/
theorem wellFormed_unique {data : List Char} {v w : Value} (hv : WellFormed data v)
    (hw : WellFormed data w) : v = w := by
  have h1 := (parse_iff data v).2 hv
  have h2 := (parse_iff data w).2 hw
  rw [h1] at h2
  exact Option.some.inj h2

/-- The malformed inputs are those the check of the model finds. -/
theorem malformed_iff (data : List Char) : Malformed data ↔ malformed data = true := by
  unfold Malformed malformed
  cases hp : parse data with
  | none =>
    simp only [iff_true]
    left
    rintro ⟨v, hv⟩
    rw [(parse_iff data v).2 hv] at hp
    cases hp
  | some v =>
    have hv := (parse_iff data v).1 hp
    have h1 : ¬ ¬ ∃ v, WellFormed data v := fun h => h ⟨v, hv⟩
    cases v with
    | null =>
      simp only [Bool.false_eq_true, iff_false]
      rintro (h | ⟨w, hw, hnull, _⟩ | ⟨ms, hms, _⟩)
      · exact h1 h
      · exact hnull (wellFormed_unique hw hv)
      · cases wellFormed_unique hms hv
    | object members =>
      simp only
      constructor
      · rintro (h | ⟨w, hw, _, hobj⟩ | ⟨ms, hms, hany⟩)
        · exact absurd h h1
        · exact absurd (wellFormed_unique hw hv) (hobj members)
        · cases wellFormed_unique hms hv
          exact hany
      · intro h
        exact Or.inr (Or.inr ⟨members, hv, h⟩)
    | bool b =>
      simp only [iff_true]
      exact Or.inr (Or.inl ⟨_, hv, (fun h => by cases h), (fun ms h => by cases h)⟩)
    | number lit =>
      simp only [iff_true]
      exact Or.inr (Or.inl ⟨_, hv, (fun h => by cases h), (fun ms h => by cases h)⟩)
    | string raw =>
      simp only [iff_true]
      exact Or.inr (Or.inl ⟨_, hv, (fun h => by cases h), (fun ms h => by cases h)⟩)
    | array elems =>
      simp only [iff_true]
      exact Or.inr (Or.inl ⟨_, hv, (fun h => by cases h), (fun ms h => by cases h)⟩)

end json

/-! The float routines of the stand-in runtime read back what they write. -/

theorem bitLengthFuel_spec : ∀ (fuel n : Nat), n < 2 ^ fuel → n ≠ 0 →
    2 ^ (bitLengthFuel fuel n - 1) ≤ n ∧ n < 2 ^ bitLengthFuel fuel n
  | 0, n, h, h0 => by
    simp only [pow_zero, Nat.lt_one_iff] at h
    exact absurd h h0
  | fuel + 1, n, h, h0 => by
    rw [bitLengthFuel, if_neg h0]
    by_cases h1 : n / 2 = 0
    · have hn : n = 1 := by omega
      subst hn
      cases fuel <;> simp [bitLengthFuel]
    · have hlt : n / 2 < 2 ^ fuel := by
        rw [pow_succ] at h
        omega
      obtain ⟨ih1, ih2⟩ := bitLengthFuel_spec fuel (n / 2) hlt h1
      have hpos : 1 ≤ bitLengthFuel fuel (n / 2) := by
        cases fuel with
        | zero => simp at hlt; exact absurd hlt h1
        | succ f => rw [bitLengthFuel, if_neg h1]; omega
      constructor
      · have : bitLengthFuel fuel (n / 2) + 1 - 1 = (bitLengthFuel fuel (n / 2) - 1) + 1 := by omega
        rw [this, pow_succ]
        omega
      · rw [pow_succ]
        omega

theorem bitLength_eq (n k : Nat) (h1 : 2 ^ k ≤ n) (h2 : n < 2 ^ (k + 1)) (hk : k < 64) :
    bitLength n = k + 1 := by
  have hn0 : n ≠ 0 := by
    have := Nat.two_pow_pos k
    omega
  have hlt : n < 2 ^ 64 := lt_of_lt_of_le h2 (Nat.pow_le_pow_right (by decide) (by omega))
  obtain ⟨s1, s2⟩ := bitLengthFuel_spec 64 n hlt hn0
  unfold bitLength
  have a : k < bitLengthFuel 64 n := by
    by_contra hc
    have := Nat.pow_le_pow_right (show 0 < 2 by decide) (Nat.le_of_not_lt hc)
    omega
  have b : bitLengthFuel 64 n - 1 < k + 1 := by
    by_contra hc
    have := Nat.pow_le_pow_right (show 0 < 2 by decide) (Nat.le_of_not_lt hc)
    omega
  omega

theorem Float64.eq_of_bits {x y : Float64} (h : x.bits = y.bits) : x = y := by
  cases x
  cases y
  simp only at h
  subst h
  rfl

theorem Float64.ofWhole_bits (negative : Bool) (n : Nat) (hn0 : n ≠ 0) :
    (Float64.ofWhole negative n).bits =
      ((if negative = true then 2 ^ 63 else 0) + (bitLength n + 1022) * 2 ^ 52 +
        (n * 2 ^ (53 - bitLength n) - 2 ^ 52)) % 18446744073709551616 := by
  unfold Float64.ofWhole
  rw [if_neg hn0]
  rfl

/-- The whole number a float64 stands for gives the float64 back. -/
theorem ofWhole_whole (x : Float64) (negative : Bool) (n : Nat)
    (h : x.whole = some (negative, n)) : Float64.ofWhole negative n = x ∧ n < 2 ^ 53 := by
  obtain ⟨b, hb⟩ := x
  simp only [Float64.whole] at h
  split_ifs at h with he hf hc
  · simp only [Option.some.injEq, Prod.mk.injEq] at h
    obtain ⟨hneg, hn⟩ := h
    subst hn
    refine ⟨?_, by decide⟩
    simp only [Float64.ofWhole, if_true, Float64.ofBits]
    congr 1
    by_cases hs : 2 ^ 63 ≤ b
    · simp only [hs, decide_True] at hneg
      subst hneg
      norm_num at he hf hs ⊢
      omega
    · simp only [hs, decide_False] at hneg
      subst hneg
      norm_num at he hf hs ⊢
      omega
  · simp only [Option.some.injEq, Prod.mk.injEq] at h
    obtain ⟨hneg, hn⟩ := h
    obtain ⟨hc1, hc2, hdiv⟩ := hc
    obtain ⟨j, hj⟩ : ∃ j, j = 1075 - b / 2 ^ 52 % 2048 := ⟨_, rfl⟩
    rw [← hj] at hdiv hn
    have hj52 : j ≤ 52 := by omega
    have hmul : n * 2 ^ j = 2 ^ 52 + b % 2 ^ 52 := by
      rw [← hn]
      exact Nat.div_mul_cancel (Nat.dvd_of_mod_eq_zero hdiv)
    have hpow : 2 ^ j * 2 ^ (52 - j) = 2 ^ 52 := by
      rw [← pow_add]
      congr 1
      omega
    have hf : b % 2 ^ 52 < 2 ^ 52 := Nat.mod_lt _ (by decide)
    have hjpos := Nat.two_pow_pos j
    have hlo : 2 ^ (52 - j) ≤ n := by
      by_contra hcon
      have h1 : n + 1 ≤ 2 ^ (52 - j) := by omega
      have h2 := Nat.mul_le_mul_right (2 ^ j) h1
      rw [Nat.mul_comm (2 ^ (52 - j)), hpow, Nat.add_mul, hmul] at h2
      omega
    have hhi : n < 2 ^ (52 - j + 1) := by
      by_contra hcon
      have h1 : 2 ^ (52 - j + 1) ≤ n := by omega
      have h2 := Nat.mul_le_mul_right (2 ^ j) h1
      rw [pow_succ, Nat.mul_assoc, Nat.mul_comm 2, ← Nat.mul_assoc, Nat.mul_comm (2 ^ (52 - j)),
        hpow, hmul] at h2
      omega
    have hbl := bitLength_eq n (52 - j) hlo hhi (by omega)
    have hn53 : n < 2 ^ 53 :=
      lt_of_lt_of_le hhi (Nat.pow_le_pow_right (by decide) (by omega))
    refine ⟨?_, hn53⟩
    have hn0 : n ≠ 0 := by
      have := Nat.two_pow_pos (52 - j)
      omega
    apply Float64.eq_of_bits
    rw [Float64.ofWhole_bits negative n hn0, hbl]
    have hexp : 53 - (52 - j + 1) = j := by omega
    rw [hexp, hmul]
    have hfield : 52 - j + 1 + 1022 = b / 2 ^ 52 % 2048 := by omega
    rw [hfield]
    show _ = b
    by_cases hs : 2 ^ 63 ≤ b
    · simp only [hs, decide_True] at hneg
      subst hneg
      norm_num at hs hb hf ⊢
      omega
    · simp only [hs, decide_False] at hneg
      subst hneg
      norm_num at hs hb hf ⊢
      omega

theorem formatNat_cons (n : Nat) :
    ∃ c cs, formatNat n = c :: cs ∧ isDigit c = true ∧ c ≠ '-' := by
  cases hf : formatNat n with
  | nil => exact absurd hf (formatNat_ne_nil n)
  | cons c cs =>
    have hall := all_isDigit_formatNat n
    rw [hf] at hall
    simp only [List.all_cons, Bool.and_eq_true] at hall
    refine ⟨c, cs, rfl, hall.1, ?_⟩
    intro hc
    rw [hc] at hall
    exact absurd hall.1 (by decide)

theorem wholeLiteral_formatNat (negative : Bool) (n : Nat) (h : n < 2 ^ 53) :
    wholeLiteral negative (formatNat n) = some (Float64.ofWhole negative n) := by
  unfold wholeLiteral
  rw [if_pos ⟨all_isDigit_formatNat n, formatNat_ne_nil n, by rw [parseDigits_formatNat]; exact h⟩,
    parseDigits_formatNat]

/-- The float routines of the stand-in runtime agree on every float64 that is
a whole number of magnitude below 2^53. -/
theorem standIn_readsBack (x : Float64) (negative : Bool) (n : Nat)
    (h : x.whole = some (negative, n)) : Runtime.standIn.readsBack x = true := by
  obtain ⟨hx, hn⟩ := ofWhole_whole x negative n h
  obtain ⟨c, cs, hc, hd, hm⟩ := formatNat_cons n
  have hscan := json.scanNumber_formatNat n
  have hlit := wholeLiteral_formatNat negative n hn
  cases negative with
  | true =>
    have htext : Runtime.standIn.formatFloat x = '-' :: formatNat n := by
      simp only [Runtime.standIn, h, if_true]
    simp only [Runtime.readsBack, htext, Bool.and_eq_true, decide_eq_true_eq]
    constructor
    · rw [json.scanNumberLit, if_pos rfl, hscan]
      rfl
    · show wholeLiteral true (formatNat n) = some x
      rw [hlit, hx]
  | false =>
    have htext : Runtime.standIn.formatFloat x = formatNat n := by
      simp only [Runtime.standIn, h, Bool.false_eq_true, if_false]
    simp only [Runtime.readsBack, htext, Bool.and_eq_true, decide_eq_true_eq]
    constructor
    · rw [hc] at hscan ⊢
      rw [json.scanNumberLit, if_neg hm]
      exact hscan
    · rw [hc] at hlit ⊢
      have : Runtime.standIn.parseFloat (c :: cs) = wholeLiteral false (c :: cs) := by
        simp only [Runtime.standIn]
        split
        · rename_i ds heq
          simp only [List.cons.injEq] at heq
          exact absurd heq.1 hm
        · rfl
      rw [this, hlit, hx]

namespace json

/-! The order of map keys. -/

theorem keyLt_irrefl (a : List Char) : keyLt a a = false := by
  induction a with
  | nil => rfl
  | cons c cs ih =>
    rw [keyLt, if_neg (Nat.lt_irrefl _), if_neg (Nat.lt_irrefl _), ih]

theorem keyLt_asymm (a b : List Char) (h : keyLt a b = true) : keyLt b a = false := by
  induction a generalizing b with
  | nil =>
    cases b with
    | nil => rfl
    | cons d ds => rfl
  | cons c cs ih =>
    cases b with
    | nil => simp [keyLt] at h
    | cons d ds =>
      simp only [keyLt] at h ⊢
      split_ifs at h ⊢
      all_goals first
        | rfl
        | omega
        | exact ih ds h

theorem keyLt_trans (a b c : List Char) (h₁ : keyLt a b = true) (h₂ : keyLt b c = true) :
    keyLt a c = true := by
  induction a generalizing b c with
  | nil =>
    cases b with
    | nil => simp [keyLt] at h₁
    | cons d ds =>
      cases c with
      | nil => simp [keyLt] at h₂
      | cons e es => rfl
  | cons x xs ih =>
    cases b with
    | nil => simp [keyLt] at h₁
    | cons d ds =>
      cases c with
      | nil => simp [keyLt] at h₂
      | cons e es =>
        simp only [keyLt] at h₁ h₂ ⊢
        split_ifs at h₁ h₂ ⊢
        all_goals first
          | rfl
          | omega
          | exact ih ds es h₁ h₂

theorem keyLt_total (a b : List Char) (h₁ : keyLt a b = false) (h₂ : keyLt b a = false) :
    a = b := by
  induction a generalizing b with
  | nil =>
    cases b with
    | nil => rfl
    | cons d ds => simp [keyLt] at h₁
  | cons c cs ih =>
    cases b with
    | nil => simp [keyLt] at h₂
    | cons d ds =>
      simp only [keyLt] at h₁ h₂
      split_ifs at h₁ h₂
      have hcd : c = d := by
        have : c.toNat = d.toNat := by omega
        rw [← Char.ofNat_toNat c, ← Char.ofNat_toNat d, this]
      rw [hcd, ih ds h₁ h₂]

theorem ascending_of_sortedKeys {α : Type} (l : List (List Char × α))
    (h : sortedKeys l = true) : Ascending l := by
  induction l with
  | nil => exact List.Pairwise.nil
  | cons x xs ih =>
    cases xs with
    | nil => exact List.pairwise_singleton _ _
    | cons y ys =>
      simp only [sortedKeys, Bool.and_eq_true] at h
      have ih' := ih h.2
      unfold Ascending at ih' ⊢
      have hy := (List.pairwise_cons.mp ih').1
      rw [List.pairwise_cons]
      refine ⟨?_, ih'⟩
      intro z hz
      rcases List.mem_cons.mp hz with hz | hz
      · rw [hz]; exact h.1
      · exact keyLt_trans _ _ _ h.1 (hy z hz)

theorem sortByKey_of_sortedKeys {α : Type} (l : List (List Char × α))
    (h : sortedKeys l = true) : sortByKey l = l := by
  induction l with
  | nil => rfl
  | cons x xs ih =>
    cases xs with
    | nil => rfl
    | cons y ys =>
      simp only [sortedKeys, Bool.and_eq_true] at h
      rw [sortByKey, ih h.2, insertByKey, if_pos h.1]

theorem mapAssign_last (k : List Char) (v : GoValue) (acc : List (List Char × GoValue))
    (h : ∀ x ∈ acc, keyLt x.1 k = true) : mapAssign k v acc = acc ++ [(k, v)] := by
  induction acc with
  | nil => rfl
  | cons x xs ih =>
    have hx := h x (List.mem_cons_self _ _)
    rw [mapAssign, if_neg (by rw [keyLt_asymm _ _ hx]; simp), if_pos hx,
      ih (fun y hy => h y (List.mem_cons_of_mem _ hy))]
    rfl

theorem sortedKeys_encodeEntries (rt : Runtime) (es : List (List Char × GoValue)) :
    sortedKeys (encodeEntries rt es) = sortedKeys es := by
  induction es with
  | nil => rfl
  | cons e rest ih =>
    obtain ⟨k, v⟩ := e
    cases rest with
    | nil => rfl
    | cons e2 rest2 =>
      obtain ⟨k2, v2⟩ := e2
      simp only [encodeEntries, sortedKeys] at ih ⊢
      rw [ih]

/-! Encoding an interface value in the form decoding produces, and decoding
it again. -/

mutual
theorem encodeValue_normal (rt : Runtime) : ∀ g : GoValue,
    g.normal rt = true →
    ∃ v, encodeValue rt g = .ok v ∧ v.printable ∧ v.depth = g.depth ∧
      ∀ saved : Option Error, valueInterface rt v saved = .ok (g, saved)
  | .nil, _ => ⟨.null, rfl, trivial, rfl, fun _ => rfl⟩
  | .bool b, _ => ⟨.bool b, rfl, trivial, rfl, fun _ => rfl⟩
  | .int n, h => by simp [GoValue.normal] at h
  | .float64 x, h => by
    simp only [GoValue.normal, Runtime.readsBack, Bool.and_eq_true, decide_eq_true_eq] at h
    obtain ⟨hfin, h1, h2⟩ := h
    refine ⟨.number (rt.formatFloat x), ?_, h1, rfl, ?_⟩
    · simp only [encodeValue, hfin, if_true]
    · intro saved
      simp only [valueInterface, h2]
  | .string s, _ => by
    refine ⟨.string (appendString s), rfl, ⟨s, rfl⟩, rfl, ?_⟩
    intro saved
    simp only [valueInterface, unquote_appendString]
  | .slice elems, h => by
    simp only [GoValue.normal] at h
    obtain ⟨vs, h1, h2, h3, h4⟩ := encodeElems_normal rt elems h
    refine ⟨.array vs, ?_, h2, ?_, ?_⟩
    · simp only [encodeValue, h1]
    · simp only [Value.depth, GoValue.depth, h3]
    · intro saved
      simp only [valueInterface, h4]
  | .map entries, h => by
    simp only [GoValue.normal, Bool.and_eq_true] at h
    obtain ⟨ms, h1, h2, h3, h4⟩ := encodeEntries_normal rt entries h.2
    refine ⟨.object ms, ?_, h2, ?_, ?_⟩
    · have hs : sortByKey (encodeEntries rt entries) = encodeEntries rt entries :=
        sortByKey_of_sortedKeys _ (by rw [sortedKeys_encodeEntries]; exact h.1)
      simp only [encodeValue, hs, h1]
    · simp only [Value.depth, GoValue.depth, h3]
    · intro saved
      have := h4 [] saved (ascending_of_sortedKeys _ h.1)
        (fun x hx => absurd hx (List.not_mem_nil x))
      simp only [valueInterface, this, List.nil_append]
  | .chan, h => by simp [GoValue.normal] at h
theorem encodeElems_normal (rt : Runtime) : ∀ gs : List GoValue,
    GoValue.normalElems rt gs = true →
    ∃ vs, encodeElems rt gs = .ok vs ∧ printableElems vs ∧
      depthElems vs = GoValue.depthElems gs ∧
      ∀ saved : Option Error, arrayInterface rt vs saved = .ok (gs, saved)
  | [], _ => ⟨[], rfl, trivial, rfl, fun _ => rfl⟩
  | g :: gs, h => by
    simp only [GoValue.normalElems, Bool.and_eq_true] at h
    obtain ⟨v, h1, h2, h3, h4⟩ := encodeValue_normal rt g h.1
    obtain ⟨vs, k1, k2, k3, k4⟩ := encodeElems_normal rt gs h.2
    refine ⟨v :: vs, ?_, ⟨h2, k2⟩, ?_, ?_⟩
    · simp only [encodeElems, h1, k1]
    · simp only [depthElems, GoValue.depthElems, h3, k3]
    · intro saved
      simp only [arrayInterface, h4, k4]
theorem encodeEntries_normal (rt : Runtime) :
    ∀ es : List (List Char × GoValue),
    GoValue.normalEntries rt es = true →
    ∃ ms, sequenceMembers (encodeEntries rt es) = .ok ms ∧ printableMembers ms ∧
      depthMembers ms = GoValue.depthEntries es ∧
      ∀ (acc : List (List Char × GoValue)) (saved : Option Error), Ascending es →
        (∀ x ∈ acc, ∀ e ∈ es, keyLt x.1 e.1 = true) →
        objectInterface rt ms acc saved = .ok (acc ++ es, saved)
  | [], _ => by
    refine ⟨[], rfl, trivial, rfl, ?_⟩
    intro acc saved _ _
    simp only [objectInterface, List.append_nil]
  | (k, g) :: es, h => by
    simp only [GoValue.normalEntries, Bool.and_eq_true] at h
    obtain ⟨v, h1, h2, h3, h4⟩ := encodeValue_normal rt g h.1
    obtain ⟨ms, k1, k2, k3, k4⟩ := encodeEntries_normal rt es h.2
    refine ⟨(appendString k, v) :: ms, ?_, ⟨⟨k, rfl⟩, h2, k2⟩, ?_, ?_⟩
    · simp only [encodeEntries, sequenceMembers, h1, k1]
    · simp only [depthMembers, GoValue.depthEntries, h3, k3]
    · intro acc saved hasc hacc
      unfold Ascending at hasc
      rw [List.pairwise_cons] at hasc
      have hlast := mapAssign_last k g acc (fun x hx => hacc x hx (k, g) (List.mem_cons_self _ _))
      simp only [objectInterface, unquote_appendString, h4, hlast]
      rw [k4 (acc ++ [(k, g)]) saved hasc.2 ?_]
      · simp
      · intro x hx e he
        rcases List.mem_append.mp hx with hx | hx
        · exact hacc x hx e (List.mem_cons_of_mem _ he)
        · simp only [List.mem_singleton] at hx
          rw [hx]
          exact hasc.1 e he
end

end json

namespace time

/-! The RFC 3339 text of a Time. -/

theorem appendInt_two (n : Nat) (h : n < 100) :
    appendInt (n : Int) 2 = [digitChar (n / 10), digitChar (n % 10)] := by
  have hs : ¬ ((n : Int) < 0) := by omega
  simp only [appendInt, Int.natAbs_ofNat, h, and_self, if_true, hs, if_false, List.nil_append]

theorem appendInt_four (y : Int) (h₀ : 0 ≤ y) (h₁ : y ≤ 9999) :
    appendInt y 4 = [digitChar (y.natAbs / 1000), digitChar (y.natAbs / 100 % 10),
      digitChar (y.natAbs / 10 % 10), digitChar (y.natAbs % 10)] := by
  have hs : ¬ (y < 0) := by omega
  have hu : y.natAbs < 10000 := by omega
  have h2 : ¬ ((4 : Nat) = 2) := by decide
  simp only [appendInt, h2, false_and, hu, and_self, if_true, hs, if_false, List.nil_append]

theorem appendInt_nine (n : Nat) :
    appendInt (n : Int) 9 = List.replicate (9 - (formatNat n).length) '0' ++ formatNat n := by
  have hs : ¬ ((n : Int) < 0) := by omega
  have h2 : ¬ ((9 : Nat) = 2) := by decide
  have h4 : ¬ ((9 : Nat) = 4) := by decide
  simp only [appendInt, Int.natAbs_ofNat, h2, h4, false_and, hs, if_false, List.nil_append]

theorem parseDigits_cons (c : Char) (cs : List Char) :
    parseDigits (c :: cs) = digitVal c * 10 ^ cs.length + parseDigits cs := by
  induction cs using List.reverseRecOn generalizing c with
  | nil => simp [parseDigits]
  | append_singleton xs x ih =>
    rw [← List.cons_append, parseDigits_snoc, ih, parseDigits_snoc, List.length_append,
      List.length_singleton, Nat.pow_succ]
    ring

theorem parseDigits_append (a b : List Char) :
    parseDigits (a ++ b) = parseDigits a * 10 ^ b.length + parseDigits b := by
  induction a with
  | nil => simp [parseDigits]
  | cons c cs ih =>
    rw [List.cons_append, parseDigits_cons, ih, parseDigits_cons, List.length_append, Nat.pow_add]
    ring

theorem parseDigits_zeros (k : Nat) : parseDigits (List.replicate k '0') = 0 := by
  induction k with
  | zero => rfl
  | succ k ih =>
    rw [List.replicate_succ, parseDigits_cons, ih, show digitVal '0' = 0 from rfl]
    simp

theorem formatNat_length (k : Nat) (n : Nat) (h : n < 10 ^ (k + 1)) :
    (formatNat n).length ≤ k + 1 := by
  induction k generalizing n with
  | zero =>
    rw [formatNat_small n (by simpa using h)]
    simp
  | succ k ih =>
    by_cases h10 : n < 10
    · rw [formatNat_small n h10]
      simp
    · rw [formatNat_large n (by omega), List.length_append, List.length_singleton]
      have : n / 10 < 10 ^ (k + 1) := by
        rw [Nat.div_lt_iff_lt_mul (by decide)]
        rw [Nat.pow_succ] at h
        exact h
      have := ih (n / 10) this
      omega

theorem parseUint_two (a b lo hi : Nat) (ha : a < 10) (hb : b < 10) (h₀ : lo ≤ a * 10 + b)
    (h₁ : a * 10 + b ≤ hi) : parseUint [digitChar a, digitChar b] lo hi = some (a * 10 + b) := by
  have hv : parseDigits [digitChar a, digitChar b] = a * 10 + b := by
    simp [parseDigits, digitVal_digitChar a ha, digitVal_digitChar b hb]
  have hd : ([digitChar a, digitChar b].all isDigit) = true := by
    simp [isDigit_digitChar a ha, isDigit_digitChar b hb]
  unfold parseUint
  rw [hv, if_pos ⟨hd, h₀, h₁⟩]

theorem parseUint_pair (n lo hi : Nat) (h : n < 100) (h₀ : lo ≤ n) (h₁ : n ≤ hi) :
    parseUint [digitChar (n / 10), digitChar (n % 10)] lo hi = some n := by
  have := parseUint_two (n / 10) (n % 10) lo hi (by omega) (by omega) (by omega) (by omega)
  rw [this]
  congr 1
  omega

theorem parseUint_four (n : Nat) (h : n < 10000) :
    parseUint [digitChar (n / 1000), digitChar (n / 100 % 10), digitChar (n / 10 % 10),
      digitChar (n % 10)] 0 9999 = some n := by
  have hv : parseDigits [digitChar (n / 1000), digitChar (n / 100 % 10),
      digitChar (n / 10 % 10), digitChar (n % 10)] = n := by
    simp only [parseDigits, List.foldl_cons, List.foldl_nil,
      digitVal_digitChar (n / 1000) (by omega), digitVal_digitChar (n / 100 % 10) (by omega),
      digitVal_digitChar (n / 10 % 10) (by omega), digitVal_digitChar (n % 10) (by omega)]
    omega
  have hd : ([digitChar (n / 1000), digitChar (n / 100 % 10), digitChar (n / 10 % 10),
      digitChar (n % 10)].all isDigit) = true := by
    simp [isDigit_digitChar (n / 1000) (by omega), isDigit_digitChar (n / 100 % 10) (by omega),
      isDigit_digitChar (n / 10 % 10) (by omega), isDigit_digitChar (n % 10) (by omega)]
  unfold parseUint
  rw [hv, if_pos ⟨hd, by omega, by omega⟩]

/-- The zone suffix for a non-zero offset of less than a day. -/
theorem appendZone_nonzero (offset : Int) (h : offset ≠ 0) (h₀ : -86400 < offset)
    (h₁ : offset < 86400) :
    appendZone offset = [if Int.tdiv offset 60 < 0 then '-' else '+',
      digitChar (offset.natAbs / 60 / 60 / 10), digitChar (offset.natAbs / 60 / 60 % 10), ':',
      digitChar (offset.natAbs / 60 % 60 / 10), digitChar (offset.natAbs / 60 % 60 % 10)] := by
  unfold appendZone
  rw [if_neg h]
  simp only [Int.natAbs_tdiv]
  have hz : (offset.natAbs).div (Int.natAbs 60) = offset.natAbs / 60 := rfl
  rw [hz, appendInt_two _ (by omega), appendInt_two _ (by omega)]
  rfl

theorem digitChar_ne_Z (d : Nat) (h : d < 10) : digitChar d ≠ 'Z' := by
  interval_cases d <;> decide

/-- Time.appendStrictRFC3339 accepts a Time whose year has four digits and
whose zone offset is less than a day. -/
theorem appendStrictRFC3339_ok (t : Time) (hy₀ : 0 ≤ t.year) (hy₁ : t.year ≤ 9999)
    (ho₀ : -86400 < t.offset) (ho₁ : t.offset < 86400) :
    appendStrictRFC3339 t = .ok (appendFormatRFC3339 t) := by
  have h4 : (appendFormatRFC3339 t).get? 4 = some '-' := by
    unfold appendFormatRFC3339
    rw [appendInt_four t.year hy₀ hy₁]
    rfl
  have hz : zoneHourOutOfRange (appendFormatRFC3339 t).reverse = false := by
    unfold appendFormatRFC3339
    simp only [List.reverse_append, List.reverse_cons, List.append_assoc]
    by_cases h0 : t.offset = 0
    · rw [h0, show appendZone 0 = ['Z'] from rfl]
      simp only [List.reverse_cons, List.reverse_nil, List.nil_append, List.singleton_append,
        zoneHourOutOfRange]
    · rw [appendZone_nonzero t.offset h0 ho₀ ho₁]
      simp only [List.reverse_cons, List.reverse_nil, List.nil_append, List.cons_append,
        List.singleton_append]
      have hne := digitChar_ne_Z (t.offset.natAbs / 60 % 60 % 10) (by omega)
      have hsign : isDigit (if Int.tdiv t.offset 60 < 0 then '-' else '+') = false := by
        split_ifs <;> rfl
      have hlt : ¬ (24 ≤ 10 * (t.offset.natAbs / 60 / 60 / 10) +
          t.offset.natAbs / 60 / 60 % 10) := by omega
      simp only [zoneHourOutOfRange, hne, digitVal_digitChar _
        (show t.offset.natAbs / 60 / 60 / 10 < 10 by omega), digitVal_digitChar _
        (show t.offset.natAbs / 60 / 60 % 10 < 10 by omega), hsign, hlt, Bool.false_or,
        decide_False]
  unfold appendStrictRFC3339
  simp only [h4, hz]
  rfl

end time

namespace time

/-! The text of a Time needs no escaping. -/

theorem escapeChar_digit (c : Char) (h : isDigit c = true) : json.escapeChar c = [c] := by
  simp only [isDigit, Bool.and_eq_true, decide_eq_true_eq] at h
  have hne : ∀ d : Char, ¬ (48 ≤ d.toNat ∧ d.toNat ≤ 57) → c ≠ d := by
    intro d hd hcd
    rw [hcd] at h
    exact hd h
  unfold json.escapeChar
  rw [if_neg (by
      intro h'
      rcases h' with h' | h'
      · exact hne _ (by decide) h'
      · exact hne _ (by decide) h'),
    if_neg (by omega), if_neg (by omega), if_neg (by omega), if_neg (by omega),
    if_neg (by omega),
    if_neg (by
      intro h'
      rcases h' with h' | h' | h' | h'
      · omega
      · exact hne _ (by decide) h'
      · exact hne _ (by decide) h'
      · exact hne _ (by decide) h'),
    if_neg (by omega)]

theorem escapeChar_timeChar (c : Char) (h : timeChar c) : json.escapeChar c = [c] := by
  rcases h with h | h | h | h | h | h | h
  · exact escapeChar_digit c h
  all_goals
    rw [h]
    rfl

theorem appendString_plain (l : List Char) (h : ∀ c ∈ l, json.escapeChar c = [c]) :
    json.appendString l = l := by
  induction l with
  | nil => rfl
  | cons c cs ih =>
    rw [json.appendString, h c (List.mem_cons_self _ _),
      ih (fun d hd => h d (List.mem_cons_of_mem _ hd))]
    rfl

theorem isDigit_of_mem_formatNat (n : Nat) (c : Char) (h : c ∈ formatNat n) :
    isDigit c = true := by
  have := all_isDigit_formatNat n
  rw [List.all_eq_true] at this
  exact this c h

theorem appendInt_chars (x : Int) (w : Nat) (c : Char) (h : c ∈ appendInt x w) : timeChar c := by
  have hd : ∀ k, k < 10 → timeChar (digitChar k) := fun k hk => Or.inl (isDigit_digitChar k hk)
  have hm : timeChar '-' := Or.inr (Or.inl rfl)
  have hz : timeChar '0' := Or.inl rfl
  have hf : ∀ d ∈ formatNat x.natAbs, timeChar d :=
    fun d hd' => Or.inl (isDigit_of_mem_formatNat _ d hd')
  unfold appendInt at h
  simp only at h
  by_cases hx : x < 0
  · simp only [hx, if_true] at h
    split_ifs at h with h1 h2
    · simp only [List.mem_append, List.mem_cons, List.mem_singleton, List.not_mem_nil,
        or_false] at h
      rcases h with h | h | h <;> rw [h]
      · exact hm
      · exact hd _ (by omega)
      · exact hd _ (by omega)
    · simp only [List.mem_append, List.mem_cons, List.mem_singleton, List.not_mem_nil,
        or_false] at h
      rcases h with h | h | h | h | h <;> rw [h]
      · exact hm
      · exact hd _ (by omega)
      · exact hd _ (by omega)
      · exact hd _ (by omega)
      · exact hd _ (by omega)
    · simp only [List.mem_append, List.mem_cons, List.mem_singleton, List.not_mem_nil,
        or_false, List.mem_replicate] at h
      rcases h with (h | h) | h
      · rw [h]; exact hm
      · rw [h.2]; exact hz
      · exact hf c h
  · simp only [hx, if_false, List.nil_append] at h
    split_ifs at h with h1 h2
    · simp only [List.mem_cons, List.mem_singleton, List.not_mem_nil, or_false] at h
      rcases h with h | h <;> rw [h]
      · exact hd _ (by omega)
      · exact hd _ (by omega)
    · simp only [List.mem_cons, List.mem_singleton, List.not_mem_nil, or_false] at h
      rcases h with h | h | h | h <;> rw [h]
      · exact hd _ (by omega)
      · exact hd _ (by omega)
      · exact hd _ (by omega)
      · exact hd _ (by omega)
    · simp only [List.mem_append, List.mem_replicate] at h
      rcases h with h | h
      · rw [h.2]; exact hz
      · exact hf c h

theorem mem_of_mem_trimZeros (l : List Char) (c : Char) (h : c ∈ trimZeros l) : c ∈ l := by
  induction l with
  | nil => simp [trimZeros] at h
  | cons x xs ih =>
    rw [trimZeros] at h
    split at h
    · split_ifs at h
      · simp at h
      · simp only [List.mem_singleton] at h
        rw [h]
        exact List.mem_cons_self _ _
    · rename_i r rs heq
      rcases List.mem_cons.mp h with h | h
      · rw [h]
        exact List.mem_cons_self _ _
      · exact List.mem_cons_of_mem _ (ih (by rw [heq]; exact h))

theorem appendNano_chars (n : Nat) (c : Char) (h : c ∈ appendNano n) : timeChar c := by
  unfold appendNano at h
  split_ifs at h
  · simp at h
  · rcases List.mem_cons.mp h with h | h
    · rw [h]
      exact Or.inr (Or.inr (Or.inr (Or.inr (Or.inl rfl))))
    · exact appendInt_chars _ _ c (mem_of_mem_trimZeros _ c h)

theorem appendZone_chars (offset : Int) (c : Char) (h : c ∈ appendZone offset) : timeChar c := by
  unfold appendZone at h
  split_ifs at h
  · simp only [List.mem_singleton] at h
    rw [h]
    exact Or.inr (Or.inr (Or.inr (Or.inr (Or.inr (Or.inl rfl)))))
  · simp only at h
    rcases List.mem_cons.mp h with h | h
    · rw [h]
      split_ifs
      · exact Or.inr (Or.inl rfl)
      · exact Or.inr (Or.inr (Or.inr (Or.inr (Or.inr (Or.inr rfl)))))
    · rcases List.mem_append.mp h with h | h
      · exact appendInt_chars _ _ c h
      · rcases List.mem_cons.mp h with h | h
        · rw [h]
          exact Or.inr (Or.inr (Or.inr (Or.inl rfl)))
        · exact appendInt_chars _ _ c h

theorem appendFormatRFC3339_chars (t : Time) (c : Char) (h : c ∈ appendFormatRFC3339 t) :
    timeChar c := by
  unfold appendFormatRFC3339 at h
  simp only [List.mem_append, List.mem_cons] at h
  rcases h with h | h | h | h | h | h | h | h | h | h | h | h | h
  · exact appendInt_chars _ _ c h
  · rw [h]; exact Or.inr (Or.inl rfl)
  · exact appendInt_chars _ _ c h
  · rw [h]; exact Or.inr (Or.inl rfl)
  · exact appendInt_chars _ _ c h
  · rw [h]; exact Or.inr (Or.inr (Or.inl rfl))
  · exact appendInt_chars _ _ c h
  · rw [h]; exact Or.inr (Or.inr (Or.inr (Or.inl rfl)))
  · exact appendInt_chars _ _ c h
  · rw [h]; exact Or.inr (Or.inr (Or.inr (Or.inl rfl)))
  · exact appendInt_chars _ _ c h
  · exact appendNano_chars _ c h
  · exact appendZone_chars _ c h

/-- The text of a Time is the raw text of the string literal that holds it. -/
theorem appendString_timeText (t : Time) :
    json.appendString (appendFormatRFC3339 t) = appendFormatRFC3339 t :=
  appendString_plain _ (fun c hc => escapeChar_timeChar c (appendFormatRFC3339_chars t c hc))

end time

namespace time

/-! Reading the RFC 3339 text of a Time back. -/

theorem trimZeros_spec (l : List Char) : ∃ k, l = trimZeros l ++ List.replicate k '0' := by
  induction l with
  | nil => exact ⟨0, rfl⟩
  | cons x xs ih =>
    obtain ⟨k, hk⟩ := ih
    rw [trimZeros]
    split
    · rename_i heq
      rw [heq, List.nil_append] at hk
      split_ifs with hx
      · exact ⟨k + 1, by rw [hx, hk]; rfl⟩
      · exact ⟨k, by rw [hk]; rfl⟩
    · rename_i r rs heq
      refine ⟨k, ?_⟩
      rw [← heq, List.cons_append, ← hk]

theorem takeWhile_digits (ds z : List Char) (hds : ds.all isDigit = true)
    (hz : ∀ c cs, z = c :: cs → isDigit c = false) :
    (ds ++ z).takeWhile isDigit = ds ∧ (ds ++ z).dropWhile isDigit = z := by
  induction ds with
  | nil =>
    cases z with
    | nil => exact ⟨rfl, rfl⟩
    | cons c cs =>
      have := hz c cs rfl
      simp [List.takeWhile, List.dropWhile, this]
  | cons d ds ih =>
    simp only [List.all_cons, Bool.and_eq_true] at hds
    obtain ⟨h1, h2⟩ := ih hds.2
    simp only [List.cons_append, List.takeWhile, List.dropWhile, hds.1, h1, h2, and_self,
      List.append_eq]

theorem appendInt_nine_spec (n : Nat) (h : n < 1000000000) :
    (appendInt (n : Int) 9).length = 9 ∧ (appendInt (n : Int) 9).all isDigit = true ∧
      parseDigits (appendInt (n : Int) 9) = n := by
  have hlen := formatNat_length 8 n (by simpa using h)
  rw [appendInt_nine]
  refine ⟨?_, ?_, ?_⟩
  · rw [List.length_append, List.length_replicate]
    omega
  · rw [List.all_append, all_isDigit_formatNat]
    simp only [Bool.and_true, List.all_eq_true]
    intro c hc
    rw [(List.mem_replicate.mp hc).2]
    rfl
  · rw [parseDigits_append, parseDigits_zeros, parseDigits_formatNat]
    omega

theorem parseFraction_appendNano (n : Nat) (h : n < 1000000000) (z : List Char)
    (hz : ∃ c cs, z = c :: cs ∧ isDigit c = false ∧ c ≠ '.') :
    parseFraction (appendNano n ++ z) = (n, z) := by
  obtain ⟨c, cs, hzc, hcd, hcdot⟩ := hz
  unfold appendNano
  split_ifs with h0
  · rw [List.nil_append, hzc]
    unfold parseFraction
    split
    · rename_i heq
      simp only [List.cons.injEq] at heq
      exact absurd heq.1 hcdot
    · rw [h0]
  · obtain ⟨hlen, hall, hval⟩ := appendInt_nine_spec n h
    obtain ⟨k, hk⟩ := trimZeros_spec (appendInt (n : Int) 9)
    have hTall : (trimZeros (appendInt (n : Int) 9)).all isDigit = true := by
      rw [List.all_eq_true]
      intro d hd
      rw [List.all_eq_true] at hall
      exact hall d (mem_of_mem_trimZeros _ d hd)
    have hTlen : (trimZeros (appendInt (n : Int) 9)).length + k = 9 := by
      have := congrArg List.length hk
      rw [List.length_append, List.length_replicate, hlen] at this
      omega
    have hTval : parseDigits (trimZeros (appendInt (n : Int) 9)) * 10 ^ k = n := by
      have := congrArg parseDigits hk
      rw [parseDigits_append, parseDigits_zeros, List.length_replicate, hval] at this
      omega
    cases hT : trimZeros (appendInt (n : Int) 9) with
    | nil =>
      rw [hT] at hTval
      simp [parseDigits] at hTval
      omega
    | cons d ds =>
      rw [hT] at hTall hTlen hTval
      simp only [List.all_cons, Bool.and_eq_true] at hTall
      obtain ⟨h1, h2⟩ := takeWhile_digits ds z hTall.2 (by
        intro c' cs' h'
        rw [hzc] at h'
        simp only [List.cons.injEq] at h'
        rw [← h'.1]
        exact hcd)
      simp only [List.cons_append]
      unfold parseFraction
      simp only [hTall.1, if_true, h1, h2]
      unfold parseNanoseconds
      have htake : (d :: ds).take 9 = d :: ds := List.take_of_length_le (by omega)
      rw [htake]
      have : 9 - (d :: ds).length = k := by omega
      rw [this, hTval]

theorem parseZone_appendZone (offset : Int) (h₀ : -86400 < offset) (h₁ : offset < 86400)
    (hm : offset % 60 = 0) :
    parseZone (appendZone offset) = some (offset, decide (offset = 0)) := by
  by_cases h : offset = 0
  · rw [h]
    rfl
  · rw [appendZone_nonzero offset h h₀ h₁]
    have hdvd : (60 : Int) ∣ offset := Int.dvd_of_emod_eq_zero hm
    have hsign : Int.tdiv offset 60 < 0 ↔ offset < 0 := by
      rw [Int.tdiv_eq_ediv_of_dvd hdvd]
      omega
    have hhr := parseUint_pair (offset.natAbs / 60 / 60) 0 23 (by omega) (by omega) (by omega)
    have hmm := parseUint_pair (offset.natAbs / 60 % 60) 0 59 (by omega) (by omega) (by omega)
    unfold parseZone
    simp only [hhr, hmm]
    by_cases hneg : offset < 0
    · simp only [hsign.mpr hneg, if_true, true_or, and_self, decide_eq_true_eq, h,
        decide_False]
      congr 2
      omega
    · have hnn : ¬ Int.tdiv offset 60 < 0 := fun h' => hneg (hsign.mp h')
      simp only [hnn, if_false, or_true, and_self, if_true, h, decide_False,
        show ¬ (('+' : Char) = '-') by decide]
      congr 2
      omega

/-- The fast path of the parser reads the text of a Time in wire form back
to that Time. -/
theorem parseRFC3339_format (localOffset : Time → Int) (t : Time)
    (h : t.onWire localOffset = true) :
    parseRFC3339 localOffset (appendFormatRFC3339 t) = some t := by
  simp only [Time.onWire, Time.valid, Bool.and_eq_true, decide_eq_true_eq] at h
  obtain ⟨⟨⟨⟨⟨⟨⟨⟨⟨⟨⟨hmo1, hmo2⟩, hd1⟩, hd2⟩, hh⟩, hmi⟩, hs⟩, hns⟩, hmono⟩, hy0⟩, hy1⟩, hzone⟩ := h
  have hdays : daysIn t.month t.year ≤ 31 := by
    unfold daysIn
    split_ifs <;> omega
  have hyear : ((t.year.natAbs : Nat) : Int) = t.year := by omega
  have hoff : -86400 < t.offset ∧ t.offset < 86400 ∧ t.offset % 60 = 0 := by
    by_cases h0 : t.offset = 0
    · rw [h0]
      decide
    · rw [if_neg h0] at hzone
      simp only [Bool.and_eq_true, decide_eq_true_eq] at hzone
      exact ⟨hzone.1.1.2, hzone.1.2, hzone.1.1.1⟩
  have hzlead : ∃ c cs, appendZone t.offset = c :: cs ∧ isDigit c = false ∧ c ≠ '.' := by
    by_cases h0 : t.offset = 0
    · rw [h0]
      exact ⟨'Z', [], rfl, rfl, by decide⟩
    · rw [appendZone_nonzero t.offset h0 hoff.1 hoff.2.1]
      refine ⟨_, _, rfl, ?_, ?_⟩ <;> split_ifs <;> decide
  have hfrac := parseFraction_appendNano t.nanosecond hns (appendZone t.offset) hzlead
  have hz := parseZone_appendZone t.offset hoff.1 hoff.2.1 hoff.2.2
  unfold appendFormatRFC3339
  rw [appendInt_four t.year hy0 hy1, appendInt_two t.month (by omega),
    appendInt_two t.day (by omega), appendInt_two t.hour (by omega),
    appendInt_two t.minute (by omega), appendInt_two t.second (by omega)]
  simp only [List.cons_append, List.nil_append]
  unfold parseRFC3339
  simp only [parseUint_four t.year.natAbs (by omega), parseUint_pair t.month 1 12 (by omega) hmo1 hmo2,
    hyear, parseUint_pair t.day 1 (daysIn t.month t.year) (by omega) hd1 hd2,
    parseUint_pair t.hour 0 23 (by omega) (by omega) (by omega),
    parseUint_pair t.minute 0 59 (by omega) (by omega) (by omega),
    parseUint_pair t.second 0 59 (by omega) (by omega) (by omega), and_self, if_true, hfrac, hz]
  by_cases h0 : t.offset = 0
  · rw [if_pos h0] at hzone
    simp only [decide_eq_true_eq] at hzone
    simp only [h0, decide_True, if_true]
    congr 1
    cases t
    simp_all
  · rw [if_neg h0] at hzone
    simp only [Bool.and_eq_true, decide_eq_true_eq] at hzone
    have hloc := hzone.2
    unfold parsedLocation at hloc
    simp only [h0, decide_False, Bool.false_eq_true, if_false]
    split_ifs with hl
    · rw [if_pos hl] at hloc
      congr 1
      cases t
      simp only at hmono hloc
      rw [hmono, hloc]
    · rw [if_neg hl] at hloc
      congr 1
      cases t
      simp only at hmono hloc
      rw [hmono, hloc]

end time

namespace json

/-! A Task in wire form survives encoding and decoding. -/

/-- The encoding of the config field, with what the parser and the decoder
need to know about it. -/
theorem encodeMap_onWire (rt : Runtime)
    (config : Option (List (List Char × GoValue)))
    (h : (match config with
      | none => true
      | some entries =>
        (GoValue.map entries).normal rt &&
          decide ((GoValue.map entries).depth + 1 ≤ maxNestingDepth)) = true) :
    ∃ v, encodeMap rt config = .ok v ∧ v.printable ∧ v.depth + 1 ≤ maxNestingDepth ∧
      ∀ st : DecodeState, st.task.Config = none → st.saved = none →
        decodeField rt .config v st = { st with task := { st.task with Config := config } } := by
  cases config with
  | none =>
    refine ⟨.null, rfl, trivial, by decide, ?_⟩
    intro st _ _
    rfl
  | some entries =>
    simp only [Bool.and_eq_true, decide_eq_true_eq, GoValue.normal] at h
    obtain ⟨⟨hsorted, hnormal⟩, hdepth⟩ := h
    obtain ⟨ms, h1, h2, h3, h4⟩ := encodeEntries_normal rt entries hnormal
    have hs : sortByKey (encodeEntries rt entries) = encodeEntries rt entries :=
      sortByKey_of_sortedKeys _ (by rw [sortedKeys_encodeEntries]; exact hsorted)
    refine ⟨.object ms, ?_, h2, ?_, ?_⟩
    · simp only [encodeMap, encodeValue, hs, h1]
    · simp only [Value.depth, h3]
      simp only [GoValue.depth] at hdepth
      exact hdepth
    · intro st hc hsaved
      have := h4 [] none (ascending_of_sortedKeys _ hsorted)
        (fun x hx => absurd hx (List.not_mem_nil x))
      simp only [decodeField, hc, hsaved, Option.getD_none, this, List.nil_append]

theorem unquote_id : unquote "id".toList = some "id".toList := by decide
theorem unquote_agent_id : unquote "agent_id".toList = some "agent_id".toList := by decide
theorem unquote_type : unquote "type".toList = some "type".toList := by decide
theorem unquote_input : unquote "input".toList = some "input".toList := by decide
theorem unquote_config : unquote "config".toList = some "config".toList := by decide
theorem unquote_priority : unquote "priority".toList = some "priority".toList := by decide
theorem unquote_created_at : unquote "created_at".toList = some "created_at".toList := by decide

theorem lookupField_id : lookupField "id".toList = some .id := by decide
theorem lookupField_agent_id : lookupField "agent_id".toList = some .agentID := by decide
theorem lookupField_type : lookupField "type".toList = some .type_ := by decide
theorem lookupField_input : lookupField "input".toList = some .input := by decide
theorem lookupField_config : lookupField "config".toList = some .config := by decide
theorem lookupField_priority : lookupField "priority".toList = some .priority := by decide
theorem lookupField_created_at : lookupField "created_at".toList = some .createdAt := by decide

theorem tag_plain (f : Field) : ∃ s, f.name = appendString s := by
  cases f
  · exact ⟨"id".toList, by decide⟩
  · exact ⟨"agent_id".toList, by decide⟩
  · exact ⟨"type".toList, by decide⟩
  · exact ⟨"input".toList, by decide⟩
  · exact ⟨"config".toList, by decide⟩
  · exact ⟨"priority".toList, by decide⟩
  · exact ⟨"created_at".toList, by decide⟩

theorem decodeMembers_step (rt : Runtime) (k key : List Char) (f : Field) (v : Value)
    (rest : List (List Char × Value)) (st : DecodeState) (hfatal : st.fatal = none)
    (hk : unquote k = some key) (hl : lookupField key = some f) :
    decodeMembers rt ((k, v) :: rest) st = decodeMembers rt rest (decodeField rt f v st) := by
  rw [decodeMembers]
  simp only [hfatal, hk, hl]

theorem decodeField_id (rt : Runtime) (s : List Char) (st : DecodeState) :
    decodeField rt .id (.string (appendString s)) st =
      { st with task := { st.task with ID := s } } := by
  simp only [decodeField, storeString, unquote_appendString]

theorem decodeField_agentID (rt : Runtime) (s : List Char) (st : DecodeState) :
    decodeField rt .agentID (.string (appendString s)) st =
      { st with task := { st.task with AgentID := s } } := by
  simp only [decodeField, storeString, unquote_appendString]

theorem decodeField_type (rt : Runtime) (s : List Char) (st : DecodeState) :
    decodeField rt .type_ (.string (appendString s)) st =
      { st with task := { st.task with TaskType := s } } := by
  simp only [decodeField, storeString, unquote_appendString]

theorem decodeField_input (rt : Runtime) (s : List Char) (st : DecodeState) :
    decodeField rt .input (.string (appendString s)) st =
      { st with task := { st.task with Input := s } } := by
  simp only [decodeField, storeString, unquote_appendString]

theorem decodeField_priority (rt : Runtime) (p : Int) (st : DecodeState)
    (hp₀ : -9223372036854775808 ≤ p) (hp₁ : p ≤ 9223372036854775807) :
    decodeField rt .priority (.number (formatInt p)) st =
      { st with task := { st.task with Priority := p } } := by
  simp only [decodeField, parseInt64_formatInt p hp₀ hp₁]

theorem decodeField_createdAt (rt : Runtime) (tm : time.Time) (st : DecodeState)
    (h : tm.onWire rt.localOffset = true) :
    decodeField rt .createdAt (.string (time.appendFormatRFC3339 tm)) st =
      { st with task := { st.task with CreatedAt := tm } } := by
  have hparse : time.parseStrictRFC3339 rt (time.appendFormatRFC3339 tm) = .ok tm := by
    unfold time.parseStrictRFC3339
    rw [time.parseRFC3339_format rt.localOffset tm h]
  simp only [decodeField, hparse]

/-- Decoding the members written for a Task in wire form into the zero Task
gives the Task back, without error. -/
theorem decodeMembers_encoded (rt : Runtime) (t : Task) (cfg : Value)
    (hp₀ : -9223372036854775808 ≤ t.Priority) (hp₁ : t.Priority ≤ 9223372036854775807)
    (hcfg : ∀ st : DecodeState, st.task.Config = none → st.saved = none →
      decodeField rt .config cfg st = { st with task := { st.task with Config := t.Config } })
    (htime : t.CreatedAt.onWire rt.localOffset = true) :
    decodeMembers rt
      [ ("id".toList, .string (appendString t.ID)),
        ("agent_id".toList, .string (appendString t.AgentID)),
        ("type".toList, .string (appendString t.TaskType)),
        ("input".toList, .string (appendString t.Input)),
        ("config".toList, cfg),
        ("priority".toList, .number (formatInt t.Priority)),
        ("created_at".toList, .string (time.appendFormatRFC3339 t.CreatedAt)) ]
      { task := Task.zero, saved := none, fatal := none } =
      { task := t, saved := none, fatal := none } := by
  rw [decodeMembers_step rt _ _ _ _ _ _ rfl unquote_id lookupField_id, decodeField_id,
    decodeMembers_step rt _ _ _ _ _ _ rfl unquote_agent_id lookupField_agent_id,
    decodeField_agentID,
    decodeMembers_step rt _ _ _ _ _ _ rfl unquote_type lookupField_type, decodeField_type,
    decodeMembers_step rt _ _ _ _ _ _ rfl unquote_input lookupField_input, decodeField_input,
    decodeMembers_step rt _ _ _ _ _ _ rfl unquote_config lookupField_config,
    hcfg _ rfl rfl,
    decodeMembers_step rt _ _ _ _ _ _ rfl unquote_priority lookupField_priority,
    decodeField_priority rt _ _ hp₀ hp₁,
    decodeMembers_step rt _ _ _ _ _ _ rfl unquote_created_at lookupField_created_at,
    decodeField_createdAt rt _ _ htime, decodeMembers]

end json

namespace json

/-! Representable values always encode, and the listing order of a map does
not show in the encoding. -/

theorem insertByKey_perm {α : Type} (e : List Char × α) (l : List (List Char × α)) :
    (insertByKey e l).Perm (e :: l) := by
  induction l with
  | nil => exact List.Perm.refl _
  | cons x xs ih =>
    rw [insertByKey]
    split_ifs
    · exact List.Perm.refl _
    · exact (List.Perm.cons x ih).trans (List.Perm.swap e x xs)

theorem sortByKey_perm {α : Type} (l : List (List Char × α)) : (sortByKey l).Perm l := by
  induction l with
  | nil => exact List.Perm.refl _
  | cons x xs ih =>
    rw [sortByKey]
    exact (insertByKey_perm x _).trans (List.Perm.cons x ih)

theorem sequenceMembers_ok (l : List (List Char × Except Error Value))
    (h : ∀ x ∈ l, ∃ v, x.2 = .ok v) : ∃ ms, sequenceMembers l = .ok ms := by
  induction l with
  | nil => exact ⟨[], rfl⟩
  | cons x xs ih =>
    obtain ⟨k, r⟩ := x
    obtain ⟨v, hv⟩ := h (k, r) (List.mem_cons_self _ _)
    simp only at hv
    subst hv
    obtain ⟨ms, hms⟩ := ih (fun y hy => h y (List.mem_cons_of_mem _ hy))
    exact ⟨(appendString k, v) :: ms, by simp only [sequenceMembers, hms]⟩

mutual
theorem encodeValue_representable (rt : Runtime) : ∀ g : GoValue, g.representable = true →
    ∃ v, encodeValue rt g = .ok v
  | .nil, _ => ⟨_, rfl⟩
  | .bool _, _ => ⟨_, rfl⟩
  | .int _, _ => ⟨_, rfl⟩
  | .float64 x, h => by
    simp only [GoValue.representable] at h
    exact ⟨.number (rt.formatFloat x), by simp only [encodeValue, h, if_true]⟩
  | .string _, _ => ⟨_, rfl⟩
  | .slice elems, h => by
    simp only [GoValue.representable] at h
    obtain ⟨vs, hvs⟩ := encodeElems_representable rt elems h
    exact ⟨.array vs, by simp only [encodeValue, hvs]⟩
  | .map entries, h => by
    simp only [GoValue.representable] at h
    have hall := encodeEntries_representable rt entries h
    obtain ⟨ms, hms⟩ := sequenceMembers_ok (sortByKey (encodeEntries rt entries))
      (fun x hx => hall x ((sortByKey_perm _).mem_iff.mp hx))
    exact ⟨.object ms, by simp only [encodeValue, hms]⟩
  | .chan, h => by simp [GoValue.representable] at h
theorem encodeElems_representable (rt : Runtime) : ∀ gs : List GoValue,
    GoValue.representableElems gs = true → ∃ vs, encodeElems rt gs = .ok vs
  | [], _ => ⟨[], rfl⟩
  | g :: gs, h => by
    simp only [GoValue.representableElems, Bool.and_eq_true] at h
    obtain ⟨v, hv⟩ := encodeValue_representable rt g h.1
    obtain ⟨vs, hvs⟩ := encodeElems_representable rt gs h.2
    exact ⟨v :: vs, by simp only [encodeElems, hv, hvs]⟩
theorem encodeEntries_representable (rt : Runtime) : ∀ es : List (List Char × GoValue),
    GoValue.representableEntries es = true →
    ∀ x ∈ encodeEntries rt es, ∃ v, x.2 = .ok v
  | [], _ => by
    intro x hx
    simp [encodeEntries] at hx
  | (k, g) :: es, h => by
    simp only [GoValue.representableEntries, Bool.and_eq_true] at h
    obtain ⟨v, hv⟩ := encodeValue_representable rt g h.1
    intro x hx
    simp only [encodeEntries, List.mem_cons] at hx
    rcases hx with hx | hx
    · rw [hx]
      exact ⟨v, hv⟩
    · exact encodeEntries_representable rt es h.2 x hx
end

theorem encodeEntries_eq_map (rt : Runtime) (es : List (List Char × GoValue)) :
    encodeEntries rt es = es.map (fun e => (e.1, encodeValue rt e.2)) := by
  induction es with
  | nil => rfl
  | cons e rest ih =>
    obtain ⟨k, v⟩ := e
    simp only [encodeEntries, List.map_cons, ih]

theorem mem_insertByKey {α : Type} (e x : List Char × α) (l : List (List Char × α)) :
    x ∈ insertByKey e l ↔ x = e ∨ x ∈ l := by
  rw [(insertByKey_perm e l).mem_iff, List.mem_cons]

theorem ascending_insertByKey {α : Type} (e : List Char × α) (l : List (List Char × α))
    (hl : Ascending l) (hne : ∀ x ∈ l, x.1 ≠ e.1) : Ascending (insertByKey e l) := by
  induction l with
  | nil => exact List.pairwise_singleton _ _
  | cons x xs ih =>
    unfold Ascending at hl ⊢
    rw [List.pairwise_cons] at hl
    rw [insertByKey]
    split_ifs with hlt
    · rw [List.pairwise_cons]
      refine ⟨?_, List.pairwise_cons.mpr hl⟩
      intro y hy
      rcases List.mem_cons.mp hy with hy | hy
      · rw [hy]
        exact hlt
      · exact keyLt_trans _ _ _ hlt (hl.1 y hy)
    · have hxe : keyLt x.1 e.1 = true := by
        by_contra hcontra
        have h1 : keyLt e.1 x.1 = false := by simpa using hlt
        have h2 : keyLt x.1 e.1 = false := by simpa using hcontra
        exact hne x (List.mem_cons_self _ _) (keyLt_total _ _ h1 h2).symm
      rw [List.pairwise_cons]
      refine ⟨?_, ih hl.2 (fun y hy => hne y (List.mem_cons_of_mem _ hy))⟩
      intro y hy
      rcases (mem_insertByKey e y xs).mp hy with hy | hy
      · rw [hy]
        exact hxe
      · exact hl.1 y hy

theorem ascending_sortByKey {α : Type} (l : List (List Char × α))
    (h : (l.map Prod.fst).Nodup) : Ascending (sortByKey l) := by
  induction l with
  | nil => exact List.Pairwise.nil
  | cons x xs ih =>
    rw [List.map_cons, List.nodup_cons] at h
    rw [sortByKey]
    refine ascending_insertByKey x _ (ih h.2) ?_
    intro y hy hxy
    have hy' := (sortByKey_perm xs).mem_iff.mp hy
    exact h.1 (by rw [← hxy]; exact List.mem_map_of_mem Prod.fst hy')

/-- Two listings of the same map are sorted into the same list. -/
theorem sortByKey_eq_of_perm {α : Type} (l₁ l₂ : List (List Char × α)) (hp : l₁.Perm l₂)
    (h : (l₁.map Prod.fst).Nodup) : sortByKey l₁ = sortByKey l₂ := by
  have h₂ : (l₂.map Prod.fst).Nodup := (hp.map Prod.fst).nodup_iff.mp h
  haveI : IsAntisymm (List Char × α) (fun a b => keyLt a.1 b.1 = true) :=
    ⟨fun a b hab hba => by
      rw [keyLt_asymm _ _ hab] at hba
      exact absurd hba (by simp)⟩
  exact List.eq_of_perm_of_sorted
    (((sortByKey_perm l₁).trans hp).trans (sortByKey_perm l₂).symm)
    (ascending_sortByKey l₁ h) (ascending_sortByKey l₂ h₂)

/-- The encoding of a map does not depend on the order its entries are
listed in. -/
theorem encodeValue_map_perm (rt : Runtime) (es es' : List (List Char × GoValue))
    (hp : es.Perm es') (h : (es.map Prod.fst).Nodup) :
    encodeValue rt (.map es') = encodeValue rt (.map es) := by
  have hk : ((encodeEntries rt es).map Prod.fst).Nodup := by
    rw [encodeEntries_eq_map, List.map_map]
    exact h
  have hperm : (encodeEntries rt es).Perm (encodeEntries rt es') := by
    rw [encodeEntries_eq_map, encodeEntries_eq_map]
    exact hp.map _
  simp only [encodeValue, sortByKey_eq_of_perm _ _ hperm hk]

end json

namespace json

/-! Once the decoder has recorded an error it returns one. -/

theorem saveError_ne_none (saved : Option Error) (e : Error) : saveError saved e ≠ none := by
  cases saved <;> simp [saveError]

mutual
theorem valueInterface_saved (rt : Runtime) : ∀ (v : Value) (saved : Option Error)
    (g : GoValue) (saved' : Option Error),
    valueInterface rt v saved = .ok (g, saved') → saved ≠ none → saved' ≠ none
  | .null, saved, g, saved', h, hs => by
    simp only [valueInterface, Except.ok.injEq, Prod.mk.injEq] at h
    rw [← h.2]
    exact hs
  | .bool b, saved, g, saved', h, hs => by
    simp only [valueInterface, Except.ok.injEq, Prod.mk.injEq] at h
    rw [← h.2]
    exact hs
  | .number lit, saved, g, saved', h, hs => by
    simp only [valueInterface] at h
    split at h
    · simp only [Except.ok.injEq, Prod.mk.injEq] at h
      rw [← h.2]
      exact hs
    · simp only [Except.ok.injEq, Prod.mk.injEq] at h
      rw [← h.2]
      exact saveError_ne_none _ _
  | .string raw, saved, g, saved', h, hs => by
    simp only [valueInterface] at h
    split at h
    · simp only [Except.ok.injEq, Prod.mk.injEq] at h
      rw [← h.2]
      exact hs
    · simp at h
  | .array elems, saved, g, saved', h, hs => by
    simp only [valueInterface] at h
    split at h
    · rename_i vs saved2 heq
      simp only [Except.ok.injEq, Prod.mk.injEq] at h
      rw [← h.2]
      exact arrayInterface_saved rt elems saved vs saved2 heq hs
    · simp at h
  | .object members, saved, g, saved', h, hs => by
    simp only [valueInterface] at h
    split at h
    · rename_i m saved2 heq
      simp only [Except.ok.injEq, Prod.mk.injEq] at h
      rw [← h.2]
      exact objectInterface_saved rt members [] saved m saved2 heq hs
    · simp at h
theorem arrayInterface_saved (rt : Runtime) : ∀ (vs : List Value) (saved : Option Error)
    (gs : List GoValue) (saved' : Option Error),
    arrayInterface rt vs saved = .ok (gs, saved') → saved ≠ none → saved' ≠ none
  | [], saved, gs, saved', h, hs => by
    simp only [arrayInterface, Except.ok.injEq, Prod.mk.injEq] at h
    rw [← h.2]
    exact hs
  | v :: vs, saved, gs, saved', h, hs => by
    simp only [arrayInterface] at h
    split at h
    · simp at h
    · rename_i g saved2 heq
      split at h
      · rename_i gs2 saved3 heq2
        simp only [Except.ok.injEq, Prod.mk.injEq] at h
        rw [← h.2]
        exact arrayInterface_saved rt vs saved2 gs2 saved3 heq2
          (valueInterface_saved rt v saved g saved2 heq hs)
      · simp at h
theorem objectInterface_saved (rt : Runtime) : ∀ (ms : List (List Char × Value))
    (acc : List (List Char × GoValue)) (saved : Option Error)
    (m : List (List Char × GoValue)) (saved' : Option Error),
    objectInterface rt ms acc saved = .ok (m, saved') → saved ≠ none → saved' ≠ none
  | [], acc, saved, m, saved', h, hs => by
    simp only [objectInterface, Except.ok.injEq, Prod.mk.injEq] at h
    rw [← h.2]
    exact hs
  | (k, v) :: rest, acc, saved, m, saved', h, hs => by
    simp only [objectInterface] at h
    split at h
    · simp at h
    · rename_i key hkey
      split at h
      · simp at h
      · rename_i g saved2 heq
        exact objectInterface_saved rt rest _ saved2 m saved' h
          (valueInterface_saved rt v saved g saved2 heq hs)
end

end json

namespace json

/-! Decoding never puts a value of type int into an interface. -/

theorem hasIntEntries_mapAssign (k : List Char) (v : GoValue) (m : List (List Char × GoValue))
    (hv : v.hasInt = false) (hm : GoValue.hasIntEntries m = false) :
    GoValue.hasIntEntries (mapAssign k v m) = false := by
  induction m with
  | nil => simp [mapAssign, GoValue.hasIntEntries, hv]
  | cons x xs ih =>
    obtain ⟨xk, xv⟩ := x
    simp only [GoValue.hasIntEntries, Bool.or_eq_false_iff] at hm
    rw [mapAssign]
    split_ifs
    · simp [GoValue.hasIntEntries, hv, hm.1, hm.2]
    · simp [GoValue.hasIntEntries, hm.1, ih hm.2]
    · simp [GoValue.hasIntEntries, hv, hm.2]

mutual
theorem valueInterface_noInt (rt : Runtime) : ∀ (v : Value) (saved : Option Error)
    (g : GoValue) (saved' : Option Error),
    valueInterface rt v saved = .ok (g, saved') → g.hasInt = false
  | .null, saved, g, saved', h => by
    simp only [valueInterface, Except.ok.injEq, Prod.mk.injEq] at h
    rw [← h.1]
    rfl
  | .bool b, saved, g, saved', h => by
    simp only [valueInterface, Except.ok.injEq, Prod.mk.injEq] at h
    rw [← h.1]
    rfl
  | .number lit, saved, g, saved', h => by
    simp only [valueInterface] at h
    split at h
    · simp only [Except.ok.injEq, Prod.mk.injEq] at h
      rw [← h.1]
      rfl
    · simp only [Except.ok.injEq, Prod.mk.injEq] at h
      rw [← h.1]
      rfl
  | .string raw, saved, g, saved', h => by
    simp only [valueInterface] at h
    split at h
    · simp only [Except.ok.injEq, Prod.mk.injEq] at h
      rw [← h.1]
      rfl
    · simp at h
  | .array elems, saved, g, saved', h => by
    simp only [valueInterface] at h
    split at h
    · rename_i vs saved2 heq
      simp only [Except.ok.injEq, Prod.mk.injEq] at h
      rw [← h.1]
      simp only [GoValue.hasInt]
      exact arrayInterface_noInt rt elems saved vs saved2 heq
    · simp at h
  | .object members, saved, g, saved', h => by
    simp only [valueInterface] at h
    split at h
    · rename_i m saved2 heq
      simp only [Except.ok.injEq, Prod.mk.injEq] at h
      rw [← h.1]
      simp only [GoValue.hasInt]
      exact objectInterface_noInt rt members [] saved m saved2 heq rfl
    · simp at h
theorem arrayInterface_noInt (rt : Runtime) : ∀ (vs : List Value) (saved : Option Error)
    (gs : List GoValue) (saved' : Option Error),
    arrayInterface rt vs saved = .ok (gs, saved') → GoValue.hasIntElems gs = false
  | [], saved, gs, saved', h => by
    simp only [arrayInterface, Except.ok.injEq, Prod.mk.injEq] at h
    rw [← h.1]
    rfl
  | v :: vs, saved, gs, saved', h => by
    simp only [arrayInterface] at h
    split at h
    · simp at h
    · rename_i g saved2 heq
      split at h
      · rename_i gs2 saved3 heq2
        simp only [Except.ok.injEq, Prod.mk.injEq] at h
        rw [← h.1]
        simp only [GoValue.hasIntElems, Bool.or_eq_false_iff]
        exact ⟨valueInterface_noInt rt v saved g saved2 heq,
          arrayInterface_noInt rt vs saved2 gs2 saved3 heq2⟩
      · simp at h
theorem objectInterface_noInt (rt : Runtime) : ∀ (ms : List (List Char × Value))
    (acc : List (List Char × GoValue)) (saved : Option Error)
    (m : List (List Char × GoValue)) (saved' : Option Error),
    objectInterface rt ms acc saved = .ok (m, saved') → GoValue.hasIntEntries acc = false →
    GoValue.hasIntEntries m = false
  | [], acc, saved, m, saved', h, hacc => by
    simp only [objectInterface, Except.ok.injEq, Prod.mk.injEq] at h
    rw [← h.1]
    exact hacc
  | (k, v) :: rest, acc, saved, m, saved', h, hacc => by
    simp only [objectInterface] at h
    split at h
    · simp at h
    · rename_i key hkey
      split at h
      · simp at h
      · rename_i g saved2 heq
        exact objectInterface_noInt rt rest _ saved2 m saved' h
          (hasIntEntries_mapAssign key g acc (valueInterface_noInt rt v saved g saved2 heq) hacc)
end

theorem storeString_config (f : Field) (set : List Char → Task) (v : Value) (st : DecodeState)
    (hset : ∀ s, (set s).Config = st.task.Config) :
    (storeString f set v st).task.Config = st.task.Config := by
  unfold storeString
  split
  · rfl
  · split
    · exact hset _
    · rfl
  · rfl

theorem storeString_noInt (f : Field) (set : List Char → Task) (v : Value) (st : DecodeState)
    (hset : ∀ s, (set s).Config = st.task.Config) (h : st.task.configHasInt = false) :
    (storeString f set v st).task.configHasInt = false := by
  unfold Task.configHasInt at h ⊢
  rw [storeString_config f set v st hset]
  exact h

theorem decodeField_noInt (rt : Runtime) (f : Field) (v : Value) (st : DecodeState)
    (h : st.task.configHasInt = false) : (decodeField rt f v st).task.configHasInt = false := by
  cases f
  · exact storeString_noInt _ _ v st (fun _ => rfl) h
  · exact storeString_noInt _ _ v st (fun _ => rfl) h
  · exact storeString_noInt _ _ v st (fun _ => rfl) h
  · exact storeString_noInt _ _ v st (fun _ => rfl) h
  · simp only [decodeField]
    split
    · rfl
    · split
      · rename_i m saved2 heq
        have hacc : GoValue.hasIntEntries (st.task.Config.getD []) = false := by
          unfold Task.configHasInt at h
          cases hc : st.task.Config with
          | none => rfl
          | some es =>
            rw [hc] at h
            exact h
        exact objectInterface_noInt rt _ _ _ m saved2 heq hacc
      · exact h
    · exact h
  · simp only [decodeField]
    split
    · exact h
    · split
      · exact h
      · exact h
    · exact h
  · simp only [decodeField]
    split
    · exact h
    · split
      · exact h
      · exact h
    · exact h

theorem decodeMembers_noInt (rt : Runtime) (ms : List (List Char × Value)) (st : DecodeState)
    (h : st.task.configHasInt = false) : (decodeMembers rt ms st).task.configHasInt = false := by
  induction ms generalizing st with
  | nil => exact h
  | cons m rest ih =>
    obtain ⟨k, v⟩ := m
    rw [decodeMembers]
    split
    · exact h
    · split
      · exact h
      · split
        · exact ih st h
        · exact ih _ (decodeField_noInt rt _ v st h)

/-- A Task filled by json.Unmarshal holds no value of type int in its config
map unless it held one before. -/
theorem unmarshal_noInt (rt : Runtime) (data : List Char) (task : Task)
    (h : task.configHasInt = false) : (Unmarshal rt data task).1.configHasInt = false := by
  unfold Unmarshal
  split
  · exact h
  · exact h
  · rename_i members hp
    have := decodeMembers_noInt rt members { task := task, saved := none, fatal := none } h
    simp only
    split
    · exact this
    · exact this
  · exact h

end json

/-! The encoding of a Task cut short. -/

namespace json

theorem renderMembers_last : ∀ ms : List (List Char × Value),
    ∃ init, renderMembers ms = init ++ [rbrace]
  | [] => ⟨[], rfl⟩
  | [(k, v)] => ⟨dquote :: (k ++ dquote :: ':' :: render v), by simp [renderMembers]⟩
  | (k, v) :: m :: ms => by
    obtain ⟨init, h⟩ := renderMembers_last (m :: ms)
    exact ⟨dquote :: (k ++ dquote :: ':' :: (render v ++ ',' :: init)),
      by simp [renderMembers, h]⟩

theorem skipSpace_suffix (p q init : List Char) (h : p ++ q = init ++ [rbrace])
    (hq : q ≠ []) : skipSpace q ≠ [] := by
  rcases List.eq_nil_or_concat q with hnil | ⟨q', c, hc⟩
  · exact absurd hnil hq
  · rw [hc, List.concat_eq_append] at h ⊢
    rw [← List.append_assoc] at h
    have hcc : c = rbrace := by
      have := List.append_inj_right' h rfl
      simpa using this
    subst hcc
    rcases skipSpace_append_cases q' [rbrace] with ⟨_, h2⟩ | ⟨_, h2⟩
    · rw [h2]
      exact fun hh => by cases hh
    · rw [h2]
      intro hh
      have := (List.append_eq_nil.1 hh).2
      cases this

end json

namespace json

/-- A well-formed JSON text of an object, cut before its end, is malformed:
what is left is not well-formed JSON. -/
theorem truncated_malformed (p q : List Char) (ms : List (List Char × Value))
    (h : WellFormed (p ++ q) (.object ms)) (hq : ¬ Blank q) : Malformed p := by
  rw [malformed_iff]
  exact malformed_of_truncated p q ms ((parse_iff _ _).2 h)
    (fun hs => hq ((skipSpace_eq_nil_iff q).1 hs))

end json

/-- The bytes written for a Task in wire form are the text of a JSON object
that the parser reads back. -/
theorem serializeTask_object (rt : Runtime) (t : Task)
    (h : t.onWire rt = true) :
    ∃ ms, SerializeTask rt t = .ok (json.render (.object ms)) ∧
      json.parse (json.render (.object ms)) = some (.object ms) := by
  simp only [Task.onWire, Bool.and_eq_true, decide_eq_true_eq] at h
  obtain ⟨⟨⟨hconfig, hp₀⟩, hp₁⟩, htime⟩ := h
  obtain ⟨cfg, hc1, hc2, hc3, hc4⟩ := json.encodeMap_onWire rt t.Config hconfig
  have htw := htime
  simp only [time.Time.onWire, Bool.and_eq_true, decide_eq_true_eq] at htw
  obtain ⟨⟨⟨⟨_, _⟩, hy0⟩, hy1⟩, hzone⟩ := htw
  have hoff : -86400 < t.CreatedAt.offset ∧ t.CreatedAt.offset < 86400 := by
    by_cases h0 : t.CreatedAt.offset = 0
    · rw [h0]
      decide
    · rw [if_neg h0] at hzone
      simp only [Bool.and_eq_true, decide_eq_true_eq] at hzone
      exact ⟨hzone.1.1.2, hzone.1.2⟩
  have henc : json.encodeTime t.CreatedAt =
      .ok (.string (time.appendFormatRFC3339 t.CreatedAt)) := by
    unfold json.encodeTime
    rw [time.appendStrictRFC3339_ok t.CreatedAt hy0 hy1 hoff.1 hoff.2]
  refine ⟨_, by unfold SerializeTask json.Marshal json.encodeTask; rw [hc1, henc],
    json.parse_render _ ?_ ?_⟩
  · simp only [json.Value.printable, json.printableMembers, and_true]
    exact ⟨json.tag_plain .id, ⟨_, rfl⟩, json.tag_plain .agentID, ⟨_, rfl⟩,
      json.tag_plain .type_, ⟨_, rfl⟩, json.tag_plain .input, ⟨_, rfl⟩,
      json.tag_plain .config, hc2, json.tag_plain .priority, json.scanNumberLit_formatInt _,
      json.tag_plain .createdAt, ⟨_, (time.appendString_timeText t.CreatedAt).symm⟩⟩
  · simp only [json.Value.depth, json.depthMembers]
    omega

/-- The bytes written for a Task in wire form, cut anywhere before their end,
are among the malformed inputs. -/
theorem serializeTask_truncated (rt : Runtime) (t : Task)
    (h : t.onWire rt = true) (p q : List Char) (hb : SerializeTask rt t = .ok (p ++ q))
    (hq : q ≠ []) : json.Malformed p := by
  rw [json.malformed_iff]
  obtain ⟨ms, hs, hparse⟩ := serializeTask_object rt t h
  rw [hs] at hb
  have hpq : json.render (.object ms) = p ++ q := by
    injection hb
  obtain ⟨init, hinit⟩ := json.renderMembers_last ms
  have hlast : p ++ q = (lbrace :: init) ++ [rbrace] := by
    rw [← hpq, json.render, hinit]
    rfl
  rw [hpq] at hparse
  exact json.malformed_of_truncated p q ms hparse (json.skipSpace_suffix p q _ hlast hq)

/-! Equal Go values are encoded alike. -/

mutual
theorem GoValue.same_refl : ∀ v : GoValue, v.same v
  | .nil => by simp only [GoValue.same]
  | .bool _ => by simp only [GoValue.same]
  | .int _ => by simp only [GoValue.same]
  | .float64 _ => by simp only [GoValue.same]
  | .string _ => by simp only [GoValue.same]
  | .slice xs => by
    simp only [GoValue.same]
    exact ⟨xs, rfl, GoValue.sameElems_refl xs⟩
  | .map es => by
    simp only [GoValue.same]
    exact ⟨es, es, rfl, GoValue.sameEntries_refl es, List.Perm.refl _⟩
  | .chan => by simp only [GoValue.same]
theorem GoValue.sameElems_refl : ∀ xs : List GoValue, GoValue.sameElems xs xs
  | [] => by simp only [GoValue.sameElems]
  | x :: xs => by
    simp only [GoValue.sameElems]
    exact ⟨x, xs, rfl, GoValue.same_refl x, GoValue.sameElems_refl xs⟩
theorem GoValue.sameEntries_refl : ∀ es : List (List Char × GoValue), GoValue.sameEntries es es
  | [] => by simp only [GoValue.sameEntries]
  | (k, v) :: rest => by
    simp only [GoValue.sameEntries]
    exact ⟨v, rest, rfl, GoValue.same_refl v, GoValue.sameEntries_refl rest⟩
end

theorem GoValue.sameEntries_keys : ∀ es es' : List (List Char × GoValue),
    GoValue.sameEntries es es' → es'.map Prod.fst = es.map Prod.fst
  | [], es', h => by
    simp only [GoValue.sameEntries] at h
    rw [h]
  | (k, v) :: rest, es', h => by
    simp only [GoValue.sameEntries] at h
    obtain ⟨w, rest', he, _, hr⟩ := h
    rw [he, List.map_cons, List.map_cons, GoValue.sameEntries_keys rest rest' hr]

namespace json

mutual
/-- The encoder writes the same for two interface values that hold the same Go
value. -/
theorem encodeValue_same (rt : Runtime) : ∀ v w : GoValue, v.keysDistinct = true →
    v.same w → encodeValue rt w = encodeValue rt v
  | .nil, w, _, h => by simp only [GoValue.same] at h; rw [h]
  | .bool _, w, _, h => by simp only [GoValue.same] at h; rw [h]
  | .int _, w, _, h => by simp only [GoValue.same] at h; rw [h]
  | .float64 _, w, _, h => by simp only [GoValue.same] at h; rw [h]
  | .string _, w, _, h => by simp only [GoValue.same] at h; rw [h]
  | .chan, w, _, h => by simp only [GoValue.same] at h; rw [h]
  | .slice xs, w, hk, h => by
    simp only [GoValue.same] at h
    obtain ⟨ys, hw, hs⟩ := h
    simp only [GoValue.keysDistinct] at hk
    rw [hw]
    simp only [encodeValue, encodeElems_same rt xs ys hk hs]
  | .map es, w, hk, h => by
    simp only [GoValue.same] at h
    obtain ⟨es₁, es₂, hw, hs, hp⟩ := h
    simp only [GoValue.keysDistinct, Bool.and_eq_true, decide_eq_true_eq] at hk
    have hkeys : (es₁.map Prod.fst).Nodup := by
      rw [GoValue.sameEntries_keys es es₁ hs]
      exact hk.1
    rw [hw, encodeValue_map_perm rt es₁ es₂ hp hkeys]
    simp only [encodeValue, encodeEntries_same rt es es₁ hk.2 hs]
theorem encodeElems_same (rt : Runtime) : ∀ xs ys : List GoValue,
    GoValue.keysDistinctElems xs = true → GoValue.sameElems xs ys →
    encodeElems rt ys = encodeElems rt xs
  | [], ys, _, h => by simp only [GoValue.sameElems] at h; rw [h]
  | x :: xs, ys, hk, h => by
    simp only [GoValue.sameElems] at h
    obtain ⟨y, ys', hy, hs, hr⟩ := h
    simp only [GoValue.keysDistinctElems, Bool.and_eq_true] at hk
    rw [hy]
    simp only [encodeElems, encodeValue_same rt x y hk.1 hs, encodeElems_same rt xs ys' hk.2 hr]
theorem encodeEntries_same (rt : Runtime) : ∀ es es' : List (List Char × GoValue),
    GoValue.keysDistinctEntries es = true → GoValue.sameEntries es es' →
    encodeEntries rt es' = encodeEntries rt es
  | [], es', _, h => by simp only [GoValue.sameEntries] at h; rw [h]
  | (k, v) :: rest, es', hk, h => by
    simp only [GoValue.sameEntries] at h
    obtain ⟨w, rest', he, hs, hr⟩ := h
    simp only [GoValue.keysDistinctEntries, Bool.and_eq_true] at hk
    rw [he]
    simp only [encodeEntries, encodeValue_same rt v w hk.1 hs,
      encodeEntries_same rt rest rest' hk.2 hr]
end

end json

/-- Tasks that are equal as Go values are encoded alike. -/
theorem serializeTask_same (rt : Runtime) (t u : Task) (hk : t.keysDistinct = true)
    (h : t.same u) : SerializeTask rt u = SerializeTask rt t := by
  obtain ⟨h1, h2, h3, h4, h5, h6, h7⟩ := h
  have hcfg : json.encodeMap rt u.Config = json.encodeMap rt t.Config := by
    cases ht : t.Config with
    | none =>
      cases hu : u.Config with
      | none => rfl
      | some es' => rw [ht, hu] at h7; exact absurd h7 (by simp)
    | some es =>
      cases hu : u.Config with
      | none => rw [ht, hu] at h7; exact absurd h7 (by simp)
      | some es' =>
        rw [ht, hu] at h7
        simp only [Task.keysDistinct, ht] at hk
        simp only [json.encodeMap]
        exact json.encodeValue_same rt _ _ hk h7
  unfold SerializeTask json.Marshal json.encodeTask
  rw [hcfg, ← h1, ← h2, ← h3, ← h4, ← h5, ← h6]

/-! The claims. -/

set_option maxRecDepth 20000

/-- C1 (amended). Round trip on the wire form: for every Task whose config
map is nil or holds only values of the kinds decoding produces (nil,
booleans, finite float64 numbers whose text, as the float routines write it,
is a JSON number that they read back as the same number, strings, slices and
maps of these, each map listed in key order, nested less deep than the
decoder's limit), whose priority is an int64 and whose created_at has a year
from 0 to 9999, no monotonic reading, and offset zero in UTC or a
whole-minute offset below a day in the location the parser gives it,
SerializeTask succeeds with bytes b and DeserializeTask(b) returns a Task
equal to t field for field and a nil error. -/
theorem serialize_deserialize_roundTrip (rt : Runtime) (t : Task) (h : t.onWire rt = true) :
    ∃ b, SerializeTask rt t = .ok b ∧ DeserializeTask rt b = (some t, none) := by
  simp only [Task.onWire, Bool.and_eq_true, decide_eq_true_eq] at h
  obtain ⟨⟨⟨hconfig, hp₀⟩, hp₁⟩, htime⟩ := h
  obtain ⟨cfg, hc1, hc2, hc3, hc4⟩ := json.encodeMap_onWire rt t.Config hconfig
  have htw := htime
  simp only [time.Time.onWire, Bool.and_eq_true, decide_eq_true_eq] at htw
  obtain ⟨⟨⟨⟨_, _⟩, hy0⟩, hy1⟩, hzone⟩ := htw
  have hoff : -86400 < t.CreatedAt.offset ∧ t.CreatedAt.offset < 86400 := by
    by_cases h0 : t.CreatedAt.offset = 0
    · rw [h0]
      decide
    · rw [if_neg h0] at hzone
      simp only [Bool.and_eq_true, decide_eq_true_eq] at hzone
      exact ⟨hzone.1.1.2, hzone.1.2⟩
  have henc : json.encodeTime t.CreatedAt =
      .ok (.string (time.appendFormatRFC3339 t.CreatedAt)) := by
    unfold json.encodeTime
    rw [time.appendStrictRFC3339_ok t.CreatedAt hy0 hy1 hoff.1 hoff.2]
  have htask : json.encodeTask rt t = .ok (.object
      [ ("id".toList, .string (json.appendString t.ID)),
        ("agent_id".toList, .string (json.appendString t.AgentID)),
        ("type".toList, .string (json.appendString t.TaskType)),
        ("input".toList, .string (json.appendString t.Input)),
        ("config".toList, cfg),
        ("priority".toList, .number (formatInt t.Priority)),
        ("created_at".toList, .string (time.appendFormatRFC3339 t.CreatedAt)) ]) := by
    unfold json.encodeTask
    rw [hc1, henc]
  refine ⟨_, by unfold SerializeTask json.Marshal; rw [htask], ?_⟩
  have hprint : (json.Value.object
      [ ("id".toList, .string (json.appendString t.ID)),
        ("agent_id".toList, .string (json.appendString t.AgentID)),
        ("type".toList, .string (json.appendString t.TaskType)),
        ("input".toList, .string (json.appendString t.Input)),
        ("config".toList, cfg),
        ("priority".toList, .number (formatInt t.Priority)),
        ("created_at".toList, .string (time.appendFormatRFC3339 t.CreatedAt)) ]).printable := by
    simp only [json.Value.printable, json.printableMembers, and_true]
    exact ⟨json.tag_plain .id, ⟨_, rfl⟩, json.tag_plain .agentID, ⟨_, rfl⟩,
      json.tag_plain .type_, ⟨_, rfl⟩, json.tag_plain .input, ⟨_, rfl⟩,
      json.tag_plain .config, hc2, json.tag_plain .priority, json.scanNumberLit_formatInt _,
      json.tag_plain .createdAt, ⟨_, (time.appendString_timeText t.CreatedAt).symm⟩⟩
  have hdepth : (json.Value.object
      [ ("id".toList, .string (json.appendString t.ID)),
        ("agent_id".toList, .string (json.appendString t.AgentID)),
        ("type".toList, .string (json.appendString t.TaskType)),
        ("input".toList, .string (json.appendString t.Input)),
        ("config".toList, cfg),
        ("priority".toList, .number (formatInt t.Priority)),
        ("created_at".toList, .string (time.appendFormatRFC3339 t.CreatedAt)) ]).depth ≤
      json.maxNestingDepth := by
    simp only [json.Value.depth, json.depthMembers]
    omega
  unfold DeserializeTask json.Unmarshal
  simp only [json.parse_render _ hprint hdepth,
    json.decodeMembers_encoded rt t cfg hp₀ hp₁ hc4 htime]

/-- C1 (witness). The round trip at a Task in wire form with a nested config,
strings that need escaping, the numbers 1.0 and -42.0 and a timestamp with a
fraction and an offset. -/
theorem serialize_deserialize_roundTrip_witness :
    Example.wireTask.onWire Runtime.standIn = true ∧
      ∃ b, SerializeTask Runtime.standIn Example.wireTask = .ok b ∧
        DeserializeTask Runtime.standIn b = (some Example.wireTask, none) :=
  ⟨by decide, serialize_deserialize_roundTrip Runtime.standIn Example.wireTask (by decide)⟩

/-- C1 (counterexample). Two Tasks that SerializeTask accepts and that do not
come back: with an int in the config map no input at all makes
DeserializeTask return the Task, whatever the float routines; and the Task
stamped by time.Now() comes back in UTC and without its monotonic clock
reading. -/
theorem roundTrip_counterexample :
    (∀ rt : Runtime, ∃ b, SerializeTask rt Example.intConfigTask = .ok b ∧
        ∀ data, (DeserializeTask rt data).1 ≠ some Example.intConfigTask) ∧
      (∀ rt : Runtime, ∃ b, SerializeTask rt Example.stampedTask = .ok b ∧
        DeserializeTask rt b =
          (some { Example.stampedTask with
            CreatedAt := { Example.localNoon with loc := .UTC } }, none) ∧
        (DeserializeTask rt b).1 ≠ some Example.stampedTask) := by
  refine ⟨fun rt => ⟨"\x7b\"id\":\"t1\",\"agent_id\":\"a1\",\"type\":\"echo\",\"input\":\"hello\",\"config\":\x7b\"n\":1\x7d,\"priority\":1,\"created_at\":\"0001-01-01T00:00:00Z\"\x7d".toList,
      rfl, ?_⟩,
    fun rt => ⟨"\x7b\"id\":\"t1\",\"agent_id\":\"a1\",\"type\":\"echo\",\"input\":\"hello\",\"config\":null,\"priority\":1,\"created_at\":\"2024-02-29T17:30:00.5Z\"\x7d".toList,
      rfl, ?_⟩⟩
  · intro data hd
    have hno := json.unmarshal_noInt rt data Task.zero rfl
    simp only [DeserializeTask, Option.some.injEq] at hd
    rw [hd] at hno
    exact absurd hno (by decide)
  · have hb : DeserializeTask rt "\x7b\"id\":\"t1\",\"agent_id\":\"a1\",\"type\":\"echo\",\"input\":\"hello\",\"config\":null,\"priority\":1,\"created_at\":\"2024-02-29T17:30:00.5Z\"\x7d".toList =
        (some { Example.stampedTask with
          CreatedAt := { Example.localNoon with loc := .UTC } }, none) := rfl
    refine ⟨hb, ?_⟩
    rw [hb]
    intro hd
    have hm := congrArg (fun o => o.map (fun t => t.CreatedAt.mono)) hd
    exact absurd hm (by decide)

/-- C3 (amended). Shutdown is single-use: for every Worker produced by
NewWorker the first call to Shutdown completes without panic and leaves the
shutdown signal triggered, and a second call in sequence panics with close of
closed channel. -/
theorem shutdown_single_use (gen : Nat → uuid.UUID) (n : Nat) :
    ∃ w, (NewWorker gen n).1.Shutdown = .ok w ∧ w.shutdown.closed = true ∧
      w.Shutdown = .error .closeOfClosedChannel :=
  ⟨{ (NewWorker gen n).1 with shutdown := { closed := true } }, rfl, rfl, rfl⟩

/-- C3 (counterexample). On a Worker produced by NewWorker the second of two
calls to Shutdown in sequence panics. -/
theorem shutdown_twice_panics :
    ∃ w, (NewWorker Example.gen 0).1.Shutdown = .ok w ∧
      w.Shutdown = .error .closeOfClosedChannel :=
  ⟨{ (NewWorker Example.gen 0).1 with shutdown := { closed := true } }, rfl, rfl⟩

theorem start_ticks (w : Worker) (ctx : context.Context) (n : Nat) (rest : List SelectCase) :
    w.Start ctx (List.replicate n .tick ++ rest) = w.Start ctx rest := by
  unfold Worker.Start
  rw [List.foldl_append]
  congr 1
  induction n with
  | zero => rfl
  | succ k ih =>
    rw [List.replicate_succ, List.foldl_cons]
    exact ih

theorem foldl_step_returned (w : Worker) (ctx : context.Context) (err : Option Error)
    (cases : List SelectCase) :
    cases.foldl (w.step ctx) (.returned err) = .returned err := by
  induction cases with
  | nil => rfl
  | cons c cs ih =>
    rw [List.foldl_cons]
    exact ih

/-- C4. The loop of Start over the cases its select statement acts on: after
any number of timer ticks, a shutdown request makes it return nil and a done
context makes it return ctx.Err(), which is context.Canceled for a cancelled
context and non-nil whenever that case is ready; ticks alone leave it
running; and no other result is possible. -/
theorem start_outcomes (w : Worker) (ctx : context.Context) :
    (∀ n rest, w.Start ctx (List.replicate n .tick ++ .shutdown :: rest) = .returned none) ∧
      (∀ n rest, w.Start ctx (List.replicate n .tick ++ .ctxDone :: rest) =
        .returned ctx.Err) ∧
      (∀ n, w.Start ctx (List.replicate n .tick) = .running) ∧
      (∀ cases, w.Start ctx cases = .running ∨ w.Start ctx cases = .returned none ∨
        w.Start ctx cases = .returned ctx.Err) ∧
      context.Background.cancel.Err = some .canceled ∧
      (w.ready ctx .ctxDone = true → ctx.Err ≠ none) := by
  refine ⟨?_, ?_, ?_, ?_, rfl, ?_⟩
  · intro n rest
    rw [start_ticks]
    exact foldl_step_returned w ctx none rest
  · intro n rest
    rw [start_ticks]
    exact foldl_step_returned w ctx ctx.Err rest
  · intro n
    have := start_ticks w ctx n []
    rw [List.append_nil] at this
    rw [this]
    rfl
  · intro cases
    induction cases with
    | nil => exact Or.inl rfl
    | cons c cs ih =>
      cases c with
      | ctxDone => exact Or.inr (Or.inr (foldl_step_returned w ctx ctx.Err cs))
      | shutdown => exact Or.inr (Or.inl (foldl_step_returned w ctx none cs))
      | tick => exact ih
  · intro h
    cases hc : ctx.err with
    | none =>
      simp only [Worker.ready, context.Context.Done, hc] at h
      exact absurd h (by decide)
    | some e =>
      simp only [context.Context.Err, hc]
      exact fun h' => Option.noConfusion h'

/-- C5. With a monotonic clock that does not go back and whose readings are
non-negative int64 values, ProcessTask returns a nil error and a TaskResult
with the task's id, status completed, empty error, and a duration that is the
whole number of milliseconds from the reading at entry to the reading taken
for the result, hence not negative. -/
theorem processTask_result (w : Worker) (clock : Nat → time.Reading) (task : Task)
    (h₀ : 0 ≤ (clock 0).mono) (hmono : (clock 0).mono ≤ (clock 2).mono)
    (h₂ : (clock 2).mono ≤ 9223372036854775807) :
    ∃ r, (w.ProcessTask clock task).1 = some r ∧ (w.ProcessTask clock task).2.1 = none ∧
      r.TaskID = task.ID ∧ r.Status = "completed".toList ∧ r.Error = [] ∧
      r.Duration = ((clock 2).mono - (clock 0).mono) / 1000000 ∧ 0 ≤ r.Duration := by
  have hd : time.Milliseconds (time.Since (clock 0).mono (clock 2).mono) =
      ((clock 2).mono - (clock 0).mono) / 1000000 := by
    have hw : time.wrapInt64 ((clock 2).mono - (clock 0).mono) =
        (clock 2).mono - (clock 0).mono := by
      unfold time.wrapInt64
      omega
    unfold time.Milliseconds time.Since time.subMono
    simp only [hw]
    rw [if_neg (by omega), if_neg (by omega)]
    exact Int.tdiv_eq_ediv (by omega) (by decide)
  refine ⟨_, rfl, rfl, rfl, rfl, rfl, hd, ?_⟩
  show 0 ≤ time.Milliseconds (time.Since (clock 0).mono (clock 2).mono)
  rw [hd]
  omega

/-- C5 (witness). The scenario Task on a clock that advances by 100.4
milliseconds per reading: the duration is 200 milliseconds. -/
theorem processTask_result_witness :
    ∃ r, ((NewWorker Example.gen 0).1.ProcessTask Example.clock Example.echoTask).1 = some r ∧
      ((NewWorker Example.gen 0).1.ProcessTask Example.clock Example.echoTask).2.1 = none ∧
      r.TaskID = Example.echoTask.ID ∧ r.Status = "completed".toList ∧ r.Error = [] ∧
      r.Duration = ((Example.clock 2).mono - (Example.clock 0).mono) / 1000000 ∧
      0 ≤ r.Duration :=
  processTask_result (NewWorker Example.gen 0).1 Example.clock Example.echoTask
    (by decide) (by decide) (by decide)

/-- C6. The output of ProcessTask is the text Task, the task's id, processed
successfully by agent, and the task's agent id, so it contains both
identifiers. -/
theorem processTask_output (w : Worker) (clock : Nat → time.Reading) (task : Task) :
    ∃ r, (w.ProcessTask clock task).1 = some r ∧
      r.Output = "Task ".toList ++ task.ID ++ " processed successfully by agent ".toList ++
        task.AgentID ∧
      task.ID <:+: r.Output ∧ task.AgentID <:+: r.Output := by
  have hout : fmt.Sprintf "Task %s processed successfully by agent %s".toList
      [task.ID, task.AgentID] =
      "Task ".toList ++ task.ID ++ " processed successfully by agent ".toList ++
        task.AgentID := by
    simp [fmt.Sprintf]
  refine ⟨_, rfl, hout, ?_, ?_⟩
  · show task.ID <:+: fmt.Sprintf _ _
    rw [hout]
    exact ⟨"Task ".toList, " processed successfully by agent ".toList ++ task.AgentID,
      by simp only [List.append_assoc]⟩
  · show task.AgentID <:+: fmt.Sprintf _ _
    rw [hout]
    exact ⟨"Task ".toList ++ task.ID ++ " processed successfully by agent ".toList, [],
      by simp only [List.append_nil]⟩

/-- C6 (witness). The scenario Task: the output is the sentence with t1 and
a1 in it. -/
theorem processTask_output_witness :
    ((NewWorker Example.gen 0).1.ProcessTask Example.clock Example.echoTask).1.map
        (fun r => r.Output) =
      some "Task t1 processed successfully by agent a1".toList ∧
      ∃ r, ((NewWorker Example.gen 0).1.ProcessTask Example.clock Example.echoTask).1 = some r ∧
        r.Output = "Task ".toList ++ Example.echoTask.ID ++
          " processed successfully by agent ".toList ++ Example.echoTask.AgentID ∧
        Example.echoTask.ID <:+: r.Output ∧ Example.echoTask.AgentID <:+: r.Output :=
  ⟨by decide, processTask_output (NewWorker Example.gen 0).1 Example.clock Example.echoTask⟩

/-- C7 (amended). SerializeTask returns a nil error for every Task whose
config values are all representable, whose created_at has a year from 0 to
9999 and whose zone offset is less than a day, whatever the other fields;
and equal Tasks yield equal bytes: a Task that is the same Go value, with the
entries of its config map and of every map nested in it listed in any order,
is encoded to the same result. -/
theorem serializeTask_succeeds (rt : Runtime) (t : Task) (h : t.encodable = true) :
    (∃ b, SerializeTask rt t = .ok b) ∧
      ∀ u : Task, t.keysDistinct = true → t.same u → SerializeTask rt u = SerializeTask rt t := by
  simp only [Task.encodable, Bool.and_eq_true, decide_eq_true_eq] at h
  obtain ⟨⟨⟨⟨hconfig, hy0⟩, hy1⟩, ho0⟩, ho1⟩ := h
  have henc : json.encodeTime t.CreatedAt =
      .ok (.string (time.appendFormatRFC3339 t.CreatedAt)) := by
    unfold json.encodeTime
    rw [time.appendStrictRFC3339_ok t.CreatedAt hy0 hy1 ho0 ho1]
  constructor
  · have hcfg : ∃ v, json.encodeMap rt t.Config = .ok v := by
      cases hc : t.Config with
      | none => exact ⟨.null, rfl⟩
      | some entries =>
        rw [hc] at hconfig
        exact json.encodeValue_representable rt (.map entries) hconfig
    obtain ⟨cfg, hcfg⟩ := hcfg
    refine ⟨json.render (.object
      [ ("id".toList, .string (json.appendString t.ID)),
        ("agent_id".toList, .string (json.appendString t.AgentID)),
        ("type".toList, .string (json.appendString t.TaskType)),
        ("input".toList, .string (json.appendString t.Input)),
        ("config".toList, cfg),
        ("priority".toList, .number (formatInt t.Priority)),
        ("created_at".toList, .string (time.appendFormatRFC3339 t.CreatedAt)) ]), ?_⟩
    unfold SerializeTask json.Marshal json.encodeTask
    rw [hcfg, henc]
  · intro u hk hs
    exact serializeTask_same rt t u hk hs

/-- The two listings of the example hold the same Go value. -/
theorem listedTask_same : Example.listedTask.same Example.relistedTask := by
  refine ⟨rfl, rfl, rfl, rfl, rfl, rfl, ?_⟩
  show (GoValue.map _).same (GoValue.map _)
  simp only [GoValue.same, GoValue.sameEntries, GoValue.sameElems]
  refine ⟨[("b".toList, .map
      [ ("x".toList, .slice [.map [("p".toList, .bool true), ("q".toList, .nil)]]),
        ("y".toList, .int 2) ]), ("a".toList, .bool true)], _, rfl, ?_, List.Perm.swap _ _ _⟩
  refine ⟨_, _, rfl, ?_, _, _, rfl, rfl, rfl⟩
  refine ⟨[("y".toList, .int 2),
    ("x".toList, .slice [.map [("p".toList, .bool true), ("q".toList, .nil)]])], _, rfl, ?_,
    List.Perm.swap _ _ _⟩
  refine ⟨_, _, rfl, rfl, _, _, rfl, ?_, rfl⟩
  refine ⟨_, rfl, _, _, rfl, ?_, rfl⟩
  exact ⟨[("q".toList, .nil), ("p".toList, .bool true)], _, rfl,
    ⟨_, _, rfl, rfl, _, _, rfl, rfl, rfl⟩, List.Perm.swap _ _ _⟩

/-- C7 (witness). A Task whose config holds maps nested in a map and in a
slice is encoded, and the Task with every map listed in another order gives
the same bytes. -/
theorem serializeTask_succeeds_witness :
    Example.listedTask.encodable = true ∧
      (∃ b, SerializeTask Runtime.standIn Example.listedTask = .ok b) ∧
      SerializeTask Runtime.standIn Example.relistedTask =
        SerializeTask Runtime.standIn Example.listedTask :=
  ⟨by decide,
    (serializeTask_succeeds Runtime.standIn Example.listedTask (by decide)).1,
    (serializeTask_succeeds Runtime.standIn Example.listedTask (by decide)).2
      Example.relistedTask (by decide) listedTask_same⟩

/-- C7 (counterexample). A Task with a nil config map and a created_at in the
year 10000: SerializeTask returns the error of Time.MarshalJSON. -/
theorem serializeTask_year_10000 :
    Example.farFutureTask.Config = none ∧
      ∀ rt : Runtime, SerializeTask rt Example.farFutureTask =
        .error (.marshaler "Time.MarshalJSON: year outside of range [0,9999]".toList) :=
  ⟨rfl, fun _ => rfl⟩

/-- C8. The end of main on the value Start returned: for nil and for
context.Canceled the completion message is logged and the exit status is 0;
for every other error the error is logged at fatal level and the exit status
is 1. -/
theorem main_exit_decision (err : Option Error) :
    ((err = none ∨ err = some .canceled) →
        mainAfterStart err =
          { log := [zerolog.global.event .info [] "Worker shutdown complete".toList]
            status := 0 }) ∧
      (∀ e, err = some e → e ≠ .canceled →
        mainAfterStart err =
          { log := [zerolog.global.event .fatal [("error".toList, e.text)]
              "Worker failed".toList]
            status := 1 }) := by
  constructor
  · intro h
    unfold mainAfterStart
    rw [if_neg]
    rcases h with h | h
    · rw [h]
      simp
    · rw [h]
      simp
  · intro e he hne
    unfold mainAfterStart
    rw [he, if_pos ⟨by simp, by simpa using hne⟩]
    rfl

/-- C8 (witness). Nil and context.Canceled end with status 0, a deadline
error ends with status 1. -/
theorem main_exit_decision_witness :
    (mainAfterStart none).status = 0 ∧ (mainAfterStart (some .canceled)).status = 0 ∧
      (mainAfterStart (some .deadlineExceeded)).status = 1 :=
  ⟨congrArg Exit.status ((main_exit_decision none).1 (Or.inl rfl)),
    congrArg Exit.status ((main_exit_decision (some .canceled)).1 (Or.inr rfl)),
    congrArg Exit.status
      ((main_exit_decision (some .deadlineExceeded)).2 .deadlineExceeded rfl (by decide))⟩

/-- C9 (the code at the failing input). NewWorker draws two values from the
generator: the ID field comes from the first and the worker_id field of the
logger from the second, so with a generator whose first two values differ the
two identifiers differ; each has length 8. -/
theorem newWorker_ids_differ :
    (NewWorker Example.gen 0).1.ID = "00000000".toList ∧
      (NewWorker Example.gen 0).1.logger.context =
        [("worker_id".toList, "11111111".toList)] ∧
      (NewWorker Example.gen 0).1.ID.length = 8 := by
  decide

/-- C10. DeserializeTask never returns a nil pointer; on input that is not
one JSON value, such as empty or truncated input, the Task returned with the
error is the zero Task; and on the object with id x and a string for priority
the Task returned with the error has id x. -/
theorem deserialize_pointer (rt : Runtime) (data : List Char) :
    (∃ t, (DeserializeTask rt data).1 = some t) ∧
      (json.parse data = none →
        DeserializeTask rt data = (some Task.zero, some .invalidJSON)) ∧
      DeserializeTask rt [] = (some Task.zero, some .invalidJSON) ∧
      DeserializeTask rt "\x7b\"id\":\"x\"".toList = (some Task.zero, some .invalidJSON) ∧
      DeserializeTask rt "\x7b\"id\":\"x\",\"priority\":\"high\"\x7d".toList =
        (some { Task.zero with ID := "x".toList },
          some (.unmarshalType "string".toList "priority".toList)) := by
  refine ⟨⟨_, rfl⟩, ?_, rfl, rfl, rfl⟩
  intro h
  unfold DeserializeTask json.Unmarshal
  rw [h]

end Athena
